import Mathlib

/-!
Shallow embedding of the B-tree implementation in `btree.h` (template class
`Btree<T>`, instantiated at integer keys), together with proofs about its
public operations `search`, `insert`, `remove` and the internal helpers
`_vacant_insert_key_in_node`, `_vacant_split_child`, `_vacant_insert`,
`_find_home_node`, `_remove`, `_rm_key_from_node`, `_rm_key_from_internal_node`,
`_rm_from_internal_node_without_key`, `_merge_nodes`, `_get_predecessor`,
`_get_successor`, `_fix_empty_root` and `_is_duplicate`.

Modelling conventions:
* A node is a constructor holding the `leaf_status` flag, the key vector and
  the child-pointer vector.  Mutation becomes functional update; the
  shared-pointer graph of the source is a strict tree (each child has exactly
  one parent), so rebuilding the affected path is an exact model.
* The recursive helpers of the source recurse along child pointers; the model
  gives them an explicit fuel argument.  One unit of fuel is consumed per
  level of descent, and the public wrappers pass the root height (plus one
  for root growth), which is shown to suffice on well-formed trees.
  Exhausted fuel is the distinguished outcome `gas`, which never occurs on
  well-formed input.
* `throw std::out_of_range` (the not-found error) and the throwing accessor
  `std::vector::at` produce the same observable exception type
  `std::out_of_range`; both are modelled by the `err` outcome, which carries
  the tree state at the moment the exception propagates.
* `std::vector::back`, `front` and iterator arithmetic on an empty vector are
  undefined behaviour in the source; the model makes every such access
  explicit and returns the distinguished outcome `ub` when the index is out
  of range.
* Assertions (`assert`, `_check_ordering`) compile to nothing in release
  builds and are not modelled, except that argument expressions of the form
  `children.at(idx)` are evaluated even in release builds and are therefore
  modelled as potential `err` outcomes.
-/

namespace BT

/-- A node of the B-tree: `leaf_status`, the ordered key vector `keys` and the
child-pointer vector `children` (class `Btree<T>::Node` in `btree.h`). -/
inductive Node : Type where
  | mk (leaf : Bool) (keys : List Int) (children : List Node)

/-- `Node::is_leaf()`. -/
def Node.is_leaf : Node → Bool
  | .mk lf _ _ => lf

/-- The key vector of a node. -/
def Node.keys : Node → List Int
  | .mk _ ks _ => ks

/-- The child vector of a node. -/
def Node.children : Node → List Node
  | .mk _ _ cs => cs

mutual
/-- Height of the subtree rooted at a node: 1 for a leaf, one more than the
maximal child height otherwise.  Used as the recursion budget for the fuelled
helpers. -/
def Node.height : Node → Nat
  | .mk _ _ cs => 1 + heightL cs
/-- Maximal height of a list of nodes. -/
def heightL : List Node → Nat
  | [] => 0
  | c :: cs => max c.height (heightL cs)
end

mutual
/-- The inorder key sequence of the subtree rooted at a node: for an internal
node with keys `k1 < ... < kn` and children `c0, ..., cn` it is
`c0, k1, c1, ..., kn, cn`; for a leaf it is the key vector itself. -/
def Node.inorder : Node → List Int
  | .mk _ ks cs => inorderA ks cs
/-- Glue a key list and a child list into the inorder sequence. -/
def inorderA : List Int → List Node → List Int
  | ks, [] => ks
  | ks, c :: cs =>
    c.inorder ++
      match ks with
      | [] => inorderA [] cs
      | k :: ks' => k :: inorderA ks' cs
end

/-- The tree container (`class Btree<T>`): minimum degree, root pointer and key
counter `num_keys`. -/
structure Btree where
  degree : Nat
  root : Node
  num_keys : Nat

/-- The constructor `Btree(const size_t _min_degree)`: a leaf root with no keys
and `num_keys = 0`. -/
def Btree.new (t : Nat) : Btree :=
  ⟨t, .mk true [] [], 0⟩

/-- `Btree::get_size()`. -/
def Btree.get_size (b : Btree) : Nat :=
  b.num_keys

/-- `Node::_vacant_insert_key_in_node`: scan the key vector left to right; at
the first entry greater than `key` (or at the end) insert `key` there, at an
entry equal to `key` overwrite it in place.  The returned number is the
source's return value `std::distance(it, keys.end())` taken after the
operation, with the iterator `it` at the position just written. -/
def vacant_insert_key_in_node (key : Int) : List Int → List Int × Nat
  | [] => ([key], 1)
  | x :: xs =>
    if x > key then (key :: x :: xs, xs.length + 2)
    else if x = key then (key :: xs, xs.length + 1)
    else
      let r := vacant_insert_key_in_node key xs
      (x :: r.1, r.2)

/-- The key vector produced by `_vacant_insert_key_in_node` (first component;
the second is only the returned index). -/
def insKey (key : Int) (l : List Int) : List Int :=
  (vacant_insert_key_in_node key l).1

/-- `Btree::_is_duplicate`: scan the node's keys for `key`; on a hit the source
overwrites the entry with the equal value `key` (leaving the vector unchanged)
and reports `true`. -/
def is_duplicate (key : Int) (nd : Node) : Bool :=
  nd.keys.contains key

/-- `Node::_vacant_split_child(c_idx)`: split the full child `c1` at index
`c_idx`.  The upper `t-1` keys of `c1` move (by repeated sorted insertion)
into a fresh sibling `c2` together with the upper `t` children when `c1` is
internal; the median key `c1.keys[t-1]` is inserted into this node's keys and
`c2` into the children at `c_idx + 1`; finally `c1` is truncated to its first
`t-1` keys (and first `t` children when internal).  `none` models an
out-of-range vector access, which the source's asserted preconditions (node
not full, child at `c_idx` full) rule out. -/
def vacant_split_child (t : Nat) (c_idx : Nat) : Node → Option Node
  | .mk lf ks cs =>
    match cs[c_idx]? with
    | none => none
    | some c1 =>
      if c1.keys.length < t then none
      else if !c1.is_leaf && c1.children.length < 2 * t then none
      else
        match c1.keys[t - 1]? with
        | none => none
        | some med =>
          let c2 : Node :=
            .mk c1.is_leaf ((c1.keys.drop t).foldl (fun a k => insKey k a) [])
              (if c1.is_leaf then [] else (c1.children.drop t).take t)
          let c1' : Node :=
            .mk c1.is_leaf (c1.keys.take (t - 1))
              (if c1.is_leaf then c1.children else c1.children.take t)
          some (.mk lf (insKey med ks) (((cs.insertIdx (c_idx + 1) c2)).set c_idx c1'))

/-- `Btree::_vacant_insert(key, nd)`: recursive single-pass insertion into a
non-full node.  On a leaf the key is inserted directly; otherwise a duplicate
in this node is overwritten, else the child index is located by the source's
scan (`idx = size` when `key > keys.back()`, the while-loop position when
`key >= keys.front()`, else `0`), the child is split first when full, and the
recursion descends.  `none` models fuel exhaustion or an out-of-range access
(`keys.back()` on an empty internal node, `children.at`). -/
def vacant_insert (t : Nat) : Nat → Int → Node → Option Node
  | 0, _, _ => none
  | fuel + 1, key, .mk lf ks cs =>
    if lf then some (.mk lf (insKey key ks) cs)
    else if is_duplicate key (.mk lf ks cs) then some (.mk lf ks cs)
    else
      match ks.getLast?, ks.head? with
      | some back, some front =>
        let idx : Nat :=
          if key > back then ks.length
          else if key ≥ front then (ks.takeWhile (fun x => decide (x < key))).length
          else 0
        match cs[idx]? with
        | none => none
        | some nxt =>
          if nxt.keys.length ≠ 2 * t - 1 then
            (vacant_insert t fuel key nxt).map (fun c' => .mk lf ks (cs.set idx c'))
          else
            match vacant_split_child t idx (.mk lf ks cs) with
            | none => none
            | some nd' =>
              match nd'.keys[idx]? with
              | none => none
              | some ki =>
                if key < ki then
                  match nd'.children[idx]? with
                  | none => none
                  | some c =>
                    (vacant_insert t fuel key c).map
                      (fun c' => .mk nd'.is_leaf nd'.keys (nd'.children.set idx c'))
                else if key = ki then
                  some (.mk nd'.is_leaf (nd'.keys.set idx key) nd'.children)
                else
                  match nd'.children[idx + 1]? with
                  | none => none
                  | some c =>
                    (vacant_insert t fuel key c).map
                      (fun c' => .mk nd'.is_leaf nd'.keys (nd'.children.set (idx + 1) c'))
      | _, _ => none

/-- `Btree::insert(key)`: when the root is full, grow a new internal root with
the old root as its only child and split it (root growth), then run
`_vacant_insert` from the (new) root; `num_keys` is incremented
unconditionally at the end.  The fuel `root.height + 1` covers the descent
also after root growth. -/
def Btree.insert (b : Btree) (key : Int) : Option Btree :=
  let t := b.degree
  if b.root.keys.length = 2 * t - 1 then
    let nnode : Node := .mk false [] [b.root]
    match vacant_split_child t 0 nnode with
    | none => none
    | some nr =>
      (vacant_insert t (b.root.height + 1) key nr).map
        (fun r => ⟨t, r, b.num_keys + 1⟩)
  else
    (vacant_insert t (b.root.height + 1) key b.root).map
      (fun r => ⟨t, r, b.num_keys + 1⟩)

/-- Result of the key scan inside `_find_home_node`: first entry equal to the
key (`found i`), first entry greater than the key (`descend i`), or scan
exhausted (`miss`). -/
inductive ScanRes : Type where
  | found (i : Nat)
  | descend (i : Nat)
  | miss

/-- The left-to-right key scan of `_find_home_node`, with the running position
`i` (`std::distance(first_it, it)` in the source). -/
def fh_scan (key : Int) : List Int → Nat → ScanRes
  | [], _ => .miss
  | x :: xs, i =>
    if x = key then .found i
    else if x > key then .descend i
    else fh_scan key xs (i + 1)

/-- Outcome of `_find_home_node`: a node/index pair, a thrown
`std::out_of_range` (from `children.at`), an undefined access
(`children.back()` on an empty vector), or fuel exhaustion. -/
inductive FindRes : Type where
  | ok (nd : Node) (i : Nat)
  | thrown
  | ub
  | gas

/-- `Btree::_find_home_node(key, local_root)`: scan this node's keys; on a hit
return this node with the hit index; at the first greater key return this node
with index `0` when it is a leaf, else recurse into the child at the scan
position; when the scan exhausts, return this node with index `0` when it is
a leaf, else recurse into the last child. -/
def find_home_node : Nat → Int → Node → FindRes
  | 0, _, _ => .gas
  | fuel + 1, key, .mk lf ks cs =>
    match fh_scan key ks 0 with
    | .found i => .ok (.mk lf ks cs) i
    | .descend i =>
      if lf then .ok (.mk lf ks cs) 0
      else
        match cs[i]? with
        | none => .thrown
        | some c => find_home_node fuel key c
    | .miss =>
      if lf then .ok (.mk lf ks cs) 0
      else
        match cs.getLast? with
        | none => .ub
        | some c => find_home_node fuel key c

/-- Outcome of `Btree::search`: the found key, a thrown `std::out_of_range`
(either the explicit not-found throw or a throwing `vector::at` — the same
observable exception type), an undefined access, or fuel exhaustion. -/
inductive SearchRes : Type where
  | found (k : Int)
  | thrown
  | ub
  | gas
deriving DecidableEq

/-- `Btree::search(key)`: run `_find_home_node` from the root, read the key at
the returned index with `keys.at` (which throws `std::out_of_range` when the
index is out of range, e.g. on the empty tree), and return it when it equals
`key`, else throw. -/
def Btree.search (b : Btree) (key : Int) : SearchRes :=
  match find_home_node b.root.height key b.root with
  | .ok nd i =>
    match nd.keys[i]? with
    | none => .thrown
    | some v => if v = key then .found v else .thrown
  | .thrown => .thrown
  | .ub => .ub
  | .gas => .gas

/-- Outcome of the removal helpers on a subtree: normal return with the
transformed subtree, a propagating `std::out_of_range` exception carrying the
subtree state at that moment (`err`), an undefined out-of-range access
(`ub`), or fuel exhaustion (`gas`). -/
inductive RmRes : Type where
  | ok (nd : Node)
  | err (nd : Node)
  | ub
  | gas

/-- `Btree::_rm_key_from_node(key, nd)` restricted to the key vector: scan left
to right, erase the first entry equal to `key`; stop and throw at the first
greater entry or at the end (`none` = the thrown not-found exception). -/
def rm_key_from_node (key : Int) : List Int → Option (List Int)
  | [] => none
  | x :: xs =>
    if x = key then some xs
    else if x > key then none
    else (rm_key_from_node key xs).map (fun r => x :: r)

/-- `Btree::_merge_nodes(nd_y, key, nd_z)`: append `key` and all keys of
`nd_z` to `nd_y`, append all children of `nd_z` to `nd_y`, destroy `nd_z`. -/
def merge_nodes : Node → Int → Node → Node
  | .mk lf ks cs, key, .mk _ ks2 cs2 => .mk lf (ks ++ key :: ks2) (cs ++ cs2)

/-- Outcome of `_get_predecessor` / `_get_successor`: a key, an undefined
access (`keys.back()`/`front()` or `children.back()`/`front()` on an empty
vector), or fuel exhaustion. -/
inductive KeyRes : Type where
  | ok (k : Int)
  | ub
  | gas

/-- `Btree::_get_predecessor(k, nd)`: the last key of the rightmost leaf of
the subtree at `nd` (the argument key is unused by the source). -/
def get_predecessor : Nat → Node → KeyRes
  | 0, _ => .gas
  | fuel + 1, .mk lf ks cs =>
    if lf then
      match ks.getLast? with
      | none => .ub
      | some k => .ok k
    else
      match cs.getLast? with
      | none => .ub
      | some c => get_predecessor fuel c

/-- `Btree::_get_successor(k, nd)`: the first key of the leftmost leaf of the
subtree at `nd`. -/
def get_successor : Nat → Node → KeyRes
  | 0, _ => .gas
  | fuel + 1, .mk lf ks cs =>
    if lf then
      match ks.head? with
      | none => .ub
      | some k => .ok k
    else
      match cs.head? with
      | none => .ub
      | some c => get_successor fuel c

/-- Test used by `_rm_from_internal_node_without_key`: the optional sibling
exists and has at least `degree` keys. -/
def sib_can_lend (t : Nat) : Option Node → Bool
  | some l => decide (t ≤ l.keys.length)
  | none => false

mutual

/-- `Btree::_remove(key, nd)`: locate the scan index `idx` and the home node
exactly as the source does (`keys.back()` first — an undefined read on an
empty key vector — then the three-way comparison against `front`), then
dispatch: erase in a leaf containing the key, `_rm_key_from_internal_node`
when this internal node holds the key, `_rm_from_internal_node_without_key`
otherwise; a leaf without the key throws.  `isRoot` records whether the
source's `nd->is_root()` holds (the tree-level root pointer is threaded down
only where the source consults it). -/
def remove_rec (t : Nat) (isRoot : Bool) (fuel : Nat) (key : Int) : Node → RmRes
  | .mk lf ks cs =>
    match ks.getLast? with
    | none => .ub
    | some back =>
      if key > back then
        if lf then .err (.mk lf ks cs)
        else
          match cs[ks.length]? with
          | none => .err (.mk lf ks cs)
          | some _ => rm_from_internal_node_without_key t isRoot fuel key ks.length (.mk lf ks cs)
      else
        match ks.head? with
        | none => .ub
        | some front =>
          if key ≥ front then
            let idx := (ks.takeWhile (fun x => decide (x < key))).length
            match ks[idx]? with
            | some ki =>
              if ki = key then
                if lf then
                  match rm_key_from_node key ks with
                  | some ks' => .ok (.mk lf ks' cs)
                  | none => .err (.mk lf ks cs)
                else rm_key_from_internal_node t isRoot fuel key idx (.mk lf ks cs)
              else
                match cs[idx]? with
                | none => .err (.mk lf ks cs)
                | some _ =>
                  if lf then .err (.mk lf ks cs)
                  else rm_from_internal_node_without_key t isRoot fuel key idx (.mk lf ks cs)
            | none =>
              match cs[idx]? with
              | none => .err (.mk lf ks cs)
              | some _ =>
                if lf then .err (.mk lf ks cs)
                else rm_from_internal_node_without_key t isRoot fuel key idx (.mk lf ks cs)
          else
            if lf then .err (.mk lf ks cs)
            else
              match cs[0]? with
              | none => .err (.mk lf ks cs)
              | some _ => rm_from_internal_node_without_key t isRoot fuel key 0 (.mk lf ks cs)

/-- `Btree::_rm_key_from_internal_node(key, idx, nd)`: `keys[idx] == key`
holds at the call site.  With `y = children[idx]`, `z = children[idx+1]`:
replace the key by the predecessor from `y` when `y` has at least `degree`
keys (then remove the predecessor from `y`), else by the successor from `z`
when `z` has at least `degree` keys, else merge `y`, the key and `z`, erase
them from this node (promoting the merged node to root when this node is the
root with a single key, as `root = nd_y` plus `_fix_empty_root` do) and
recurse into the merged node. -/
def rm_key_from_internal_node (t : Nat) (isRoot : Bool) : Nat → Int → Nat → Node → RmRes
  | 0, _, _, _ => .gas
  | fuel + 1, key, idx, .mk lf ks cs =>
    match cs[idx]?, cs[idx + 1]? with
    | some ndY, some ndZ =>
      if t ≤ ndY.keys.length then
        match ks[idx]? with
        | none => .err (.mk lf ks cs)
        | some _ =>
          match get_predecessor (fuel + 1) ndY with
          | .ub => .ub
          | .gas => .gas
          | .ok pr =>
            match remove_rec t false fuel pr ndY with
            | .ok y' => .ok (.mk lf (ks.set idx pr) (cs.set idx y'))
            | .err y' => .err (.mk lf (ks.set idx pr) (cs.set idx y'))
            | .ub => .ub
            | .gas => .gas
      else if t ≤ ndZ.keys.length then
        match ks[idx]? with
        | none => .err (.mk lf ks cs)
        | some _ =>
          match get_successor (fuel + 1) ndZ with
          | .ub => .ub
          | .gas => .gas
          | .ok su =>
            match remove_rec t false fuel su ndZ with
            | .ok z' => .ok (.mk lf (ks.set idx su) (cs.set (idx + 1) z'))
            | .err z' => .err (.mk lf (ks.set idx su) (cs.set (idx + 1) z'))
            | .ub => .ub
            | .gas => .gas
      else
        match ks[idx]? with
        | none => .err (.mk lf ks cs)
        | some tmp =>
          if isRoot && ks.length == 1 then
            remove_rec t true fuel key (merge_nodes ndY tmp ndZ)
          else
            match remove_rec t false fuel key (merge_nodes ndY tmp ndZ) with
            | .ok m => .ok (.mk lf (ks.eraseIdx idx) ((cs.eraseIdx (idx + 1)).set idx m))
            | .err m => .err (.mk lf (ks.eraseIdx idx) ((cs.eraseIdx (idx + 1)).set idx m))
            | .ub => .ub
            | .gas => .gas
    | _, _ => .err (.mk lf ks cs)

/-- `Btree::_rm_from_internal_node_without_key(key, idx, nd)`: descend into
`cn = children[idx]`, after thickening it when it has only `degree - 1` keys:
borrow through this node from a sibling with at least `degree` keys (left
preferred), else merge `cn` with a sibling pulling the separator key down
(left sibling preferred; when this node is the root left with no keys the
merged node becomes the root, as `_fix_empty_root` does). -/
def rm_from_internal_node_without_key (t : Nat) (isRoot : Bool) : Nat → Int → Nat → Node → RmRes
  | 0, _, _, _ => .gas
  | fuel + 1, key, idx, .mk lf ks cs =>
    match cs[idx]? with
    | none => .err (.mk lf ks cs)
    | some cn =>
      let lsib? : Option Node := if idx = 0 then none else cs[idx - 1]?
      let rsib? : Option Node := if idx = cs.length - 1 then none else cs[idx + 1]?
      if t - 1 < cn.keys.length then
        match remove_rec t false fuel key cn with
        | .ok c' => .ok (.mk lf ks (cs.set idx c'))
        | .err c' => .err (.mk lf ks (cs.set idx c'))
        | .ub => .ub
        | .gas => .gas
      else if sib_can_lend t lsib? then
        match lsib? with
        | none => .ub
        | some lsib =>
          match ks[idx - 1]? with
          | none => .err (.mk lf ks cs)
          | some tmp_key =>
            match lsib.keys.getLast? with
            | none => .ub
            | some lback =>
              if lsib.is_leaf then
                let cn' : Node := .mk cn.is_leaf (tmp_key :: cn.keys) cn.children
                let lsib' : Node := .mk lsib.is_leaf lsib.keys.dropLast lsib.children
                match remove_rec t false fuel key cn' with
                | .ok c' =>
                  .ok (.mk lf (ks.set (idx - 1) lback) (((cs.set (idx - 1) lsib').set idx c')))
                | .err c' =>
                  .err (.mk lf (ks.set (idx - 1) lback) (((cs.set (idx - 1) lsib').set idx c')))
                | .ub => .ub
                | .gas => .gas
              else
                match lsib.children.getLast? with
                | none => .ub
                | some lchild =>
                  let cn' : Node := .mk cn.is_leaf (tmp_key :: cn.keys) (lchild :: cn.children)
                  let lsib' : Node :=
                    .mk lsib.is_leaf lsib.keys.dropLast lsib.children.dropLast
                  match remove_rec t false fuel key cn' with
                  | .ok c' =>
                    .ok (.mk lf (ks.set (idx - 1) lback) (((cs.set (idx - 1) lsib').set idx c')))
                  | .err c' =>
                    .err (.mk lf (ks.set (idx - 1) lback) (((cs.set (idx - 1) lsib').set idx c')))
                  | .ub => .ub
                  | .gas => .gas
      else if sib_can_lend t rsib? then
        match rsib? with
        | none => .ub
        | some rsib =>
          match ks[idx]? with
          | none => .err (.mk lf ks cs)
          | some tmp_key =>
            match rsib.keys.head? with
            | none => .ub
            | some rfront =>
              if rsib.is_leaf then
                let cn' : Node := .mk cn.is_leaf (cn.keys ++ [tmp_key]) cn.children
                let rsib' : Node := .mk rsib.is_leaf rsib.keys.tail rsib.children
                match remove_rec t false fuel key cn' with
                | .ok c' =>
                  .ok (.mk lf (ks.set idx rfront) (((cs.set (idx + 1) rsib').set idx c')))
                | .err c' =>
                  .err (.mk lf (ks.set idx rfront) (((cs.set (idx + 1) rsib').set idx c')))
                | .ub => .ub
                | .gas => .gas
              else
                match rsib.children.head? with
                | none => .ub
                | some rchild =>
                  let cn' : Node :=
                    .mk cn.is_leaf (cn.keys ++ [tmp_key]) (cn.children ++ [rchild])
                  let rsib' : Node := .mk rsib.is_leaf rsib.keys.tail rsib.children.tail
                  match remove_rec t false fuel key cn' with
                  | .ok c' =>
                    .ok (.mk lf (ks.set idx rfront) (((cs.set (idx + 1) rsib').set idx c')))
                  | .err c' =>
                    .err (.mk lf (ks.set idx rfront) (((cs.set (idx + 1) rsib').set idx c')))
                  | .ub => .ub
                  | .gas => .gas
      else
        match lsib? with
        | some lsib =>
          match ks[idx - 1]? with
          | none => .err (.mk lf ks cs)
          | some tmp =>
            if isRoot && ks.length == 1 then
              remove_rec t true fuel key (merge_nodes lsib tmp cn)
            else
              match remove_rec t false fuel key (merge_nodes lsib tmp cn) with
              | .ok m =>
                .ok (.mk lf (ks.eraseIdx (idx - 1)) ((cs.eraseIdx idx).set (idx - 1) m))
              | .err m =>
                .err (.mk lf (ks.eraseIdx (idx - 1)) ((cs.eraseIdx idx).set (idx - 1) m))
              | .ub => .ub
              | .gas => .gas
        | none =>
          match ks[idx]? with
          | none => .err (.mk lf ks cs)
          | some tmp =>
            match rsib? with
            | none => .ub
            | some rsib =>
              if isRoot && ks.length == 1 then
                remove_rec t true fuel key (merge_nodes cn tmp rsib)
              else
                match remove_rec t false fuel key (merge_nodes cn tmp rsib) with
                | .ok m =>
                  .ok (.mk lf (ks.eraseIdx idx) ((cs.eraseIdx (idx + 1)).set idx m))
                | .err m =>
                  .err (.mk lf (ks.eraseIdx idx) ((cs.eraseIdx (idx + 1)).set idx m))
                | .ub => .ub
                | .gas => .gas

end

/-- `Btree::_fix_empty_root()`: when the root is internal with no keys,
replace it by its only child (`children.at(0)`, whose throw on an internal
node without children is modelled by `none`). -/
def fix_empty_root (nd : Node) : Option Node :=
  if nd.keys.length == 0 && !nd.is_leaf then nd.children[0]?
  else some nd

/-- Outcome of `Btree::remove` at the tree level. -/
inductive TreeRes : Type where
  | ok (b : Btree)
  | err (b : Btree)
  | ub
  | gas

/-- `Btree::remove(key)`: run `_remove` from the root; on normal return
decrement `num_keys` and apply `_fix_empty_root`; a propagating exception
leaves `num_keys` untouched and skips the top-level `_fix_empty_root` (any
root shrink needed on that path already happened inside the recursion). -/
def Btree.remove (b : Btree) (key : Int) : TreeRes :=
  match remove_rec b.degree true b.root.height key b.root with
  | .ok r =>
    match fix_empty_root r with
    | some r' => .ok ⟨b.degree, r', b.num_keys - 1⟩
    | none => .err ⟨b.degree, r, b.num_keys - 1⟩
  | .err r => .err ⟨b.degree, r, b.num_keys⟩
  | .ub => .ub
  | .gas => .gas

/-- All members of a child list have the same height (equivalently, all leaves
below this node lie at the same depth — invariant (1) locally). -/
def heightsEq (cs : List Node) : Bool :=
  cs.all (fun c => c.height == heightL cs)

mutual
/-- Shape invariants of a node with no lower bound on this node's own key
count: at most `2t-1` keys (invariants (2)/(3) upper half); a leaf has no
children; an internal node has `keys + 1` children (invariant (4)) whose
subtrees all satisfy the non-root invariants and have equal heights
(invariant (1)). -/
def looseWF (t : Nat) : Node → Bool
  | .mk lf ks cs =>
    decide (ks.length ≤ 2 * t - 1) &&
    (if lf then cs.isEmpty
     else (cs.length == ks.length + 1) && csWF t cs && heightsEq cs)
/-- Shape invariants for a list of non-root nodes: each member has at least
`t-1` keys (invariant (2) lower half) and satisfies `looseWF`. -/
def csWF (t : Nat) : List Node → Bool
  | [] => true
  | c :: cs => (decide (t - 1 ≤ c.keys.length) && looseWF t c) && csWF t cs
end

/-- Invariants of a non-root node: between `t-1` and `2t-1` keys plus the
recursive shape invariants. -/
def subWF (t : Nat) (nd : Node) : Bool :=
  decide (t - 1 ≤ nd.keys.length) && looseWF t nd

/-- Invariants of the root node: the recursive shape invariants, and an
internal root has at least one key (invariant (3): zero keys only for a leaf
root, whose stored key set is then empty). -/
def rootWF (t : Nat) (nd : Node) : Bool :=
  looseWF t nd && (nd.is_leaf || nd.keys.length != 0)

/-- The seven structural invariants of the specification for a whole tree:
minimum degree at least 2, the shape/count/height invariants (1)-(4) from the
root down, and strict ascent of the global inorder key sequence, which is
exactly the conjunction of invariants (5) in-node ascent, (6) separator
ordering and (7) no duplicate keys. -/
def WF (b : Btree) : Prop :=
  2 ≤ b.degree ∧ rootWF b.degree b.root = true ∧ List.Pairwise (· < ·) b.root.inorder

/-- Keys-and-subtrees glue to the left of a distinguished child: for equally
long `ks = [k0, ..., km]` and `cs = [c0, ..., cm]` this is
`c0, k0, c1, k1, ..., cm, km` flattened with inorder subtree sequences. -/
def glueL : List Int → List Node → List Int
  | _, [] => []
  | ks, c :: cs =>
    c.inorder ++
      match ks with
      | [] => []
      | k :: ks' => k :: glueL ks' cs

/-- Keys-and-subtrees glue to the right of a distinguished child: for equally
long `ks = [k0, ..., km]` and `cs = [c0, ..., cm]` this is
`k0, c0, k1, c1, ..., km, cm` flattened with inorder subtree sequences. -/
def glueR : List Int → List Node → List Int
  | [], _ => []
  | k :: ks, cs =>
    k ::
      match cs with
      | [] => []
      | c :: cs' => c.inorder ++ glueR ks cs'

theorem list_split_at {α : Type} (l : List α) (i : Nat) (x : α) (h : l[i]? = some x) :
    l = l.take i ++ x :: l.drop (i + 1) := by
  have hi : i < l.length := by
    by_contra hc
    simp [List.getElem?_eq_none (Nat.le_of_not_lt hc)] at h
  conv_lhs => rw [← List.take_append_drop i l]
  rw [List.drop_eq_getElem_cons hi]
  simp only [List.getElem?_eq_getElem hi, Option.some.injEq] at h
  rw [h]

theorem length_take_of_getElem? {α : Type} {l : List α} {i : Nat} {x : α}
    (h : l[i]? = some x) : (l.take i).length = i := by
  have hi : i < l.length := by
    by_contra hc
    simp [List.getElem?_eq_none (Nat.le_of_not_lt hc)] at h
  simp [List.length_take, Nat.le_of_lt hi]

theorem set_at_append {α : Type} (A B : List α) (x y : α) :
    (A ++ x :: B).set A.length y = A ++ y :: B := by
  induction A with
  | nil => rfl
  | cons a A ih => simp [List.set_cons_succ, ih]

theorem eraseIdx_at_append {α : Type} (A B : List α) (x : α) :
    (A ++ x :: B).eraseIdx A.length = A ++ B := by
  induction A with
  | nil => rfl
  | cons a A ih => simp [List.eraseIdx_cons_succ, ih]

theorem insertIdx_at_append {α : Type} (A B : List α) (y : α) :
    (A ++ B).insertIdx A.length y = A ++ y :: B := by
  induction A with
  | nil => rfl
  | cons a A ih => simp [List.insertIdx_succ_cons, ih]

theorem getElem?_at_append {α : Type} (A B : List α) (x : α) :
    (A ++ x :: B)[A.length]? = some x := by
  rw [List.getElem?_append_right (Nat.le_refl _)]
  simp

theorem insKey_nil (k : Int) : insKey k [] = [k] := rfl

theorem insKey_cons (k x : Int) (xs : List Int) :
    insKey k (x :: xs) =
      if x > k then k :: x :: xs else if x = k then k :: xs else x :: insKey k xs := by
  by_cases h1 : x > k <;> by_cases h2 : x = k <;>
    simp [insKey, vacant_insert_key_in_node, h1, h2]

theorem mem_insKey (a k : Int) (l : List Int) : a ∈ insKey k l ↔ a = k ∨ a ∈ l := by
  induction l with
  | nil => simp [insKey_nil]
  | cons x xs ih =>
    rw [insKey_cons]
    by_cases h1 : x > k
    · simp [h1]
    · by_cases h2 : x = k
      · subst h2
        rw [if_neg h1, if_pos rfl]
        simp only [List.mem_cons]
        tauto
      · simp [h1, h2, ih]
        tauto

theorem length_insKey_lower (k : Int) (l : List Int) :
    l.length ≤ (insKey k l).length := by
  induction l with
  | nil => simp [insKey_nil]
  | cons x xs ih =>
    rw [insKey_cons]
    by_cases h1 : x > k
    · simp [h1]
    · by_cases h2 : x = k
      · simp [h1, h2]
      · simp only [if_neg h1, if_neg h2, List.length_cons]
        omega

theorem length_insKey_upper (k : Int) (l : List Int) :
    (insKey k l).length ≤ l.length + 1 := by
  induction l with
  | nil => simp [insKey_nil]
  | cons x xs ih =>
    rw [insKey_cons]
    by_cases h1 : x > k
    · simp [h1]
    · by_cases h2 : x = k
      · simp [h1, h2]
      · simp only [if_neg h1, if_neg h2, List.length_cons]
        omega

theorem insKey_append_right_all (k : Int) (A B : List Int) (h : ∀ a ∈ A, a < k) :
    insKey k (A ++ B) = A ++ insKey k B := by
  induction A with
  | nil => rfl
  | cons x xs ih =>
    have hx : x < k := h x (by simp)
    rw [List.cons_append, insKey_cons]
    have h1 : ¬(x > k) := by omega
    have h2 : x ≠ k := by omega
    simp only [if_neg h1, if_neg h2, ih (fun a ha => h a (by simp [ha])), List.cons_append]

theorem insKey_append_left_all (k : Int) (A B : List Int) (h : ∀ b ∈ B, k < b) :
    insKey k (A ++ B) = insKey k A ++ B := by
  induction A with
  | nil =>
    simp only [List.nil_append, insKey_nil]
    cases B with
    | nil => rfl
    | cons b bs =>
      have hb : k < b := h b (by simp)
      rw [insKey_cons]
      have h1 : b > k := hb
      simp [h1]
  | cons x xs ih =>
    rw [List.cons_append, insKey_cons, insKey_cons]
    by_cases h1 : x > k
    · simp [h1]
    · by_cases h2 : x = k
      · simp [h1, h2]
      · simp [h1, h2, ih]

theorem insKey_of_mem_sorted (k : Int) (l : List Int)
    (hs : List.Pairwise (· < ·) l) (hm : k ∈ l) : insKey k l = l := by
  induction l with
  | nil => cases hm
  | cons x xs ih =>
    rw [insKey_cons]
    rcases List.mem_cons.mp hm with rfl | hm'
    · simp
    · have hx : x < k := (List.pairwise_cons.mp hs).1 k hm'
      have h1 : ¬(x > k) := by omega
      have h2 : x ≠ k := by omega
      simp [h1, h2, ih (List.pairwise_cons.mp hs).2 hm']

theorem insKey_pairwise (k : Int) (l : List Int) (hs : List.Pairwise (· < ·) l) :
    List.Pairwise (· < ·) (insKey k l) := by
  induction l with
  | nil => simp [insKey_nil]
  | cons x xs ih =>
    rw [insKey_cons]
    rcases List.pairwise_cons.mp hs with ⟨hall, hxs⟩
    by_cases h1 : x > k
    · rw [if_pos h1]
      refine List.pairwise_cons.mpr ⟨?_, hs⟩
      intro b hb
      rcases List.mem_cons.mp hb with rfl | hb'
      · omega
      · exact lt_trans h1 (hall b hb')
    · by_cases h2 : x = k
      · subst h2
        rw [if_neg h1, if_pos rfl]
        exact hs
      · rw [if_neg h1, if_neg h2]
        refine List.pairwise_cons.mpr ⟨?_, ih hxs⟩
        intro b hb
        rcases (mem_insKey b k xs).mp hb with rfl | hb'
        · omega
        · exact hall b hb'

theorem foldl_insKey_of_sorted (l acc : List Int)
    (hs : List.Pairwise (· < ·) (acc ++ l)) :
    l.foldl (fun a k => insKey k a) acc = acc ++ l := by
  induction l generalizing acc with
  | nil => simp
  | cons x xs ih =>
    have hx : ∀ a ∈ acc, a < x := by
      intro a ha
      exact (List.pairwise_append.mp hs).2.2 a ha x (by simp)
    have hstep : insKey x acc = acc ++ [x] := by
      have := insKey_append_right_all x acc [] hx
      simpa [insKey_nil] using this
    rw [List.foldl_cons, hstep, ih (acc ++ [x]) (by simpa using hs)]
    simp

theorem rm_key_of_mem (k : Int) (ks : List Int)
    (hs : List.Pairwise (· < ·) ks) (hm : k ∈ ks) :
    rm_key_from_node k ks = some (ks.erase k) := by
  induction ks with
  | nil => cases hm
  | cons x xs ih =>
    rcases List.mem_cons.mp hm with rfl | hm'
    · simp [rm_key_from_node, List.erase_cons_head]
    · have hx : x < k := (List.pairwise_cons.mp hs).1 k hm'
      have h1 : x ≠ k := by omega
      have h2 : ¬(x > k) := by omega
      rw [rm_key_from_node]
      simp only [if_neg h1, if_neg h2, ih (List.pairwise_cons.mp hs).2 hm']
      rw [List.erase_cons_tail]
      · rfl
      · simp [h1]

theorem rm_key_of_not_mem (k : Int) (ks : List Int) (hm : k ∉ ks) :
    rm_key_from_node k ks = none := by
  induction ks with
  | nil => rfl
  | cons x xs ih =>
    have h1 : x ≠ k := fun h => hm (by simp [h])
    rw [rm_key_from_node]
    by_cases h2 : x > k
    · simp [h1, h2]
    · simp [h1, h2, ih (fun h => hm (by simp [h]))]

theorem erase_sorted_at (A B : List Int) (k : Int) (h : ∀ a ∈ A, a < k) :
    (A ++ k :: B).erase k = A ++ B := by
  rw [List.erase_append_right]
  · simp [List.erase_cons_head]
  · intro hmem
    have := h k hmem
    omega

theorem lt_all_of_sorted_cons {k h : Int} {tl : List Int}
    (hs : List.Pairwise (· < ·) (h :: tl)) (hk : k < h) :
    ∀ b ∈ h :: tl, k < b := by
  intro b hb
  rcases List.mem_cons.mp hb with rfl | hb'
  · exact hk
  · exact lt_trans hk ((List.pairwise_cons.mp hs).1 b hb')

theorem inorderA_nil_children (ks : List Int) : inorderA ks [] = ks := by
  rw [inorderA]

theorem inorderA_cons_cons (k : Int) (ks : List Int) (c : Node) (cs : List Node) :
    inorderA (k :: ks) (c :: cs) = c.inorder ++ k :: inorderA ks cs := by
  rw [inorderA]

theorem inorderA_nil_cons (c : Node) (cs : List Node) :
    inorderA [] (c :: cs) = c.inorder ++ inorderA [] cs := by
  rw [inorderA]

theorem Node.inorder_mk (lf : Bool) (ks : List Int) (cs : List Node) :
    (Node.mk lf ks cs).inorder = inorderA ks cs := by
  rw [Node.inorder]

theorem inorder_leaf (lf : Bool) (ks : List Int) :
    (Node.mk lf ks []).inorder = ks := by
  rw [Node.inorder_mk, inorderA_nil_children]

theorem glueL_nil_right (ks : List Int) : glueL ks [] = [] := by
  rw [glueL]

theorem glueL_cons (k : Int) (ks : List Int) (c : Node) (cs : List Node) :
    glueL (k :: ks) (c :: cs) = c.inorder ++ k :: glueL ks cs := by
  rw [glueL]

theorem glueR_nil_left (cs : List Node) : glueR [] cs = [] := by
  rw [glueR]

theorem glueR_cons (k : Int) (ks : List Int) (c : Node) (cs : List Node) :
    glueR (k :: ks) (c :: cs) = k :: c.inorder ++ glueR ks cs := by
  rw [glueR]
  simp

theorem inorderA_head_decomp (ks : List Int) (c : Node) (cs : List Node)
    (h : cs.length = ks.length) :
    inorderA ks (c :: cs) = c.inorder ++ glueR ks cs := by
  induction ks generalizing c cs with
  | nil =>
    have : cs = [] := List.length_eq_zero.mp h
    subst this
    simp [inorderA_nil_cons, inorderA_nil_children, glueR_nil_left]
  | cons k ks ih =>
    cases cs with
    | nil => simp at h
    | cons c2 cs' =>
      rw [inorderA_cons_cons, glueR_cons, ih c2 cs' (by simpa using h)]
      simp

theorem child_decomp (ksA ksB : List Int) (csA csB : List Node) (c : Node)
    (hA : csA.length = ksA.length) (hB : csB.length = ksB.length) :
    inorderA (ksA ++ ksB) (csA ++ c :: csB) =
      glueL ksA csA ++ c.inorder ++ glueR ksB csB := by
  induction csA generalizing ksA with
  | nil =>
    have : ksA = [] := by simpa using hA.symm
    subst this
    simp [glueL_nil_right, inorderA_head_decomp ksB c csB hB]
  | cons c0 csA' ih =>
    cases ksA with
    | nil => simp at hA
    | cons k0 ksA' =>
      rw [List.cons_append, List.cons_append, inorderA_cons_cons, glueL_cons,
        ih ksA' (by simpa using hA)]
      simp

theorem key_decomp (ksA ksB : List Int) (k : Int) (csA csB : List Node)
    (hA : csA.length = ksA.length + 1) (hB : csB.length = ksB.length + 1) :
    inorderA (ksA ++ k :: ksB) (csA ++ csB) =
      inorderA ksA csA ++ k :: inorderA ksB csB := by
  induction ksA generalizing csA with
  | nil =>
    cases csA with
    | nil => simp at hA
    | cons c csA' =>
      have : csA' = [] := by simpa using hA
      subst this
      cases csB with
      | nil => simp at hB
      | cons cb csB' =>
        simp only [List.nil_append, List.singleton_append, inorderA_cons_cons]
        rw [inorderA_nil_cons, inorderA_nil_children]
        simp
  | cons k0 ksA' ih =>
    cases csA with
    | nil => simp at hA
    | cons c0 csA' =>
      rw [List.cons_append, List.cons_append, inorderA_cons_cons,
        ih csA' (by simpa using hA), inorderA_cons_cons]
      simp

theorem glueL_snoc (ks : List Int) (cs : List Node) (k : Int) (c : Node)
    (h : cs.length = ks.length) :
    glueL (ks ++ [k]) (cs ++ [c]) = glueL ks cs ++ c.inorder ++ [k] := by
  induction cs generalizing ks with
  | nil =>
    have : ks = [] := by simpa using h.symm
    subst this
    simp [glueL_cons, glueL_nil_right]
  | cons c0 cs' ih =>
    cases ks with
    | nil => simp at h
    | cons k0 ks' =>
      rw [List.cons_append, List.cons_append, glueL_cons, glueL_cons,
        ih ks' (by simpa using h)]
      simp

theorem mem_inorderA (a : Int) (ks : List Int) (cs : List Node) :
    a ∈ inorderA ks cs ↔ a ∈ ks ∨ ∃ c ∈ cs, a ∈ c.inorder := by
  induction cs generalizing ks with
  | nil => simp [inorderA_nil_children]
  | cons c cs' ih =>
    cases ks with
    | nil =>
      rw [inorderA_nil_cons]
      simp only [List.mem_append, ih, List.not_mem_nil, false_or, List.mem_cons]
      constructor
      · rintro (h | ⟨c', hc', ha⟩)
        · exact ⟨c, Or.inl rfl, h⟩
        · exact ⟨c', Or.inr hc', ha⟩
      · rintro ⟨c', (rfl | hc'), ha⟩
        · exact Or.inl ha
        · exact Or.inr ⟨c', hc', ha⟩
    | cons k ks' =>
      rw [inorderA_cons_cons]
      simp only [List.mem_append, List.mem_cons, ih]
      constructor
      · rintro (h | rfl | h | ⟨c', hc', ha⟩)
        · exact Or.inr ⟨c, Or.inl rfl, h⟩
        · exact Or.inl (Or.inl rfl)
        · exact Or.inl (Or.inr h)
        · exact Or.inr ⟨c', Or.inr hc', ha⟩
      · rintro ((rfl | h) | ⟨c', (rfl | hc'), ha⟩)
        · exact Or.inr (Or.inl rfl)
        · exact Or.inr (Or.inr (Or.inl h))
        · exact Or.inl ha
        · exact Or.inr (Or.inr (Or.inr ⟨c', hc', ha⟩))

theorem keys_sublist_inorderA (ks : List Int) (cs : List Node) :
    ks.Sublist (inorderA ks cs) := by
  induction cs generalizing ks with
  | nil => simp [inorderA_nil_children]
  | cons c cs' ih =>
    cases ks with
    | nil => simp
    | cons k ks' =>
      rw [inorderA_cons_cons]
      exact (List.Sublist.cons₂ k (ih ks')).trans
        (List.sublist_append_right c.inorder (k :: inorderA ks' cs'))

theorem Node.is_leaf_mk (lf : Bool) (ks : List Int) (cs : List Node) :
    (Node.mk lf ks cs).is_leaf = lf := rfl

theorem Node.keys_mk (lf : Bool) (ks : List Int) (cs : List Node) :
    (Node.mk lf ks cs).keys = ks := rfl

theorem Node.children_mk (lf : Bool) (ks : List Int) (cs : List Node) :
    (Node.mk lf ks cs).children = cs := rfl

theorem Node.height_mk (lf : Bool) (ks : List Int) (cs : List Node) :
    (Node.mk lf ks cs).height = 1 + heightL cs := by
  rw [Node.height]

theorem heightL_nil : heightL [] = 0 := by rw [heightL]

theorem heightL_cons (c : Node) (cs : List Node) :
    heightL (c :: cs) = max c.height (heightL cs) := by
  rw [heightL]

theorem height_pos (nd : Node) : 1 ≤ nd.height := by
  cases nd with
  | mk lf ks cs =>
    rw [Node.height_mk]
    omega

theorem heightsEq_iff (cs : List Node) :
    heightsEq cs = true ↔ ∀ c ∈ cs, c.height = heightL cs := by
  rw [heightsEq, List.all_eq_true]
  constructor
  · intro h c hc
    simpa using h c hc
  · intro h c hc
    simpa using h c hc

theorem height_le_heightL (c : Node) (cs : List Node) (hc : c ∈ cs) :
    c.height ≤ heightL cs := by
  induction cs with
  | nil => cases hc
  | cons c0 cs' ih =>
    rw [heightL_cons]
    rcases List.mem_cons.mp hc with rfl | hc'
    · exact Nat.le_max_left _ _
    · exact Nat.le_trans (ih hc') (Nat.le_max_right _ _)

theorem heightL_all_eq (cs : List Node) (h : Nat) (hne : cs ≠ [])
    (hall : ∀ c ∈ cs, c.height = h) : heightL cs = h := by
  induction cs with
  | nil => cases hne rfl
  | cons c0 cs' ih =>
    rw [heightL_cons, hall c0 (by simp)]
    cases cs' with
    | nil => simp [heightL_nil]
    | cons c1 cs'' =>
      rw [ih (by simp) (fun c hc => hall c (List.mem_cons_of_mem c0 hc))]
      simp

theorem heightsEq_of_all (cs : List Node) (h : Nat)
    (hall : ∀ c ∈ cs, c.height = h) : heightsEq cs = true := by
  rw [heightsEq_iff]
  intro c hc
  have hne : cs ≠ [] := by
    intro he
    rw [he] at hc
    cases hc
  rw [hall c hc, heightL_all_eq cs h hne hall]

theorem looseWF_leaf_iff (t : Nat) (ks : List Int) (cs : List Node) :
    looseWF t (.mk true ks cs) = true ↔ ks.length ≤ 2 * t - 1 ∧ cs = [] := by
  rw [looseWF]
  simp [List.isEmpty_iff]

theorem looseWF_internal_iff (t : Nat) (ks : List Int) (cs : List Node) :
    looseWF t (.mk false ks cs) = true ↔
      ks.length ≤ 2 * t - 1 ∧ cs.length = ks.length + 1 ∧
        csWF t cs = true ∧ heightsEq cs = true := by
  rw [looseWF]
  simp [and_assoc]

theorem csWF_iff (t : Nat) (cs : List Node) :
    csWF t cs = true ↔ ∀ c ∈ cs, t - 1 ≤ c.keys.length ∧ looseWF t c = true := by
  induction cs with
  | nil => simp [csWF]
  | cons c cs' ih =>
    rw [csWF]
    simp only [Bool.and_eq_true, decide_eq_true_eq, ih, List.mem_cons]
    constructor
    · rintro ⟨⟨h1, h2⟩, h3⟩ c' hc'
      rcases hc' with rfl | hc'
      · exact ⟨h1, h2⟩
      · exact h3 c' hc'
    · intro h
      exact ⟨h c (Or.inl rfl), fun c' hc' => h c' (Or.inr hc')⟩

theorem keys_pairwise_of_inorder (nd : Node)
    (hs : List.Pairwise (· < ·) nd.inorder) : List.Pairwise (· < ·) nd.keys := by
  cases nd with
  | mk lf ks cs =>
    rw [Node.inorder_mk] at hs
    exact List.Pairwise.sublist (keys_sublist_inorderA ks cs) hs

theorem mem_keys_mem_inorder (nd : Node) (a : Int) (ha : a ∈ nd.keys) :
    a ∈ nd.inorder := by
  cases nd with
  | mk lf ks cs =>
    rw [Node.inorder_mk]
    exact (mem_inorderA a ks cs).mpr (Or.inl ha)

theorem vacant_split_child_spec (t : Nat) (ht : 2 ≤ t) (lf : Bool)
    (ks : List Int) (cs : List Node) (idx : Nat) (c1 : Node)
    (hc1 : cs[idx]? = some c1)
    (hfull : c1.keys.length = 2 * t - 1)
    (hch : c1.is_leaf = false → c1.children.length = 2 * t)
    (hleafch : c1.is_leaf = true → c1.children = [])
    (hsortc1 : List.Pairwise (· < ·) c1.inorder)
    (hbrL : ∀ a ∈ ks.take idx, ∀ b ∈ c1.inorder, a < b)
    (hbrR : ∀ a ∈ ks.drop idx, ∀ b ∈ c1.inorder, b < a) :
    ∃ med,
      vacant_split_child t idx (.mk lf ks cs) =
        some (.mk lf (ks.take idx ++ med :: ks.drop idx)
          (cs.take idx ++
            Node.mk c1.is_leaf (c1.keys.take (t - 1))
              (if c1.is_leaf then c1.children else c1.children.take t) ::
            Node.mk c1.is_leaf (c1.keys.drop t)
              (if c1.is_leaf then [] else c1.children.drop t) ::
            cs.drop (idx + 1))) ∧
      c1.keys[t - 1]? = some med ∧
      (Node.mk c1.is_leaf (c1.keys.take (t - 1))
          (if c1.is_leaf then c1.children else c1.children.take t)).inorder ++
        med ::
        (Node.mk c1.is_leaf (c1.keys.drop t)
          (if c1.is_leaf then [] else c1.children.drop t)).inorder = c1.inorder := by
  cases c1 with
  | mk lf1 ks1 cs1 =>
    simp only [Node.keys_mk, Node.children_mk, Node.is_leaf_mk] at *
    have hlen : t - 1 < ks1.length := by omega
    have hmed : ks1[t - 1]? = some ks1[t - 1] := List.getElem?_eq_getElem hlen
    set med := ks1[t - 1] with hmeddef
    have hmedmem : med ∈ ks1 := List.getElem_mem hlen
    have hmedino : med ∈ (Node.mk lf1 ks1 cs1).inorder :=
      mem_keys_mem_inorder _ _ hmedmem
    have hks1sorted : List.Pairwise (· < ·) ks1 :=
      keys_pairwise_of_inorder (.mk lf1 ks1 cs1) hsortc1
    have hks1split : ks1 = ks1.take (t - 1) ++ med :: ks1.drop t := by
      have := list_split_at ks1 (t - 1) med hmed
      rwa [show t - 1 + 1 = t by omega] at this
    -- the key vector of the new sibling (repeated sorted insertion = the slice)
    have hc2keys : (ks1.drop t).foldl (fun a k => insKey k a) [] = ks1.drop t := by
      have : List.Pairwise (· < ·) (ks1.drop t) :=
        List.Pairwise.sublist (List.drop_sublist t ks1) hks1sorted
      simpa using foldl_insKey_of_sorted (ks1.drop t) [] (by simpa using this)
    -- the median lands in the parent keys exactly at position idx
    have hparent : insKey med ks = ks.take idx ++ med :: ks.drop idx := by
      have h1 : ∀ a ∈ ks.take idx, a < med :=
        fun a ha => hbrL a ha med hmedino

      have h2 : ∀ b ∈ ks.drop idx, med < b :=
        fun b hb => hbrR b hb med hmedino
      calc insKey med ks = insKey med (ks.take idx ++ ks.drop idx) := by
            rw [List.take_append_drop]
        _ = ks.take idx ++ insKey med (ks.drop idx) :=
            insKey_append_right_all med _ _ h1
        _ = ks.take idx ++ med :: ks.drop idx := by
            have := insKey_append_left_all med [] (ks.drop idx) h2
            simpa [insKey_nil] using this
    -- children surgery
    have hcssplit : cs = cs.take idx ++ Node.mk lf1 ks1 cs1 :: cs.drop (idx + 1) :=
      list_split_at cs idx _ hc1
    have hlentake : (cs.take idx).length = idx := length_take_of_getElem? hc1
    have hchild :
        ((cs.insertIdx (idx + 1) (Node.mk lf1 ((ks1.drop t).foldl (fun a k => insKey k a) [])
            (if lf1 then [] else (cs1.drop t).take t))).set idx
          (Node.mk lf1 (ks1.take (t - 1)) (if lf1 then cs1 else cs1.take t))) =
        cs.take idx ++
          Node.mk lf1 (ks1.take (t - 1)) (if lf1 then cs1 else cs1.take t) ::
          Node.mk lf1 (ks1.drop t) (if lf1 then [] else cs1.drop t) ::
          cs.drop (idx + 1) := by
      have hc2ch : (if lf1 then ([] : List Node) else (cs1.drop t).take t) =
          (if lf1 then [] else cs1.drop t) := by
        cases lf1 with
        | true => rfl
        | false =>
          have h2t : cs1.length = 2 * t := hch rfl
          simp only [if_neg Bool.false_ne_true]
          rw [List.take_of_length_le]
          rw [List.length_drop, h2t]
          omega
      rw [hc2keys, hc2ch]
      conv_lhs => rw [hcssplit]
      have hins := insertIdx_at_append
        (cs.take idx ++ [Node.mk lf1 ks1 cs1]) (cs.drop (idx + 1))
        (Node.mk lf1 (ks1.drop t) (if lf1 then [] else cs1.drop t))
      have hlen2 : (cs.take idx ++ [Node.mk lf1 ks1 cs1]).length = idx + 1 := by
        simp [hlentake]
      rw [List.append_assoc] at hins
      simp only [List.cons_append, List.nil_append] at hins
      rw [hlen2] at hins
      rw [hins]
      rw [List.append_assoc]
      simp only [List.singleton_append]
      have hset := set_at_append (cs.take idx)
        (Node.mk lf1 (ks1.drop t) (if lf1 then [] else cs1.drop t) :: cs.drop (idx + 1))
        (Node.mk lf1 ks1 cs1)
        (Node.mk lf1 (ks1.take (t - 1)) (if lf1 then cs1 else cs1.take t))
      rw [hlentake] at hset
      exact hset
    refine ⟨med, ?_, hmed, ?_⟩
    · rw [vacant_split_child]
      simp only [hc1, Node.keys_mk, Node.children_mk, Node.is_leaf_mk]
      rw [if_neg (by omega)]
      have hcond : (!lf1 && decide (cs1.length < 2 * t)) = false := by
        cases lf1 with
        | true => rfl
        | false =>
          have := hch rfl
          simp [this]
      rw [if_neg (by simp [hcond])]
      simp only [hmed]
      rw [hparent, hchild]
    · -- the inorder of c1 splits as c1' ++ med :: c2
      cases lf1 with
      | true =>
        have hcs1 : cs1 = [] := hleafch rfl
        subst hcs1
        simp only [if_true, inorder_leaf]
        exact hks1split.symm
      | false =>
        simp only [if_neg Bool.false_ne_true]
        have h2t : cs1.length = 2 * t := hch rfl
        rw [Node.inorder_mk, Node.inorder_mk, Node.inorder_mk]
        have hkd := key_decomp (ks1.take (t - 1)) (ks1.drop t) med
          (cs1.take t) (cs1.drop t)
          (by
            rw [List.length_take, List.length_take]
            omega)
          (by
            rw [List.length_drop, List.length_drop, h2t, hfull]
            omega)
        rw [List.take_append_drop] at hkd
        rw [← hkd]
        conv_rhs => rw [hks1split]

theorem tw_take {α : Type} (p : α → Bool) (l : List α) :
    l.take (l.takeWhile p).length = l.takeWhile p := by
  induction l with
  | nil => rfl
  | cons x xs ih =>
    rw [List.takeWhile_cons]
    by_cases h : p x
    · simp [h, ih]
    · simp [h]

theorem tw_drop {α : Type} (p : α → Bool) (l : List α) :
    l.drop (l.takeWhile p).length = l.dropWhile p := by
  induction l with
  | nil => rfl
  | cons x xs ih =>
    rw [List.takeWhile_cons, List.dropWhile_cons]
    by_cases h : p x
    · simp [h, ih]
    · simp [h]

theorem tw_len_le {α : Type} (p : α → Bool) (l : List α) :
    (l.takeWhile p).length ≤ l.length := by
  induction l with
  | nil => simp
  | cons x xs ih =>
    rw [List.takeWhile_cons]
    by_cases h : p x
    · simp only [h, if_true, List.length_cons]
      omega
    · simp [h]

theorem takeWhile_eq_self_of_all {α : Type} (p : α → Bool) (l : List α)
    (h : ∀ a ∈ l, p a = true) : l.takeWhile p = l := by
  induction l with
  | nil => rfl
  | cons x xs ih =>
    rw [List.takeWhile_cons, if_pos (h x (by simp))]
    rw [ih (fun a ha => h a (by simp [ha]))]

theorem head_dropWhile_false {α : Type} (p : α → Bool) (l : List α) (b : α) (bs : List α)
    (h : l.dropWhile p = b :: bs) : p b = false := by
  induction l with
  | nil => simp at h
  | cons x xs ih =>
    rw [List.dropWhile_cons] at h
    by_cases hp : p x
    · exact ih (by simpa [hp] using h)
    · simp only [hp, if_neg] at h
      cases h with
      | refl => simpa using hp

theorem glueL_lt_key (key : Int) (ks : List Int) (cs : List Node) (rest : List Int)
    (hlen : cs.length = ks.length)
    (hp : List.Pairwise (· < ·) (glueL ks cs ++ rest))
    (hks : ∀ a ∈ ks, a < key) :
    ∀ a ∈ glueL ks cs, a < key := by
  induction cs generalizing ks rest with
  | nil => simp [glueL_nil_right]
  | cons c cs' ih =>
    cases ks with
    | nil => simp at hlen
    | cons k ks' =>
      rw [glueL_cons] at hp ⊢
      intro a ha
      rcases List.mem_append.mp ha with hin | hk
      · have hak : a < k := by
          rcases List.pairwise_append.mp (by simpa using hp) with ⟨_, _, hcross⟩
          exact hcross a hin k (by simp)
        exact lt_trans hak (hks k (by simp))
      · rcases List.mem_cons.mp hk with rfl | hrec
        · exact hks a (by simp)
        · have hp' : List.Pairwise (· < ·) (glueL ks' cs' ++ rest) := by
            have := List.pairwise_append.mp (by simpa using hp)
            exact (List.pairwise_cons.mp this.2.1).2
          exact ih ks' rest (by simpa using hlen) hp'
            (fun b hb => hks b (by simp [hb])) a hrec

theorem glueR_gt_key (key : Int) (ks : List Int) (cs : List Node)
    (hlen : cs.length = ks.length)
    (hp : List.Pairwise (· < ·) (glueR ks cs))
    (hks : ∀ b ∈ ks, key < b) :
    ∀ b ∈ glueR ks cs, key < b := by
  induction cs generalizing ks with
  | nil =>
    cases ks with
    | nil => simp [glueR_nil_left]
    | cons k ks' => simp at hlen
  | cons c cs' ih =>
    cases ks with
    | nil => simp at hlen
    | cons k ks' =>
      rw [glueR_cons] at hp ⊢
      intro b hb
      rcases List.mem_cons.mp hb with rfl | hb'
      · exact hks b (by simp)
      · rcases List.mem_append.mp hb' with hin | hrec
        · have : k < b := (List.pairwise_cons.mp hp).1 b (by simp [hin])
          exact lt_trans (hks k (by simp)) this
        · have hp' : List.Pairwise (· < ·) (glueR ks' cs') := by
            have := List.pairwise_append.mp (List.pairwise_cons.mp hp).2
            exact this.2.1
          exact ih ks' (by simpa using hlen) hp'
            (fun a ha => hks a (by simp [ha])) b hrec

theorem set_self_of_getElem? {α : Type} (l : List α) (i : Nat) (x : α)
    (h : l[i]? = some x) : l.set i x = l := by
  conv_lhs => rw [list_split_at l i x h]
  have := set_at_append (l.take i) (l.drop (i + 1)) x x
  rw [length_take_of_getElem? h] at this
  rw [this, ← list_split_at l i x h]

theorem is_duplicate_iff (key : Int) (nd : Node) :
    is_duplicate key nd = true ↔ key ∈ nd.keys := by
  rw [is_duplicate]
  induction nd.keys with
  | nil => simp
  | cons x xs ih =>
    rw [List.contains_cons]
    simp only [Bool.or_eq_true, beq_iff_eq, ih, List.mem_cons]

theorem mem_of_getLast?_eq {α : Type} (l : List α) (b : α) (h : l.getLast? = some b) :
    b ∈ l := by
  induction l with
  | nil => simp at h
  | cons x xs ih =>
    cases xs with
    | nil =>
      simp only [List.getLast?_singleton, Option.some.injEq] at h
      simp [h]
    | cons y ys =>
      rw [List.getLast?_cons_cons] at h
      exact List.mem_cons_of_mem x (ih h)

theorem mem_of_head?_eq {α : Type} (l : List α) (b : α) (h : l.head? = some b) :
    b ∈ l := by
  cases l with
  | nil => simp at h
  | cons x xs =>
    simp only [List.head?_cons, Option.some.injEq] at h
    simp [h]

theorem all_le_getLast_of_sorted (ks : List Int) (back : Int)
    (hsort : List.Pairwise (· < ·) ks) (h : ks.getLast? = some back) :
    ∀ a ∈ ks, a = back ∨ a < back := by
  induction ks with
  | nil => simp
  | cons x xs ih =>
    cases xs with
    | nil =>
      simp only [List.getLast?_singleton, Option.some.injEq] at h
      intro a ha
      simp only [List.mem_singleton] at ha
      exact Or.inl (ha.trans h)
    | cons y ys =>
      rw [List.getLast?_cons_cons] at h
      intro a ha
      rcases List.mem_cons.mp ha with rfl | ha'
      · have hb : back ∈ y :: ys := mem_of_getLast?_eq _ _ h
        exact Or.inr ((List.pairwise_cons.mp hsort).1 back hb)
      · exact ih (List.pairwise_cons.mp hsort).2 h a ha'

theorem scan_take_lt (key : Int) (ks : List Int) :
    ∀ a ∈ ks.take (ks.takeWhile (fun x => decide (x < key))).length, a < key := by
  rw [tw_take]
  intro a ha
  simpa using List.mem_takeWhile_imp ha

theorem scan_drop_gt (key : Int) (ks : List Int)
    (hsort : List.Pairwise (· < ·) ks) (hnm : key ∉ ks) :
    ∀ b ∈ ks.drop (ks.takeWhile (fun x => decide (x < key))).length, key < b := by
  rw [tw_drop]
  cases hd : ks.dropWhile (fun x => decide (x < key)) with
  | nil => simp
  | cons b bs =>
    have hb1 : ¬(b < key) := by simpa using head_dropWhile_false _ _ _ _ hd
    have hsub : (b :: bs).Sublist ks := hd ▸ List.dropWhile_sublist _
    have hbmem : b ∈ ks := hsub.mem (by simp)
    have hb2 : b ≠ key := fun h => hnm (h ▸ hbmem)
    have hbk : key < b := by omega
    exact lt_all_of_sorted_cons (List.Pairwise.sublist hsub hsort) hbk

theorem scan_idx_eq (key back front : Int) (ks : List Int)
    (hsort : List.Pairwise (· < ·) ks) (hnm : key ∉ ks)
    (hback : ks.getLast? = some back) (hfront : ks.head? = some front) :
    (if key > back then ks.length
     else if key ≥ front then (ks.takeWhile (fun x => decide (x < key))).length
     else 0) = (ks.takeWhile (fun x => decide (x < key))).length := by
  by_cases h1 : key > back
  · rw [if_pos h1]
    have hall : ∀ a ∈ ks, (fun x => decide (x < key)) a = true := by
      intro a ha
      simp only [decide_eq_true_eq]
      rcases all_le_getLast_of_sorted ks back hsort hback a ha with rfl | hlt
      · exact h1
      · omega
    rw [takeWhile_eq_self_of_all _ _ hall]
  · rw [if_neg h1]
    by_cases h2 : key ≥ front
    · rw [if_pos h2]
    · rw [if_neg h2]
      cases ks with
      | nil => simp at hfront
      | cons f rest =>
        simp only [List.head?_cons, Option.some.injEq] at hfront
        subst hfront
        rw [List.takeWhile_cons, if_neg (by simpa using by omega : ¬(decide (f < key) = true))]
        simp

theorem keys_subset_glueL (ks : List Int) (cs : List Node)
    (hlen : cs.length = ks.length) : ∀ a ∈ ks, a ∈ glueL ks cs := by
  induction cs generalizing ks with
  | nil =>
    intro a ha
    have hks : ks = [] := List.length_eq_zero.mp (by simpa using hlen.symm)
    subst hks
    cases ha
  | cons c cs' ih =>
    cases ks with
    | nil => simp
    | cons k ks' =>
      intro a ha
      rw [glueL_cons]
      rcases List.mem_cons.mp ha with rfl | ha'
      · simp
      · simp only [List.mem_append, List.mem_cons]
        exact Or.inr (Or.inr (ih ks' (by simpa using hlen) a ha'))

theorem keys_subset_glueR (ks : List Int) (cs : List Node)
    (hlen : cs.length = ks.length) : ∀ a ∈ ks, a ∈ glueR ks cs := by
  induction cs generalizing ks with
  | nil =>
    intro a ha
    have hks : ks = [] := List.length_eq_zero.mp (by simpa using hlen.symm)
    subst hks
    cases ha
  | cons c cs' ih =>
    cases ks with
    | nil => simp
    | cons k ks' =>
      intro a ha
      rw [glueR_cons]
      rcases List.mem_cons.mp ha with rfl | ha'
      · simp
      · exact List.mem_cons.mpr
          (Or.inr (List.mem_append.mpr (Or.inr (ih ks' (by simpa using hlen) a ha'))))

theorem split_halves_wf (t : Nat) (ht : 2 ≤ t) (c1 : Node)
    (hfull : c1.keys.length = 2 * t - 1) (hsub : looseWF t c1 = true) :
    looseWF t (.mk c1.is_leaf (c1.keys.take (t - 1))
      (if c1.is_leaf then c1.children else c1.children.take t)) = true ∧
    (Node.mk c1.is_leaf (c1.keys.take (t - 1))
      (if c1.is_leaf then c1.children else c1.children.take t)).height = c1.height ∧
    looseWF t (.mk c1.is_leaf (c1.keys.drop t)
      (if c1.is_leaf then [] else c1.children.drop t)) = true ∧
    (Node.mk c1.is_leaf (c1.keys.drop t)
      (if c1.is_leaf then [] else c1.children.drop t)).height = c1.height := by
  cases c1 with
  | mk lf1 ks1 cs1 =>
    simp only [Node.keys_mk, Node.children_mk, Node.is_leaf_mk] at *
    cases lf1 with
    | true =>
      rcases (looseWF_leaf_iff t ks1 cs1).mp hsub with ⟨hlen, hcs⟩
      subst hcs
      simp only [if_true]
      refine ⟨?_, ?_, ?_, ?_⟩
      · rw [looseWF_leaf_iff]
        refine ⟨?_, rfl⟩
        rw [List.length_take]
        omega
      · rfl
      · rw [looseWF_leaf_iff]
        refine ⟨?_, rfl⟩
        rw [List.length_drop]
        omega
      · rfl
    | false =>
      rcases (looseWF_internal_iff t ks1 cs1).mp hsub with ⟨hlen, hclen, hcw, hheq⟩
      simp only [if_neg Bool.false_ne_true]
      have hcs1len : cs1.length = 2 * t := by omega
      have hmem : ∀ c ∈ cs1, c.height = heightL cs1 := (heightsEq_iff cs1).mp hheq
      have hcsne : cs1 ≠ [] := by
        intro h
        subst h
        simp only [List.length_nil] at hcs1len
        omega
      have hmemtake : ∀ c ∈ cs1.take t, c.height = heightL cs1 :=
        fun c hc => hmem c (List.take_subset t cs1 hc)
      have hmemdrop : ∀ c ∈ cs1.drop t, c.height = heightL cs1 :=
        fun c hc => hmem c (List.drop_subset t cs1 hc)
      have htne : cs1.take t ≠ [] := by
        intro h
        have hl := congrArg List.length h
        rw [List.length_take, hcs1len] at hl
        simp only [List.length_nil] at hl
        omega
      have hdne : cs1.drop t ≠ [] := by
        intro h
        have hl := congrArg List.length h
        rw [List.length_drop, hcs1len] at hl
        simp only [List.length_nil] at hl
        omega
      have hLt : heightL (cs1.take t) = heightL cs1 :=
        heightL_all_eq _ _ htne hmemtake
      have hLd : heightL (cs1.drop t) = heightL cs1 :=
        heightL_all_eq _ _ hdne hmemdrop
      have hcwiff := (csWF_iff t cs1).mp hcw
      refine ⟨?_, ?_, ?_, ?_⟩
      · rw [looseWF_internal_iff]
        refine ⟨by rw [List.length_take]; omega, ?_, ?_, ?_⟩
        · rw [List.length_take, List.length_take]
          omega
        · rw [csWF_iff]
          exact fun c hc => hcwiff c (List.take_subset t cs1 hc)
        · exact heightsEq_of_all _ (heightL cs1) hmemtake
      · rw [Node.height_mk, Node.height_mk, hLt]
      · rw [looseWF_internal_iff]
        refine ⟨by rw [List.length_drop]; omega, ?_, ?_, ?_⟩
        · rw [List.length_drop, List.length_drop]
          omega
        · rw [csWF_iff]
          exact fun c hc => hcwiff c (List.drop_subset t cs1 hc)
        · exact heightsEq_of_all _ (heightL cs1) hmemdrop
      · rw [Node.height_mk, Node.height_mk, hLd]

theorem looseWF_keys_le (t : Nat) (nd : Node) (hw : looseWF t nd = true) :
    nd.keys.length ≤ 2 * t - 1 := by
  cases nd with
  | mk lf ks cs =>
    cases lf with
    | true => exact ((looseWF_leaf_iff t ks cs).mp hw).1
    | false => exact ((looseWF_internal_iff t ks cs).mp hw).1

theorem looseWF_children_nil (t : Nat) (nd : Node) (hw : looseWF t nd = true)
    (hlf : nd.is_leaf = true) : nd.children = [] := by
  cases nd with
  | mk lf ks cs =>
    cases lf with
    | true => exact ((looseWF_leaf_iff t ks cs).mp hw).2
    | false => simp [Node.is_leaf_mk] at hlf

theorem looseWF_children_length (t : Nat) (nd : Node) (hw : looseWF t nd = true)
    (hint : nd.is_leaf = false) : nd.children.length = nd.keys.length + 1 := by
  cases nd with
  | mk lf ks cs =>
    cases lf with
    | true => simp [Node.is_leaf_mk] at hint
    | false => exact ((looseWF_internal_iff t ks cs).mp hw).2.1

theorem looseWF_csWF (t : Nat) (nd : Node) (hw : looseWF t nd = true)
    (hint : nd.is_leaf = false) : csWF t nd.children = true := by
  cases nd with
  | mk lf ks cs =>
    cases lf with
    | true => simp [Node.is_leaf_mk] at hint
    | false => exact ((looseWF_internal_iff t ks cs).mp hw).2.2.1

theorem looseWF_heightsEq (t : Nat) (nd : Node) (hw : looseWF t nd = true)
    (hint : nd.is_leaf = false) : heightsEq nd.children = true := by
  cases nd with
  | mk lf ks cs =>
    cases lf with
    | true => simp [Node.is_leaf_mk] at hint
    | false => exact ((looseWF_internal_iff t ks cs).mp hw).2.2.2

theorem ne_nil_of_length_pos {α : Type} (l : List α) (h : 0 < l.length) : l ≠ [] := by
  intro he
  rw [he] at h
  simp at h

theorem vacant_insert_spec (t : Nat) (ht : 2 ≤ t) :
    ∀ (fuel : Nat) (key : Int) (nd : Node),
      nd.height ≤ fuel →
      looseWF t nd = true →
      nd.keys.length < 2 * t - 1 →
      (nd.is_leaf = false → nd.keys ≠ []) →
      List.Pairwise (· < ·) nd.inorder →
      ∃ nd', vacant_insert t fuel key nd = some nd' ∧
        nd'.inorder = insKey key nd.inorder ∧
        nd'.is_leaf = nd.is_leaf ∧
        nd'.height = nd.height ∧
        looseWF t nd' = true ∧
        nd.keys.length ≤ nd'.keys.length ∧
        nd'.keys.length ≤ nd.keys.length + 1 := by
  intro fuel
  induction fuel with
  | zero =>
    intro key nd hh _ _ _ _
    exact absurd hh (by have := height_pos nd; omega)
  | succ fuel ih =>
    intro key nd hh hwf hnf hne hsort
    cases nd with
    | mk lf ks cs =>
      cases lf with
      | true =>
        rcases (looseWF_leaf_iff t ks cs).mp hwf with ⟨hlen, hcs⟩
        subst hcs
        refine ⟨.mk true (insKey key ks) [], ?_, ?_, rfl, ?_, ?_, ?_, ?_⟩
        · simp only [vacant_insert]
          rw [if_pos trivial]
        · rw [inorder_leaf, inorder_leaf]
        · rw [Node.height_mk, Node.height_mk]
        · rw [looseWF_leaf_iff]
          refine ⟨?_, rfl⟩
          have h1 := length_insKey_upper key ks
          simp only [Node.keys_mk] at hnf
          omega
        · exact length_insKey_lower key ks
        · exact length_insKey_upper key ks
      | false =>
        rcases (looseWF_internal_iff t ks cs).mp hwf with ⟨hks2t, hcslen, hcsw, hheq⟩
        simp only [Node.keys_mk, Node.children_mk, Node.is_leaf_mk] at hnf hne hh
        rw [Node.inorder_mk] at hsort
        have hksne : ks ≠ [] := hne trivial
        have hsortks : List.Pairwise (· < ·) ks :=
          List.Pairwise.sublist (keys_sublist_inorderA ks cs) hsort
        have hcswiff := (csWF_iff t cs).mp hcsw
        have hmemh : ∀ c ∈ cs, c.height = heightL cs := (heightsEq_iff cs).mp hheq
        by_cases hdup : key ∈ ks
        · refine ⟨.mk false ks cs, ?_, ?_, rfl, rfl, hwf, le_refl _, by omega⟩
          · simp only [vacant_insert]
            rw [if_neg (by simp), if_pos ((is_duplicate_iff key (.mk false ks cs)).mpr
              (by rw [Node.keys_mk]; exact hdup))]
          · rw [Node.inorder_mk]
            exact (insKey_of_mem_sorted key _ hsort
              ((mem_inorderA key ks cs).mpr (Or.inl hdup))).symm
        · -- key absent from this node's own key vector
          have hback0 : ks.getLast? = some (ks.getLast hksne) :=
            List.getLast?_eq_getLast ks hksne
          obtain ⟨f, rest, hksc⟩ : ∃ f rest, ks = f :: rest := by
            cases ks with
            | nil => cases hksne rfl
            | cons f rest => exact ⟨f, rest, rfl⟩
          have hfront0 : ks.head? = some f := by rw [hksc]; rfl
          have hIeq := scan_idx_eq key (ks.getLast hksne) f ks hsortks hdup hback0 hfront0
          set I := (ks.takeWhile (fun x => decide (x < key))).length with hIdef
          have hIle : I ≤ ks.length := tw_len_le _ _
          have hIlt : I < cs.length := by omega
          obtain ⟨nxt, hnxt⟩ : ∃ x, cs[I]? = some x := by
            rw [List.getElem?_eq_getElem hIlt]
            exact ⟨_, rfl⟩
          have hlenA : (cs.take I).length = I := length_take_of_getElem? hnxt
          have hlenAk : (ks.take I).length = I := by
            rw [List.length_take]
            omega
          have hcssplit := list_split_at cs I nxt hnxt
          have hnxtmem : nxt ∈ cs := by
            rw [hcssplit]
            simp
          have hdecomp : inorderA ks cs =
              glueL (ks.take I) (cs.take I) ++ nxt.inorder ++
                glueR (ks.drop I) (cs.drop (I + 1)) := by
            conv_lhs => rw [← List.take_append_drop I ks, hcssplit]
            exact child_decomp _ _ _ _ _ (by omega)
              (by rw [List.length_drop, List.length_drop]; omega)
          have hsortA : List.Pairwise (· < ·)
              (glueL (ks.take I) (cs.take I) ++ (nxt.inorder ++
                glueR (ks.drop I) (cs.drop (I + 1)))) := by
            have h0 := hsort
            rw [hdecomp] at h0
            simpa [List.append_assoc] using h0
          have hpairs := List.pairwise_append.mp hsortA
          have hpairs2 := List.pairwise_append.mp hpairs.2.1
          have hsortM : List.Pairwise (· < ·) nxt.inorder := hpairs2.1
          have hLlt : ∀ a ∈ glueL (ks.take I) (cs.take I), a < key :=
            glueL_lt_key key _ _ _ (by omega) hsortA (scan_take_lt key ks)
          have hRgt : ∀ b ∈ glueR (ks.drop I) (cs.drop (I + 1)), key < b :=
            glueR_gt_key key _ _ (by rw [List.length_drop, List.length_drop]; omega)
              hpairs2.2.1 (scan_drop_gt key ks hsortks hdup)
          have hwin : insKey key (inorderA ks cs) =
              glueL (ks.take I) (cs.take I) ++ insKey key nxt.inorder ++
                glueR (ks.drop I) (cs.drop (I + 1)) := by
            rw [hdecomp, List.append_assoc, insKey_append_right_all key _ _ hLlt]
            have hmr : insKey key (nxt.inorder ++ glueR (ks.drop I) (cs.drop (I + 1))) =
                insKey key nxt.inorder ++ glueR (ks.drop I) (cs.drop (I + 1)) :=
              insKey_append_left_all key _ _ hRgt
            rw [hmr, List.append_assoc]
          have hnxth : nxt.height = heightL cs := hmemh nxt hnxtmem
          have hfuel : nxt.height ≤ fuel := by
            rw [Node.height_mk] at hh
            omega
          have hnxtwf : looseWF t nxt = true := (hcswiff nxt hnxtmem).2
          have hnxtklo : t - 1 ≤ nxt.keys.length := (hcswiff nxt hnxtmem).1
          have hnxtne : nxt.is_leaf = false → nxt.keys ≠ [] := by
            intro _
            apply ne_nil_of_length_pos
            omega
          -- reduce the program one step
          simp only [vacant_insert]
          rw [if_neg (by simp)]
          rw [if_neg (by
            rw [is_duplicate_iff]
            simpa [Node.keys_mk] using hdup)]
          simp only [hback0, hfront0, ← hIdef, hIeq, hnxt]
          by_cases hfull : nxt.keys.length = 2 * t - 1
          · -- full child: split first, then descend
            rw [if_neg (by omega)]
            have hchl : nxt.is_leaf = false → nxt.children.length = 2 * t := by
              intro hint
              have := looseWF_children_length t nxt hnxtwf hint
              omega
            have hchn : nxt.is_leaf = true → nxt.children = [] :=
              looseWF_children_nil t nxt hnxtwf
            have hbrL : ∀ a ∈ ks.take I, ∀ b ∈ nxt.inorder, a < b := by
              intro a ha b hb
              exact hpairs.2.2 a
                (keys_subset_glueL (ks.take I) (cs.take I) (by omega) a ha)
                b (List.mem_append.mpr (Or.inl hb))
            have hbrR : ∀ a ∈ ks.drop I, ∀ b ∈ nxt.inorder, b < a := by
              intro a ha b hb
              exact hpairs2.2.2 b hb a
                (keys_subset_glueR (ks.drop I) (cs.drop (I + 1))
                  (by rw [List.length_drop, List.length_drop]; omega) a ha)
            obtain ⟨med, hspliteq, hmedq, hmid⟩ :=
              vacant_split_child_spec t ht false ks cs I nxt hnxt hfull hchl hchn
                hsortM hbrL hbrR
            rw [hspliteq]
            obtain ⟨hwfc1', hhc1', hwfc2, hhc2⟩ :=
              split_halves_wf t ht nxt hfull hnxtwf
            have hc1'klen : (nxt.keys.take (t - 1)).length = t - 1 := by
              rw [List.length_take]
              omega
            have hc2klen : (nxt.keys.drop t).length = t - 1 := by
              rw [List.length_drop, hfull]
              omega
            have hsortM' : List.Pairwise (· < ·)
                ((Node.mk nxt.is_leaf (nxt.keys.take (t - 1))
                    (if nxt.is_leaf then nxt.children else nxt.children.take t)).inorder ++
                  med ::
                  (Node.mk nxt.is_leaf (nxt.keys.drop t)
                    (if nxt.is_leaf then [] else nxt.children.drop t)).inorder) := by
              rw [hmid]
              exact hsortM
            have hpairsM := List.pairwise_append.mp hsortM'
            have hks2I : (ks.take I ++ med :: ks.drop I)[I]? = some med := by
              have h0 := getElem?_at_append (ks.take I) (ks.drop I) med
              rwa [hlenAk] at h0
            have hmedM : med ∈ nxt.inorder := by
              rw [← hmid]
              simp
            simp only [Node.keys_mk, Node.children_mk, Node.is_leaf_mk]
            simp only [hks2I]
            have hlenk2 : (ks.take I ++ med :: ks.drop I).length = ks.length + 1 := by
              rw [List.length_append, List.length_cons, List.length_drop]
              omega
            rcases lt_trichotomy key med with hkm | hkm | hkm
            · -- descend into the lower half c1'
              rw [if_pos hkm]
              have hcs2I : (cs.take I ++
                  Node.mk nxt.is_leaf (nxt.keys.take (t - 1))
                    (if nxt.is_leaf then nxt.children else nxt.children.take t) ::
                  Node.mk nxt.is_leaf (nxt.keys.drop t)
                    (if nxt.is_leaf then [] else nxt.children.drop t) ::
                  cs.drop (I + 1))[I]? = some (Node.mk nxt.is_leaf (nxt.keys.take (t - 1))
                    (if nxt.is_leaf then nxt.children else nxt.children.take t)) := by
                have h0 := getElem?_at_append (cs.take I)
                  (Node.mk nxt.is_leaf (nxt.keys.drop t)
                    (if nxt.is_leaf then [] else nxt.children.drop t) :: cs.drop (I + 1))
                  (Node.mk nxt.is_leaf (nxt.keys.take (t - 1))
                    (if nxt.is_leaf then nxt.children else nxt.children.take t))
                rwa [hlenA] at h0
              simp only [hcs2I]
              obtain ⟨c'', hceq, hcio, hclf, hch', hcwf', hclo, hchi⟩ :=
                ih key (Node.mk nxt.is_leaf (nxt.keys.take (t - 1))
                    (if nxt.is_leaf then nxt.children else nxt.children.take t))
                  (by rw [hhc1']; exact hfuel)
                  hwfc1'
                  (by rw [Node.keys_mk, hc1'klen]; omega)
                  (fun _ => by
                    rw [Node.keys_mk]
                    apply ne_nil_of_length_pos
                    rw [hc1'klen]
                    omega)
                  hpairsM.1
              rw [hceq]
              simp only [Option.map_some', Node.is_leaf_mk, Node.keys_mk, Node.children_mk]
              have hset2 : (cs.take I ++
                  Node.mk nxt.is_leaf (nxt.keys.take (t - 1))
                    (if nxt.is_leaf then nxt.children else nxt.children.take t) ::
                  Node.mk nxt.is_leaf (nxt.keys.drop t)
                    (if nxt.is_leaf then [] else nxt.children.drop t) ::
                  cs.drop (I + 1)).set I c'' =
                  cs.take I ++ c'' ::
                  Node.mk nxt.is_leaf (nxt.keys.drop t)
                    (if nxt.is_leaf then [] else nxt.children.drop t) ::
                  cs.drop (I + 1) := by
                have h0 := set_at_append (cs.take I)
                  (Node.mk nxt.is_leaf (nxt.keys.drop t)
                    (if nxt.is_leaf then [] else nxt.children.drop t) :: cs.drop (I + 1))
                  (Node.mk nxt.is_leaf (nxt.keys.take (t - 1))
                    (if nxt.is_leaf then nxt.children else nxt.children.take t)) c''
                rwa [hlenA] at h0
              rw [hset2]
              refine ⟨_, rfl, ?_, rfl, ?_, ?_, ?_, ?_⟩
              · -- inorder equation
                rw [Node.inorder_mk, Node.inorder_mk, hwin]
                have hdec2 := child_decomp (ks.take I) (med :: ks.drop I)
                  (cs.take I)
                  (Node.mk nxt.is_leaf (nxt.keys.drop t)
                    (if nxt.is_leaf then [] else nxt.children.drop t) :: cs.drop (I + 1))
                  c'' (by omega)
                  (by
                    rw [List.length_cons, List.length_cons, List.length_drop,
                      List.length_drop]
                    omega)
                rw [hdec2, glueR_cons, hcio]
                have hinsM : insKey key nxt.inorder =
                    insKey key (Node.mk nxt.is_leaf (nxt.keys.take (t - 1))
                      (if nxt.is_leaf then nxt.children else nxt.children.take t)).inorder ++
                    med ::
                    (Node.mk nxt.is_leaf (nxt.keys.drop t)
                      (if nxt.is_leaf then [] else nxt.children.drop t)).inorder := by
                  rw [← hmid]
                  apply insKey_append_left_all
                  exact lt_all_of_sorted_cons hpairsM.2.1 hkm
                rw [hinsM]
                simp [List.append_assoc]
              · -- height preserved
                rw [Node.height_mk, Node.height_mk]
                have hallh : ∀ c ∈ cs.take I ++ c'' ::
                    Node.mk nxt.is_leaf (nxt.keys.drop t)
                      (if nxt.is_leaf then [] else nxt.children.drop t) ::
                    cs.drop (I + 1), c.height = heightL cs := by
                  intro c hc
                  simp only [List.mem_append, List.mem_cons] at hc
                  rcases hc with hc | rfl | rfl | hc
                  · exact hmemh c (List.take_subset I cs hc)
                  · rw [hch', hhc1', hnxth]
                  · rw [hhc2, hnxth]
                  · exact hmemh c (List.drop_subset (I + 1) cs hc)
                rw [heightL_all_eq _ _ (by simp) hallh]
              · -- shape invariants
                rw [looseWF_internal_iff]
                refine ⟨by rw [hlenk2]; omega, ?_, ?_, ?_⟩
                · rw [List.length_append, List.length_cons, List.length_cons,
                    List.length_drop, hlenA, hlenk2]
                  omega
                · rw [csWF_iff]
                  intro c hc
                  simp only [List.mem_append, List.mem_cons] at hc
                  rcases hc with hc | rfl | rfl | hc
                  · exact hcswiff c (List.take_subset I cs hc)
                  · constructor
                    · calc t - 1 = (nxt.keys.take (t - 1)).length := hc1'klen.symm
                        _ ≤ c.keys.length := by
                          have := hclo
                          rw [Node.keys_mk] at this
                          exact this
                    · exact hcwf'
                  · constructor
                    · rw [Node.keys_mk, hc2klen]
                    · exact hwfc2
                  · exact hcswiff c (List.drop_subset (I + 1) cs hc)
                · apply heightsEq_of_all _ (heightL cs)
                  intro c hc
                  simp only [List.mem_append, List.mem_cons] at hc
                  rcases hc with hc | rfl | rfl | hc
                  · exact hmemh c (List.take_subset I cs hc)
                  · rw [hch', hhc1', hnxth]
                  · rw [hhc2, hnxth]
                  · exact hmemh c (List.drop_subset (I + 1) cs hc)
              · rw [Node.keys_mk, hlenk2]
                omega
              · rw [Node.keys_mk, hlenk2]
            · -- the key equals the bubbled median: overwrite in place
              subst hkm
              rw [if_neg (by omega), if_pos rfl]
              have hsetk : (ks.take I ++ key :: ks.drop I).set I key =
                  ks.take I ++ key :: ks.drop I :=
                set_self_of_getElem? _ _ _ hks2I
              rw [hsetk]
              refine ⟨_, rfl, ?_, rfl, ?_, ?_, ?_, ?_⟩
              · -- inorder unchanged, and the key is already present
                rw [Node.inorder_mk, Node.inorder_mk]
                have hdec2 := child_decomp (ks.take I) (key :: ks.drop I)
                  (cs.take I)
                  (Node.mk nxt.is_leaf (nxt.keys.drop t)
                    (if nxt.is_leaf then [] else nxt.children.drop t) :: cs.drop (I + 1))
                  (Node.mk nxt.is_leaf (nxt.keys.take (t - 1))
                    (if nxt.is_leaf then nxt.children else nxt.children.take t))
                  (by omega)
                  (by
                    rw [List.length_cons, List.length_cons, List.length_drop,
                      List.length_drop]
                    omega)
                rw [hdec2, glueR_cons]
                have hkmem : key ∈ inorderA ks cs := by
                  rw [hdecomp]
                  simp only [List.mem_append]
                  exact Or.inl (Or.inr hmedM)
                rw [insKey_of_mem_sorted key _ hsort hkmem, hdecomp]
                rw [← hmid]
                simp [List.append_assoc]
              · rw [Node.height_mk, Node.height_mk]
                have hallh : ∀ c ∈ cs.take I ++
                    Node.mk nxt.is_leaf (nxt.keys.take (t - 1))
                      (if nxt.is_leaf then nxt.children else nxt.children.take t) ::
                    Node.mk nxt.is_leaf (nxt.keys.drop t)
                      (if nxt.is_leaf then [] else nxt.children.drop t) ::
                    cs.drop (I + 1), c.height = heightL cs := by
                  intro c hc
                  simp only [List.mem_append, List.mem_cons] at hc
                  rcases hc with hc | rfl | rfl | hc
                  · exact hmemh c (List.take_subset I cs hc)
                  · rw [hhc1', hnxth]
                  · rw [hhc2, hnxth]
                  · exact hmemh c (List.drop_subset (I + 1) cs hc)
                rw [heightL_all_eq _ _ (by simp) hallh]
              · rw [looseWF_internal_iff]
                refine ⟨by rw [hlenk2]; omega, ?_, ?_, ?_⟩
                · rw [List.length_append, List.length_cons, List.length_cons,
                    List.length_drop, hlenA, hlenk2]
                  omega
                · rw [csWF_iff]
                  intro c hc
                  simp only [List.mem_append, List.mem_cons] at hc
                  rcases hc with hc | rfl | rfl | hc
                  · exact hcswiff c (List.take_subset I cs hc)
                  · exact ⟨by rw [Node.keys_mk, hc1'klen], hwfc1'⟩
                  · exact ⟨by rw [Node.keys_mk, hc2klen], hwfc2⟩
                  · exact hcswiff c (List.drop_subset (I + 1) cs hc)
                · apply heightsEq_of_all _ (heightL cs)
                  intro c hc
                  simp only [List.mem_append, List.mem_cons] at hc
                  rcases hc with hc | rfl | rfl | hc
                  · exact hmemh c (List.take_subset I cs hc)
                  · rw [hhc1', hnxth]
                  · rw [hhc2, hnxth]
                  · exact hmemh c (List.drop_subset (I + 1) cs hc)
              · rw [Node.keys_mk, hlenk2]
                omega
              · rw [Node.keys_mk, hlenk2]
            · -- descend into the upper half c2
              rw [if_neg (by omega), if_neg (by omega)]
              have hassoc : cs.take I ++
                  Node.mk nxt.is_leaf (nxt.keys.take (t - 1))
                    (if nxt.is_leaf then nxt.children else nxt.children.take t) ::
                  Node.mk nxt.is_leaf (nxt.keys.drop t)
                    (if nxt.is_leaf then [] else nxt.children.drop t) ::
                  cs.drop (I + 1) =
                  (cs.take I ++ [Node.mk nxt.is_leaf (nxt.keys.take (t - 1))
                    (if nxt.is_leaf then nxt.children else nxt.children.take t)]) ++
                  Node.mk nxt.is_leaf (nxt.keys.drop t)
                    (if nxt.is_leaf then [] else nxt.children.drop t) ::
                  cs.drop (I + 1) := by
                simp
              have hlenA1 : (cs.take I ++ [Node.mk nxt.is_leaf (nxt.keys.take (t - 1))
                  (if nxt.is_leaf then nxt.children else nxt.children.take t)]).length =
                  I + 1 := by
                rw [List.length_append, hlenA]
                rfl
              have hcs2I1 : (cs.take I ++
                  Node.mk nxt.is_leaf (nxt.keys.take (t - 1))
                    (if nxt.is_leaf then nxt.children else nxt.children.take t) ::
                  Node.mk nxt.is_leaf (nxt.keys.drop t)
                    (if nxt.is_leaf then [] else nxt.children.drop t) ::
                  cs.drop (I + 1))[I + 1]? =
                  some (Node.mk nxt.is_leaf (nxt.keys.drop t)
                    (if nxt.is_leaf then [] else nxt.children.drop t)) := by
                rw [hassoc]
                have h0 := getElem?_at_append
                  (cs.take I ++ [Node.mk nxt.is_leaf (nxt.keys.take (t - 1))
                    (if nxt.is_leaf then nxt.children else nxt.children.take t)])
                  (cs.drop (I + 1))
                  (Node.mk nxt.is_leaf (nxt.keys.drop t)
                    (if nxt.is_leaf then [] else nxt.children.drop t))
                rwa [hlenA1] at h0
              simp only [hcs2I1]
              obtain ⟨c'', hceq, hcio, hclf, hch', hcwf', hclo, hchi⟩ :=
                ih key (Node.mk nxt.is_leaf (nxt.keys.drop t)
                    (if nxt.is_leaf then [] else nxt.children.drop t))
                  (by rw [hhc2]; exact hfuel)
                  hwfc2
                  (by rw [Node.keys_mk, hc2klen]; omega)
                  (fun _ => by
                    rw [Node.keys_mk]
                    apply ne_nil_of_length_pos
                    rw [hc2klen]
                    omega)
                  ((List.pairwise_cons.mp hpairsM.2.1).2)
              rw [hceq]
              simp only [Option.map_some', Node.is_leaf_mk, Node.keys_mk, Node.children_mk]
              have hset2 : (cs.take I ++
                  Node.mk nxt.is_leaf (nxt.keys.take (t - 1))
                    (if nxt.is_leaf then nxt.children else nxt.children.take t) ::
                  Node.mk nxt.is_leaf (nxt.keys.drop t)
                    (if nxt.is_leaf then [] else nxt.children.drop t) ::
                  cs.drop (I + 1)).set (I + 1) c'' =
                  cs.take I ++
                  Node.mk nxt.is_leaf (nxt.keys.take (t - 1))
                    (if nxt.is_leaf then nxt.children else nxt.children.take t) ::
                  c'' :: cs.drop (I + 1) := by
                rw [hassoc]
                have h0 := set_at_append
                  (cs.take I ++ [Node.mk nxt.is_leaf (nxt.keys.take (t - 1))
                    (if nxt.is_leaf then nxt.children else nxt.children.take t)])
                  (cs.drop (I + 1))
                  (Node.mk nxt.is_leaf (nxt.keys.drop t)
                    (if nxt.is_leaf then [] else nxt.children.drop t)) c''
                rw [hlenA1] at h0
                rw [h0]
                simp
              rw [hset2]
              refine ⟨_, rfl, ?_, rfl, ?_, ?_, ?_, ?_⟩
              · rw [Node.inorder_mk, Node.inorder_mk, hwin]
                have hassoc2 : ks.take I ++ med :: ks.drop I =
                    (ks.take I ++ [med]) ++ ks.drop I := by
                  simp
                have hassoc3 : cs.take I ++
                    Node.mk nxt.is_leaf (nxt.keys.take (t - 1))
                      (if nxt.is_leaf then nxt.children else nxt.children.take t) ::
                    c'' :: cs.drop (I + 1) =
                    (cs.take I ++ [Node.mk nxt.is_leaf (nxt.keys.take (t - 1))
                      (if nxt.is_leaf then nxt.children else nxt.children.take t)]) ++
                    c'' :: cs.drop (I + 1) := by
                  simp
                rw [hassoc2, hassoc3]
                have hdec2 := child_decomp (ks.take I ++ [med]) (ks.drop I)
                  (cs.take I ++ [Node.mk nxt.is_leaf (nxt.keys.take (t - 1))
                    (if nxt.is_leaf then nxt.children else nxt.children.take t)])
                  (cs.drop (I + 1)) c''
                  (by rw [hlenA1, List.length_append, hlenAk]; rfl)
                  (by rw [List.length_drop, List.length_drop]; omega)
                rw [hdec2, hcio]
                rw [glueL_snoc _ _ _ _ (by omega)]
                have hinsM : insKey key nxt.inorder =
                    ((Node.mk nxt.is_leaf (nxt.keys.take (t - 1))
                      (if nxt.is_leaf then nxt.children else nxt.children.take t)).inorder ++
                    [med]) ++
                    insKey key (Node.mk nxt.is_leaf (nxt.keys.drop t)
                      (if nxt.is_leaf then [] else nxt.children.drop t)).inorder := by
                  conv_lhs => rw [← hmid]
                  have hall : ∀ a ∈ (Node.mk nxt.is_leaf (nxt.keys.take (t - 1))
                      (if nxt.is_leaf then nxt.children else nxt.children.take t)).inorder ++
                      [med], a < key := by
                    intro a ha
                    rcases List.mem_append.mp ha with ha | ha
                    · have : a < med := hpairsM.2.2 a ha med (by simp)
                      omega
                    · simp only [List.mem_singleton] at ha
                      omega
                  have h0 := insKey_append_right_all key
                    ((Node.mk nxt.is_leaf (nxt.keys.take (t - 1))
                      (if nxt.is_leaf then nxt.children else nxt.children.take t)).inorder ++
                      [med])
                    ((Node.mk nxt.is_leaf (nxt.keys.drop t)
                      (if nxt.is_leaf then [] else nxt.children.drop t)).inorder) hall
                  rw [← h0]
                  simp
                rw [hinsM]
                simp [List.append_assoc]
              · rw [Node.height_mk, Node.height_mk]
                have hallh : ∀ c ∈ cs.take I ++
                    Node.mk nxt.is_leaf (nxt.keys.take (t - 1))
                      (if nxt.is_leaf then nxt.children else nxt.children.take t) ::
                    c'' :: cs.drop (I + 1), c.height = heightL cs := by
                  intro c hc
                  simp only [List.mem_append, List.mem_cons] at hc
                  rcases hc with hc | rfl | rfl | hc
                  · exact hmemh c (List.take_subset I cs hc)
                  · rw [hhc1', hnxth]
                  · rw [hch', hhc2, hnxth]
                  · exact hmemh c (List.drop_subset (I + 1) cs hc)
                rw [heightL_all_eq _ _ (by simp) hallh]
              · rw [looseWF_internal_iff]
                refine ⟨by rw [hlenk2]; omega, ?_, ?_, ?_⟩
                · rw [List.length_append, List.length_cons, List.length_cons,
                    List.length_drop, hlenA, hlenk2]
                  omega
                · rw [csWF_iff]
                  intro c hc
                  simp only [List.mem_append, List.mem_cons] at hc
                  rcases hc with hc | rfl | rfl | hc
                  · exact hcswiff c (List.take_subset I cs hc)
                  · exact ⟨by rw [Node.keys_mk, hc1'klen], hwfc1'⟩
                  · constructor
                    · calc t - 1 = (nxt.keys.drop t).length := hc2klen.symm
                        _ ≤ c.keys.length := by
                          have := hclo
                          rw [Node.keys_mk] at this
                          exact this
                    · exact hcwf'
                  · exact hcswiff c (List.drop_subset (I + 1) cs hc)
                · apply heightsEq_of_all _ (heightL cs)
                  intro c hc
                  simp only [List.mem_append, List.mem_cons] at hc
                  rcases hc with hc | rfl | rfl | hc
                  · exact hmemh c (List.take_subset I cs hc)
                  · rw [hhc1', hnxth]
                  · rw [hch', hhc2, hnxth]
                  · exact hmemh c (List.drop_subset (I + 1) cs hc)
              · rw [Node.keys_mk, hlenk2]
                omega
              · rw [Node.keys_mk, hlenk2]
          · -- child not full: descend directly
            rw [if_pos hfull]
            obtain ⟨c', hceq, hcio, hclf, hch', hcwf', hclo, hchi⟩ :=
              ih key nxt hfuel hnxtwf
                (by have := looseWF_keys_le t nxt hnxtwf; omega)
                hnxtne hsortM
            rw [hceq]
            simp only [Option.map_some']
            have hset : cs.set I c' = cs.take I ++ c' :: cs.drop (I + 1) := by
              conv_lhs => rw [hcssplit]
              have h0 := set_at_append (cs.take I) (cs.drop (I + 1)) nxt c'
              rwa [hlenA] at h0
            refine ⟨_, rfl, ?_, rfl, ?_, ?_, le_refl _,
              by rw [Node.keys_mk, Node.keys_mk]; omega⟩
            · rw [Node.inorder_mk, Node.inorder_mk, hwin, hset]
              conv_lhs => rw [← List.take_append_drop I ks]
              rw [child_decomp _ _ _ _ _ (by omega)
                (by rw [List.length_drop, List.length_drop]; omega), hcio]
            · rw [Node.height_mk, Node.height_mk, hset]
              have hallh : ∀ c ∈ cs.take I ++ c' :: cs.drop (I + 1),
                  c.height = heightL cs := by
                intro c hc
                simp only [List.mem_append, List.mem_cons] at hc
                rcases hc with hc | rfl | hc
                · exact hmemh c (List.take_subset I cs hc)
                · rw [hch', hnxth]
                · exact hmemh c (List.drop_subset (I + 1) cs hc)
              rw [heightL_all_eq _ _ (by simp) hallh]
            · rw [looseWF_internal_iff]
              refine ⟨by omega, ?_, ?_, ?_⟩
              · rw [List.length_set]
                omega
              · rw [csWF_iff]
                intro c hc
                rcases List.mem_or_eq_of_mem_set hc with hc' | rfl
                · exact hcswiff c hc'
                · exact ⟨by omega, hcwf'⟩
              · apply heightsEq_of_all _ (heightL cs)
                intro c hc
                rcases List.mem_or_eq_of_mem_set hc with hc' | rfl
                · exact hmemh c hc'
                · rw [hch', hnxth]

theorem insert_num_keys (b : Btree) (key : Int) (b' : Btree)
    (h : b.insert key = some b') : b'.num_keys = b.num_keys + 1 := by
  simp only [Btree.insert] at h
  by_cases hfull : b.root.keys.length = 2 * b.degree - 1
  · rw [if_pos hfull] at h
    cases hs : vacant_split_child b.degree 0 (Node.mk false [] [b.root]) with
    | none =>
      rw [hs] at h
      cases h
    | some nr =>
      rw [hs] at h
      simp only [Option.map_eq_some'] at h
      obtain ⟨r, _, hr⟩ := h
      rw [← hr]
  · rw [if_neg hfull] at h
    simp only [Option.map_eq_some'] at h
    obtain ⟨r, _, hr⟩ := h
    rw [← hr]

theorem insert_spec (b : Btree) (key : Int) (hwf : WF b) :
    ∃ b', b.insert key = some b' ∧
      b'.degree = b.degree ∧
      b'.root.inorder = insKey key b.root.inorder ∧
      b'.num_keys = b.num_keys + 1 ∧
      WF b' ∧
      (b.root.keys.length = 2 * b.degree - 1 → b'.root.height = b.root.height + 1) ∧
      (b.root.keys.length ≠ 2 * b.degree - 1 → b'.root.height = b.root.height) := by
  obtain ⟨ht, hroot, hsort⟩ := hwf
  obtain ⟨hloose, hrk⟩ := Bool.and_eq_true_iff.mp hroot
  simp only [Btree.insert]
  by_cases hfull : b.root.keys.length = 2 * b.degree - 1
  · -- root growth and split
    rw [if_pos hfull]
    have hchl : b.root.is_leaf = false → b.root.children.length = 2 * b.degree := by
      intro hint
      have := looseWF_children_length b.degree b.root hloose hint
      omega
    have hchn := looseWF_children_nil b.degree b.root hloose
    obtain ⟨med, hspliteq, hmedq, hmid⟩ :=
      vacant_split_child_spec b.degree ht false [] [b.root] 0 b.root rfl hfull
        hchl hchn hsort (by simp) (by simp)
    simp only [List.take_nil, List.drop_nil, List.nil_append, List.take_zero,
      List.drop_succ_cons, List.drop_nil] at hspliteq
    simp only [hspliteq]
    obtain ⟨hwfc1', hhc1', hwfc2, hhc2⟩ :=
      split_halves_wf b.degree ht b.root hfull hloose
    have hc1'klen : (b.root.keys.take (b.degree - 1)).length = b.degree - 1 := by
      rw [List.length_take]
      omega
    have hc2klen : (b.root.keys.drop b.degree).length = b.degree - 1 := by
      rw [List.length_drop, hfull]
      omega
    have hnrio : (Node.mk false [med]
        [Node.mk b.root.is_leaf (b.root.keys.take (b.degree - 1))
          (if b.root.is_leaf then b.root.children else b.root.children.take b.degree),
         Node.mk b.root.is_leaf (b.root.keys.drop b.degree)
          (if b.root.is_leaf then [] else b.root.children.drop b.degree)]).inorder =
        b.root.inorder := by
      rw [Node.inorder_mk, inorderA_cons_cons, inorderA_nil_cons, inorderA_nil_children]
      rw [← hmid]
      simp
    have hnrh : (Node.mk false [med]
        [Node.mk b.root.is_leaf (b.root.keys.take (b.degree - 1))
          (if b.root.is_leaf then b.root.children else b.root.children.take b.degree),
         Node.mk b.root.is_leaf (b.root.keys.drop b.degree)
          (if b.root.is_leaf then [] else b.root.children.drop b.degree)]).height =
        b.root.height + 1 := by
      rw [Node.height_mk, heightL_cons, heightL_cons, heightL_nil, hhc1', hhc2]
      simp [Nat.max_comm]
      omega
    obtain ⟨r, hreq, hrio, hrlf, hrh, hrwf, hrlo, hrhi⟩ :=
      vacant_insert_spec b.degree ht (b.root.height + 1) key
        (Node.mk false [med]
          [Node.mk b.root.is_leaf (b.root.keys.take (b.degree - 1))
            (if b.root.is_leaf then b.root.children else b.root.children.take b.degree),
           Node.mk b.root.is_leaf (b.root.keys.drop b.degree)
            (if b.root.is_leaf then [] else b.root.children.drop b.degree)])
        (by rw [hnrh])
        (by
          rw [looseWF_internal_iff]
          refine ⟨by simp; omega, by simp, ?_, ?_⟩
          · rw [csWF_iff]
            intro c hc
            simp only [List.mem_cons, List.not_mem_nil, or_false] at hc
            rcases hc with rfl | rfl
            · exact ⟨by rw [Node.keys_mk, hc1'klen], hwfc1'⟩
            · exact ⟨by rw [Node.keys_mk, hc2klen], hwfc2⟩
          · apply heightsEq_of_all _ b.root.height
            intro c hc
            simp only [List.mem_cons, List.not_mem_nil, or_false] at hc
            rcases hc with rfl | rfl
            · exact hhc1'
            · exact hhc2)
        (by rw [Node.keys_mk, List.length_cons, List.length_nil]; omega)
        (fun _ => by rw [Node.keys_mk]; simp)
        (by rw [hnrio]; exact hsort)
    rw [hreq]
    simp only [Option.map_some']
    refine ⟨_, rfl, rfl, ?_, rfl, ?_, ?_, ?_⟩
    · rw [hrio, hnrio]
    · refine ⟨ht, ?_, ?_⟩
      · rw [rootWF]
        refine Bool.and_eq_true_iff.mpr ⟨hrwf, ?_⟩
        have : r.is_leaf = false := by rw [hrlf]; rfl
        rw [this]
        simp only [Bool.false_or]
        rw [Node.keys_mk] at hrlo
        simp only [List.length_cons, List.length_nil] at hrlo
        simp only [bne_iff_ne]
        omega
      · rw [hrio, hnrio]
        exact insKey_pairwise key _ hsort
    · intro _
      rw [hrh, hnrh]
    · intro hc
      exact absurd hfull hc
  · -- root not full: plain descent
    rw [if_neg hfull]
    have hrootne : b.root.is_leaf = false → b.root.keys ≠ [] := by
      intro hint
      apply ne_nil_of_length_pos
      rw [hint] at hrk
      simp only [Bool.false_or, bne_iff_ne] at hrk
      omega
    obtain ⟨r, hreq, hrio, hrlf, hrh, hrwf, hrlo, hrhi⟩ :=
      vacant_insert_spec b.degree ht (b.root.height + 1) key b.root
        (by omega)
        hloose
        (by have := looseWF_keys_le b.degree b.root hloose; omega)
        hrootne
        hsort
    rw [hreq]
    simp only [Option.map_some']
    refine ⟨_, rfl, rfl, hrio, rfl, ?_, ?_, ?_⟩
    · refine ⟨ht, ?_, ?_⟩
      · rw [rootWF]
        refine Bool.and_eq_true_iff.mpr ⟨hrwf, ?_⟩
        by_cases hlf : b.root.is_leaf = true
        · rw [hrlf, hlf]
          simp
        · have hlf' : b.root.is_leaf = false := by
            cases hb : b.root.is_leaf
            · rfl
            · exact absurd hb hlf
          rw [hrlf, hlf']
          simp only [Bool.false_or, bne_iff_ne]
          have h1 : b.root.keys ≠ [] := hrootne hlf'
          have h2 : 0 < b.root.keys.length := List.length_pos.mpr h1
          omega
      · rw [hrio]
        exact insKey_pairwise key _ hsort
    · intro hc
      exact absurd hc hfull
    · intro _
      exact hrh

/- ### Machinery for `remove`: sorted-list, decomposition and shape lemmas -/

theorem pairwise_middle {L M R : List Int}
    (h : List.Pairwise (· < ·) (L ++ M ++ R)) : List.Pairwise (· < ·) M :=
  List.Pairwise.sublist
    ((List.sublist_append_right L M).trans (List.sublist_append_left (L ++ M) R)) h

theorem mem_middle_iff (key : Int) (L M R : List Int)
    (hL : ∀ a ∈ L, a < key) (hR : ∀ b ∈ R, key < b) :
    key ∈ L ++ M ++ R ↔ key ∈ M := by
  simp only [List.mem_append]
  constructor
  · rintro ((h | h) | h)
    · exact absurd (hL key h) (lt_irrefl key)
    · exact h
    · exact absurd (hR key h) (lt_irrefl key)
  · exact fun h => Or.inl (Or.inr h)

theorem erase_middle (key : Int) (L M R : List Int)
    (hL : ∀ a ∈ L, a < key) (hM : key ∈ M) :
    (L ++ M ++ R).erase key = L ++ M.erase key ++ R := by
  have hnL : key ∉ L := fun h => absurd (hL key h) (lt_irrefl key)
  rw [List.append_assoc, List.erase_append_right (M ++ R) hnL,
    List.erase_append_left R hM, ← List.append_assoc]

theorem inorder_ne_nil (nd : Node) (h : nd.keys ≠ []) : nd.inorder ≠ [] := by
  cases nd with
  | mk lf ks cs =>
    rw [Node.inorder_mk]
    intro he
    have hsub := keys_sublist_inorderA ks cs
    rw [he] at hsub
    exact h (List.sublist_nil.mp hsub)

theorem dropLast_append_of_getLast? {α : Type} (l : List α) (k : α)
    (h : l.getLast? = some k) : l.dropLast ++ [k] = l := by
  have hne : l ≠ [] := by
    intro he
    subst he
    simp at h
  rw [List.getLast?_eq_getLast l hne, Option.some.injEq] at h
  rw [← h]
  exact List.dropLast_append_getLast hne

theorem cons_head_of_head? {α : Type} (l : List α) (k : α)
    (h : l.head? = some k) : l = k :: l.tail := by
  cases l with
  | nil => simp at h
  | cons x xs =>
    simp only [List.head?_cons, Option.some.injEq] at h
    rw [h]
    rfl

theorem erase_getLast_of_sorted (l : List Int) (k : Int)
    (hs : List.Pairwise (· < ·) l) (h : l.getLast? = some k) :
    l.erase k = l.dropLast := by
  have hdec : l.dropLast ++ [k] = l := dropLast_append_of_getLast? l k h
  have hall : ∀ a ∈ l.dropLast, a < k := by
    intro a ha
    have hp : List.Pairwise (· < ·) (l.dropLast ++ [k]) := by
      rw [hdec]
      exact hs
    exact (List.pairwise_append.mp hp).2.2 a ha k (by simp)
  calc l.erase k = (l.dropLast ++ k :: []).erase k := by rw [hdec]
    _ = l.dropLast ++ [] := erase_sorted_at l.dropLast [] k hall
    _ = l.dropLast := List.append_nil _

theorem looseWF_height_eq_one_iff (t : Nat) (nd : Node) (hw : looseWF t nd = true) :
    nd.height = 1 ↔ nd.is_leaf = true := by
  cases nd with
  | mk lf ks cs =>
    cases lf with
    | true =>
      have hcs := ((looseWF_leaf_iff t ks cs).mp hw).2
      subst hcs
      simp [Node.height_mk, heightL_nil, Node.is_leaf_mk]
    | false =>
      rcases (looseWF_internal_iff t ks cs).mp hw with ⟨_, hlen, _, _⟩
      simp only [Node.is_leaf_mk]
      constructor
      · intro h1
        exfalso
        cases cs with
        | nil =>
          simp only [List.length_nil] at hlen
          omega
        | cons c cs' =>
          rw [Node.height_mk, heightL_cons] at h1
          have h2 := height_pos c
          have h3 := Nat.le_max_left c.height (heightL cs')
          omega
      · intro h
        simp at h

theorem leaf_eq_of_height (t : Nat) (a b : Node) (hwa : looseWF t a = true)
    (hwb : looseWF t b = true) (hh : a.height = b.height) :
    a.is_leaf = b.is_leaf := by
  have hA := looseWF_height_eq_one_iff t a hwa
  have hB := looseWF_height_eq_one_iff t b hwb
  rw [hh] at hA
  exact Bool.eq_iff_iff.mpr (hA.symm.trans hB)

theorem heightsEq_set (cs : List Node) (idx : Nat) (c' : Node) (H : Nat)
    (hall : ∀ c ∈ cs, c.height = H) (hc : c'.height = H) (hne : cs ≠ []) :
    heightsEq (cs.set idx c') = true ∧ heightL (cs.set idx c') = H := by
  have hmem : ∀ c ∈ cs.set idx c', c.height = H := by
    intro c hcm
    rcases List.mem_or_eq_of_mem_set hcm with h | rfl
    · exact hall c h
    · exact hc
  have hne' : cs.set idx c' ≠ [] := by
    intro he
    have h1 := congrArg List.length he
    rw [List.length_set] at h1
    exact hne (List.length_eq_zero.mp h1)
  exact ⟨heightsEq_of_all _ H hmem, heightL_all_eq _ H hne' hmem⟩

theorem csWF_set (t : Nat) (cs : List Node) (idx : Nat) (c' : Node)
    (hcw : csWF t cs = true) (h1 : t - 1 ≤ c'.keys.length)
    (h2 : looseWF t c' = true) : csWF t (cs.set idx c') = true := by
  rw [csWF_iff]
  intro c hc
  rcases List.mem_or_eq_of_mem_set hc with h | rfl
  · exact (csWF_iff t cs).mp hcw c h
  · exact ⟨h1, h2⟩

theorem scan_mem_idx (key : Int) (ks : List Int)
    (hsort : List.Pairwise (· < ·) ks) (hm : key ∈ ks) :
    ks[(ks.takeWhile (fun x => decide (x < key))).length]? = some key := by
  induction ks with
  | nil => cases hm
  | cons x xs ih =>
    rw [List.takeWhile_cons]
    by_cases hx : x < key
    · have hm' : key ∈ xs := by
        rcases List.mem_cons.mp hm with rfl | h
        · exact absurd hx (lt_irrefl key)
        · exact h
      rw [if_pos (by simpa using hx)]
      simp only [List.length_cons]
      rw [List.getElem?_cons_succ]
      exact ih (List.pairwise_cons.mp hsort).2 hm'
    · have hxk : x = key := by
        rcases List.mem_cons.mp hm with rfl | h
        · rfl
        · exact absurd ((List.pairwise_cons.mp hsort).1 key h) (by omega)
      rw [if_neg (by simpa using hx)]
      simp [hxk]

theorem front_le_all_of_sorted (ks : List Int) (front : Int)
    (hsort : List.Pairwise (· < ·) ks) (h : ks.head? = some front) :
    ∀ a ∈ ks, front ≤ a := by
  cases ks with
  | nil => simp at h
  | cons x xs =>
    simp only [List.head?_cons, Option.some.injEq] at h
    subst h
    intro a ha
    rcases List.mem_cons.mp ha with rfl | ha'
    · exact le_refl a
    · exact le_of_lt ((List.pairwise_cons.mp hsort).1 a ha')

theorem drop_split_at {α : Type} (l : List α) (i : Nat) (x : α)
    (h : l[i]? = some x) : l.drop i = x :: l.drop (i + 1) := by
  obtain ⟨hlt, hx⟩ := List.getElem?_eq_some.mp h
  rw [List.drop_eq_getElem_cons hlt, hx]

theorem getElem?_lt_length {α : Type} {l : List α} {i : Nat} {x : α}
    (h : l[i]? = some x) : i < l.length :=
  (List.getElem?_eq_some.mp h).1

theorem inorderA_at_decomp (ks : List Int) (cs : List Node) (idx : Nat) (y : Node)
    (hlen : cs.length = ks.length + 1) (hy : cs[idx]? = some y)
    (hidx : idx ≤ ks.length) :
    inorderA ks cs =
      glueL (ks.take idx) (cs.take idx) ++ y.inorder ++
        glueR (ks.drop idx) (cs.drop (idx + 1)) := by
  have hA : (cs.take idx).length = (ks.take idx).length := by
    rw [length_take_of_getElem? hy, List.length_take]
    omega
  have hB : (cs.drop (idx + 1)).length = (ks.drop idx).length := by
    rw [List.length_drop, List.length_drop]
    have := getElem?_lt_length hy
    omega
  have hks : ks = ks.take idx ++ ks.drop idx := (List.take_append_drop idx ks).symm
  have hcs : cs = cs.take idx ++ y :: cs.drop (idx + 1) := list_split_at cs idx y hy
  conv_lhs => rw [hks, hcs]
  exact child_decomp (ks.take idx) (ks.drop idx) (cs.take idx) (cs.drop (idx + 1)) y
    hA hB

theorem inorderA_around_decomp (ks : List Int) (cs : List Node) (idx : Nat)
    (k : Int) (y z : Node)
    (hlen : cs.length = ks.length + 1)
    (hk : ks[idx]? = some k) (hy : cs[idx]? = some y)
    (hz : cs[idx + 1]? = some z) :
    inorderA ks cs =
      glueL (ks.take idx) (cs.take idx) ++ (y.inorder ++ k :: z.inorder) ++
        glueR (ks.drop (idx + 1)) (cs.drop (idx + 2)) := by
  have hik := getElem?_lt_length hk
  have hA : (cs.take idx).length = (ks.take idx).length := by
    rw [length_take_of_getElem? hy, length_take_of_getElem? hk]
  have hB : (z :: cs.drop (idx + 2)).length = (k :: ks.drop (idx + 1)).length := by
    simp only [List.length_cons, List.length_drop]
    omega
  have hks : ks = ks.take idx ++ k :: ks.drop (idx + 1) := list_split_at ks idx k hk
  have hcs : cs = cs.take idx ++ y :: (z :: cs.drop (idx + 2)) := by
    have h1 := list_split_at cs idx y hy
    rw [drop_split_at cs (idx + 1) z hz] at h1
    exact h1
  conv_lhs => rw [hks, hcs]
  rw [child_decomp (ks.take idx) (k :: ks.drop (idx + 1)) (cs.take idx)
    (z :: cs.drop (idx + 2)) y hA hB, glueR_cons]
  simp [List.append_assoc]

theorem inorderA_snoc_decomp (ks : List Int) (cs : List Node) (kb : Int) (cb : Node)
    (hlen : cs.length = ks.length + 1)
    (hk : ks.getLast? = some kb) (hc : cs.getLast? = some cb) :
    inorderA ks cs = inorderA ks.dropLast cs.dropLast ++ kb :: cb.inorder := by
  have hkne : ks ≠ [] := by
    intro he
    subst he
    simp at hk
  have hks : ks.dropLast ++ [kb] = ks := dropLast_append_of_getLast? ks kb hk
  have hcs : cs.dropLast ++ [cb] = cs := dropLast_append_of_getLast? cs cb hc
  have hA : cs.dropLast.length = ks.dropLast.length + 1 := by
    rw [List.length_dropLast, List.length_dropLast]
    have := List.length_pos.mpr hkne
    omega
  have hB : ([cb] : List Node).length = ([] : List Int).length + 1 := rfl
  conv_lhs => rw [← hks, ← hcs]
  rw [show ks.dropLast ++ [kb] = ks.dropLast ++ kb :: [] from rfl,
    key_decomp ks.dropLast [] kb cs.dropLast [cb] hA hB,
    inorderA_nil_cons, inorderA_nil_children, List.append_nil]

theorem merge_nodes_spec (t : Nat) (ht : 2 ≤ t) (y z : Node) (k : Int)
    (hwy : looseWF t y = true) (hwz : looseWF t z = true)
    (hky : y.keys.length = t - 1) (hkz : z.keys.length = t - 1)
    (hlf : y.is_leaf = z.is_leaf) (hh : y.height = z.height) :
    (merge_nodes y k z).inorder = y.inorder ++ k :: z.inorder ∧
    looseWF t (merge_nodes y k z) = true ∧
    (merge_nodes y k z).height = y.height ∧
    (merge_nodes y k z).is_leaf = y.is_leaf ∧
    (merge_nodes y k z).keys.length = 2 * t - 1 := by
  cases y with
  | mk lfy ksy csy =>
    cases z with
    | mk lfz ksz csz =>
      simp only [Node.is_leaf_mk] at hlf
      subst hlf
      rw [merge_nodes]
      simp only [Node.keys_mk, Node.is_leaf_mk, Node.height_mk, Node.inorder_mk,
        Node.keys_mk] at *
      cases lfy with
      | true =>
        have hcsy := ((looseWF_leaf_iff t ksy csy).mp hwy).2
        have hcsz := ((looseWF_leaf_iff t ksz csz).mp hwz).2
        subst hcsy
        subst hcsz
        refine ⟨?_, ?_, rfl, trivial, ?_⟩
        · simp [inorderA_nil_children]
        · rw [looseWF_leaf_iff]
          refine ⟨?_, rfl⟩
          rw [List.length_append, List.length_cons]
          omega
        · rw [List.length_append, List.length_cons]
          omega
      | false =>
        rcases (looseWF_internal_iff t ksy csy).mp hwy with ⟨hlny, hcly, hcwy, hhey⟩
        rcases (looseWF_internal_iff t ksz csz).mp hwz with ⟨hlnz, hclz, hcwz, hhez⟩
        have hHL : heightL csy = heightL csz := by omega
        have hmy : ∀ c ∈ csy, c.height = heightL csy := (heightsEq_iff csy).mp hhey
        have hmz : ∀ c ∈ csz, c.height = heightL csz := (heightsEq_iff csz).mp hhez
        have hallm : ∀ c ∈ csy ++ csz, c.height = heightL csy := by
          intro c hc
          rcases List.mem_append.mp hc with h | h
          · exact hmy c h
          · rw [hHL]
            exact hmz c h
        have hcsyne : csy ≠ [] := by
          intro he
          subst he
          simp only [List.length_nil] at hcly
          omega
        have hne : csy ++ csz ≠ [] := by
          intro he
          exact hcsyne (List.append_eq_nil.mp he).1
        refine ⟨?_, ?_, ?_, trivial, ?_⟩
        · exact key_decomp ksy ksz k csy csz hcly hclz
        · rw [looseWF_internal_iff]
          refine ⟨?_, ?_, ?_, ?_⟩
          · rw [List.length_append, List.length_cons]
            omega
          · rw [List.length_append, List.length_append, List.length_cons]
            omega
          · rw [csWF_iff]
            intro c hc
            rcases List.mem_append.mp hc with h | h
            · exact (csWF_iff t csy).mp hcwy c h
            · exact (csWF_iff t csz).mp hcwz c h
          · exact heightsEq_of_all _ (heightL csy) hallm
        · rw [heightL_all_eq (csy ++ csz) (heightL csy) hne hallm]
        · rw [List.length_append, List.length_cons]
          omega

theorem get_predecessor_spec (t : Nat) (ht : 2 ≤ t) :
    ∀ (fuel : Nat) (nd : Node), nd.height ≤ fuel → looseWF t nd = true →
      nd.keys ≠ [] →
      ∃ k, get_predecessor fuel nd = .ok k ∧ nd.inorder.getLast? = some k := by
  intro fuel
  induction fuel with
  | zero =>
    intro nd hh _ _
    exact absurd hh (by have := height_pos nd; omega)
  | succ f ih =>
    intro nd hh hw hne
    cases nd with
    | mk lf ks cs =>
      simp only [Node.keys_mk] at hne
      rw [get_predecessor]
      cases lf with
      | true =>
        have hcs : cs = [] := ((looseWF_leaf_iff t ks cs).mp hw).2
        subst hcs
        rw [if_pos rfl]
        have hk : ks.getLast? = some (ks.getLast hne) := List.getLast?_eq_getLast ks hne
        simp only [hk]
        exact ⟨ks.getLast hne, rfl, by rw [inorder_leaf]; exact hk⟩
      | false =>
        rcases (looseWF_internal_iff t ks cs).mp hw with ⟨hlen, hclen, hcw, hheq⟩
        have hcsne : cs ≠ [] := by
          intro he
          subst he
          simp only [List.length_nil] at hclen
          omega
        have hc : cs.getLast? = some (cs.getLast hcsne) :=
          List.getLast?_eq_getLast cs hcsne
        rw [if_neg (by simp)]
        simp only [hc]
        have hcm : cs.getLast hcsne ∈ cs := List.getLast_mem hcsne
        have hch : (cs.getLast hcsne).height = heightL cs :=
          (heightsEq_iff cs).mp hheq _ hcm
        have hhh : (cs.getLast hcsne).height ≤ f := by
          rw [Node.height_mk] at hh
          omega
        have hcfacts := (csWF_iff t cs).mp hcw _ hcm
        have hckne : (cs.getLast hcsne).keys ≠ [] := by
          intro he
          have h1 := hcfacts.1
          rw [he] at h1
          simp only [List.length_nil] at h1
          omega
        obtain ⟨k, hok, hlast⟩ := ih (cs.getLast hcsne) hhh hcfacts.2 hckne
        refine ⟨k, hok, ?_⟩
        have hdec : cs.dropLast ++ [cs.getLast hcsne] = cs :=
          List.dropLast_append_getLast hcsne
        have hlen2 : cs.dropLast.length = ks.length := by
          rw [List.length_dropLast]
          omega
        have hio : inorderA ks cs =
            glueL ks cs.dropLast ++ (cs.getLast hcsne).inorder ++ glueR [] [] := by
          have h2 := child_decomp ks [] cs.dropLast [] (cs.getLast hcsne) hlen2 rfl
          rw [List.append_nil] at h2
          conv_lhs => rw [← hdec]
          exact h2
        rw [Node.inorder_mk, hio, glueR_nil_left, List.append_nil]
        rw [List.getLast?_append_of_ne_nil _ (inorder_ne_nil _ hckne)]
        exact hlast

theorem get_successor_spec (t : Nat) (ht : 2 ≤ t) :
    ∀ (fuel : Nat) (nd : Node), nd.height ≤ fuel → looseWF t nd = true →
      nd.keys ≠ [] →
      ∃ k, get_successor fuel nd = .ok k ∧ nd.inorder.head? = some k := by
  intro fuel
  induction fuel with
  | zero =>
    intro nd hh _ _
    exact absurd hh (by have := height_pos nd; omega)
  | succ f ih =>
    intro nd hh hw hne
    cases nd with
    | mk lf ks cs =>
      simp only [Node.keys_mk] at hne
      rw [get_successor]
      cases lf with
      | true =>
        have hcs : cs = [] := ((looseWF_leaf_iff t ks cs).mp hw).2
        subst hcs
        rw [if_pos rfl]
        have hk : ks.head? = some (ks.head hne) := List.head?_eq_head hne
        simp only [hk]
        exact ⟨ks.head hne, rfl, by rw [inorder_leaf]; exact hk⟩
      | false =>
        rcases (looseWF_internal_iff t ks cs).mp hw with ⟨hlen, hclen, hcw, hheq⟩
        have hcsne : cs ≠ [] := by
          intro he
          subst he
          simp only [List.length_nil] at hclen
          omega
        have hc : cs.head? = some (cs.head hcsne) := List.head?_eq_head hcsne
        rw [if_neg (by simp)]
        simp only [hc]
        have hcm : cs.head hcsne ∈ cs := List.head_mem hcsne
        have hch : (cs.head hcsne).height = heightL cs :=
          (heightsEq_iff cs).mp hheq _ hcm
        have hhh : (cs.head hcsne).height ≤ f := by
          rw [Node.height_mk] at hh
          omega
        have hcfacts := (csWF_iff t cs).mp hcw _ hcm
        have hckne : (cs.head hcsne).keys ≠ [] := by
          intro he
          have h1 := hcfacts.1
          rw [he] at h1
          simp only [List.length_nil] at h1
          omega
        obtain ⟨k, hok, hhead⟩ := ih (cs.head hcsne) hhh hcfacts.2 hckne
        refine ⟨k, hok, ?_⟩
        have hdec : cs.head hcsne :: cs.tail = cs := List.head_cons_tail cs hcsne
        have hlen2 : cs.tail.length = ks.length := by
          rw [List.length_tail]
          omega
        have hio : inorderA ks cs =
            (cs.head hcsne).inorder ++ glueR ks cs.tail := by
          conv_lhs => rw [← hdec]
          exact inorderA_head_decomp ks (cs.head hcsne) cs.tail hlen2
        rw [Node.inorder_mk, hio, List.head?_append, hhead]
        rfl

theorem set_split_at {α : Type} (l : List α) (i : Nat) (x y : α)
    (h : l[i]? = some x) : l.set i y = l.take i ++ y :: l.drop (i + 1) := by
  conv_lhs => rw [list_split_at l i x h]
  have h2 := set_at_append (l.take i) (l.drop (i + 1)) x y
  rw [length_take_of_getElem? h] at h2
  rw [h2]

theorem eraseIdx_split_at {α : Type} (l : List α) (i : Nat) (x : α)
    (h : l[i]? = some x) : l.eraseIdx i = l.take i ++ l.drop (i + 1) := by
  conv_lhs => rw [list_split_at l i x h]
  have h2 := eraseIdx_at_append (l.take i) (l.drop (i + 1)) x
  rw [length_take_of_getElem? h] at h2
  rw [h2]

theorem set_at_append_len {α : Type} (A B : List α) (x y : α) (i : Nat)
    (h : A.length = i) : (A ++ x :: B).set i y = A ++ y :: B := by
  subst h
  exact set_at_append A B x y

theorem eraseIdx_at_append_len {α : Type} (A B : List α) (x : α) (i : Nat)
    (h : A.length = i) : (A ++ x :: B).eraseIdx i = A ++ B := by
  subst h
  exact eraseIdx_at_append A B x

theorem getElem?_at_append_len {α : Type} (A B : List α) (x : α) (i : Nat)
    (h : A.length = i) : (A ++ x :: B)[i]? = some x := by
  subst h
  exact getElem?_at_append A B x

theorem take_succ_of_getElem? {α : Type} (l : List α) (j : Nat) (x : α)
    (h : l[j]? = some x) : l.take (j + 1) = l.take j ++ [x] := by
  rw [List.take_succ, h]
  rfl

theorem inorder_eq_inorderA (nd : Node) :
    nd.inorder = inorderA nd.keys nd.children := by
  cases nd with
  | mk lf ks cs => rw [Node.inorder_mk, Node.keys_mk, Node.children_mk]

theorem replace_one_spec (t : Nat) (ks : List Int) (cs CS : List Node)
    (j : Nat) (a' : Node)
    (hcslen : cs.length = ks.length + 1) (hj : j ≤ ks.length)
    (hCS : CS = cs.take j ++ a' :: cs.drop (j + 1))
    (hkslen : ks.length ≤ 2 * t - 1)
    (hcw : csWF t cs = true) (hheq : heightsEq cs = true)
    (ha1 : t - 1 ≤ a'.keys.length) (ha2 : looseWF t a' = true)
    (ha3 : a'.height = heightL cs) :
    (Node.mk false ks CS).inorder =
      glueL (ks.take j) (cs.take j) ++ a'.inorder ++
        glueR (ks.drop j) (cs.drop (j + 1)) ∧
    looseWF t (.mk false ks CS) = true ∧
    (Node.mk false ks CS).height = 1 + heightL cs := by
  have hCSlen : CS.length = cs.length := by
    rw [hCS, List.length_append, List.length_take, List.length_cons, List.length_drop]
    omega
  have hmem : ∀ c ∈ CS, c ∈ cs ∨ c = a' := by
    intro c hc
    rw [hCS] at hc
    rcases List.mem_append.mp hc with h | h
    · exact Or.inl (List.take_subset j cs h)
    · rcases List.mem_cons.mp h with rfl | h2
      · exact Or.inr rfl
      · exact Or.inl (List.drop_subset (j + 1) cs h2)
  have hallh : ∀ c ∈ CS, c.height = heightL cs := by
    intro c hc
    rcases hmem c hc with h | rfl
    · exact (heightsEq_iff cs).mp hheq c h
    · exact ha3
  have hCSne : CS ≠ [] := by
    intro he
    rw [he] at hCSlen
    simp only [List.length_nil] at hCSlen
    omega
  refine ⟨?_, ?_, ?_⟩
  · rw [Node.inorder_mk, hCS]
    have hA : (cs.take j).length = (ks.take j).length := by
      rw [List.length_take, List.length_take]
      omega
    have hB : (cs.drop (j + 1)).length = (ks.drop j).length := by
      rw [List.length_drop, List.length_drop]
      omega
    conv_lhs => rw [(List.take_append_drop j ks).symm]
    exact child_decomp (ks.take j) (ks.drop j) (cs.take j) (cs.drop (j + 1)) a' hA hB
  · rw [looseWF_internal_iff]
    refine ⟨hkslen, by omega, ?_, heightsEq_of_all _ (heightL cs) hallh⟩
    rw [csWF_iff]
    intro c hc
    rcases hmem c hc with h | rfl
    · exact (csWF_iff t cs).mp hcw c h
    · exact ⟨ha1, ha2⟩
  · rw [Node.height_mk, heightL_all_eq CS (heightL cs) hCSne hallh]

theorem replace_pair_spec (t : Nat) (ks : List Int) (cs CS : List Node)
    (j : Nat) (k' : Int) (a' b' : Node)
    (hcslen : cs.length = ks.length + 1) (hj : j < ks.length)
    (hCS : CS = cs.take j ++ a' :: b' :: cs.drop (j + 2))
    (hkslen : ks.length ≤ 2 * t - 1)
    (hcw : csWF t cs = true) (hheq : heightsEq cs = true)
    (ha1 : t - 1 ≤ a'.keys.length) (ha2 : looseWF t a' = true)
    (ha3 : a'.height = heightL cs)
    (hb1 : t - 1 ≤ b'.keys.length) (hb2 : looseWF t b' = true)
    (hb3 : b'.height = heightL cs) :
    (Node.mk false (ks.set j k') CS).inorder =
      glueL (ks.take j) (cs.take j) ++ (a'.inorder ++ k' :: b'.inorder) ++
        glueR (ks.drop (j + 1)) (cs.drop (j + 2)) ∧
    looseWF t (.mk false (ks.set j k') CS) = true ∧
    (Node.mk false (ks.set j k') CS).height = 1 + heightL cs ∧
    (Node.mk false (ks.set j k') CS).keys.length = ks.length := by
  have hkj : ks[j]? = some ks[j] := List.getElem?_eq_getElem hj
  have hKS : ks.set j k' = ks.take j ++ k' :: ks.drop (j + 1) :=
    set_split_at ks j ks[j] k' hkj
  have hCSlen : CS.length = cs.length := by
    rw [hCS, List.length_append, List.length_take, List.length_cons,
      List.length_cons, List.length_drop]
    omega
  have hmem : ∀ c ∈ CS, c ∈ cs ∨ c = a' ∨ c = b' := by
    intro c hc
    rw [hCS] at hc
    rcases List.mem_append.mp hc with h | h
    · exact Or.inl (List.take_subset j cs h)
    · rcases List.mem_cons.mp h with rfl | h2
      · exact Or.inr (Or.inl rfl)
      · rcases List.mem_cons.mp h2 with rfl | h3
        · exact Or.inr (Or.inr rfl)
        · exact Or.inl (List.drop_subset (j + 2) cs h3)
  have hallh : ∀ c ∈ CS, c.height = heightL cs := by
    intro c hc
    rcases hmem c hc with h | rfl | rfl
    · exact (heightsEq_iff cs).mp hheq c h
    · exact ha3
    · exact hb3
  have hCSne : CS ≠ [] := by
    intro he
    rw [he] at hCSlen
    simp only [List.length_nil] at hCSlen
    omega
  refine ⟨?_, ?_, ?_, ?_⟩
  · rw [Node.inorder_mk, hCS, hKS]
    have hA : (cs.take j).length = (ks.take j).length := by
      rw [List.length_take, List.length_take]
      omega
    have hB : (b' :: cs.drop (j + 2)).length = (k' :: ks.drop (j + 1)).length := by
      simp only [List.length_cons, List.length_drop]
      omega
    rw [child_decomp (ks.take j) (k' :: ks.drop (j + 1)) (cs.take j)
      (b' :: cs.drop (j + 2)) a' hA hB, glueR_cons]
    simp [List.append_assoc]
  · rw [looseWF_internal_iff]
    refine ⟨?_, ?_, ?_, heightsEq_of_all _ (heightL cs) hallh⟩
    · rw [List.length_set]
      exact hkslen
    · rw [List.length_set]
      omega
    · rw [csWF_iff]
      intro c hc
      rcases hmem c hc with h | rfl | rfl
      · exact (csWF_iff t cs).mp hcw c h
      · exact ⟨ha1, ha2⟩
      · exact ⟨hb1, hb2⟩
  · rw [Node.height_mk, heightL_all_eq CS (heightL cs) hCSne hallh]
  · rw [Node.keys_mk, List.length_set]

theorem replace_merge_spec (t : Nat) (ks KS : List Int) (cs CS : List Node)
    (j : Nat) (m : Node)
    (hcslen : cs.length = ks.length + 1) (hj : j < ks.length)
    (hKS : KS = ks.take j ++ ks.drop (j + 1))
    (hCS : CS = cs.take j ++ m :: cs.drop (j + 2))
    (hkslen : ks.length ≤ 2 * t - 1) (hks2 : 2 ≤ ks.length)
    (hcw : csWF t cs = true) (hheq : heightsEq cs = true)
    (hm1 : t - 1 ≤ m.keys.length) (hm2 : looseWF t m = true)
    (hm3 : m.height = heightL cs) :
    (Node.mk false KS CS).inorder =
      glueL (ks.take j) (cs.take j) ++ m.inorder ++
        glueR (ks.drop (j + 1)) (cs.drop (j + 2)) ∧
    looseWF t (.mk false KS CS) = true ∧
    (Node.mk false KS CS).height = 1 + heightL cs ∧
    (Node.mk false KS CS).keys.length = ks.length - 1 := by
  have hKSlen : KS.length = ks.length - 1 := by
    rw [hKS, List.length_append, List.length_take, List.length_drop]
    omega
  have hCSlen : CS.length = cs.length - 1 := by
    rw [hCS, List.length_append, List.length_take, List.length_cons, List.length_drop]
    omega
  have hmem : ∀ c ∈ CS, c ∈ cs ∨ c = m := by
    intro c hc
    rw [hCS] at hc
    rcases List.mem_append.mp hc with h | h
    · exact Or.inl (List.take_subset j cs h)
    · rcases List.mem_cons.mp h with rfl | h2
      · exact Or.inr rfl
      · exact Or.inl (List.drop_subset (j + 2) cs h2)
  have hallh : ∀ c ∈ CS, c.height = heightL cs := by
    intro c hc
    rcases hmem c hc with h | rfl
    · exact (heightsEq_iff cs).mp hheq c h
    · exact hm3
  have hCSne : CS ≠ [] := by
    intro he
    rw [he] at hCSlen
    simp only [List.length_nil] at hCSlen
    omega
  refine ⟨?_, ?_, ?_, ?_⟩
  · rw [Node.inorder_mk, hCS, hKS]
    have hA : (cs.take j).length = (ks.take j).length := by
      rw [List.length_take, List.length_take]
      omega
    have hB : (cs.drop (j + 2)).length = (ks.drop (j + 1)).length := by
      rw [List.length_drop, List.length_drop]
      omega
    exact child_decomp (ks.take j) (ks.drop (j + 1)) (cs.take j)
      (cs.drop (j + 2)) m hA hB
  · rw [looseWF_internal_iff]
    refine ⟨by omega, by omega, ?_, heightsEq_of_all _ (heightL cs) hallh⟩
    rw [csWF_iff]
    intro c hc
    rcases hmem c hc with h | rfl
    · exact (csWF_iff t cs).mp hcw c h
    · exact ⟨hm1, hm2⟩
  · rw [Node.height_mk, heightL_all_eq CS (heightL cs) hCSne hallh]
  · rw [Node.keys_mk]
    omega

theorem remove_rec_leaf_spec (t : Nat) (ht : 2 ≤ t) (isRoot : Bool) (fuel : Nat)
    (key : Int) (ks : List Int) (cs : List Node)
    (hw : looseWF t (.mk true ks cs) = true)
    (hroot : isRoot = true → 1 ≤ ks.length)
    (hnonroot : isRoot = false → t ≤ ks.length)
    (hsort : List.Pairwise (· < ·) (Node.mk true ks cs).inorder) :
    (key ∈ (Node.mk true ks cs).inorder →
      ∃ nd', remove_rec t isRoot fuel key (.mk true ks cs) = .ok nd' ∧
        nd'.inorder = (Node.mk true ks cs).inorder.erase key ∧
        looseWF t nd' = true ∧
        (isRoot = false → nd'.is_leaf = (Node.mk true ks cs).is_leaf ∧
          nd'.height = (Node.mk true ks cs).height ∧ t - 1 ≤ nd'.keys.length) ∧
        (isRoot = true → nd'.is_leaf = false → 1 ≤ nd'.keys.length)) ∧
    (key ∉ (Node.mk true ks cs).inorder →
      ∃ nd', remove_rec t isRoot fuel key (.mk true ks cs) = .err nd' ∧
        nd'.inorder = (Node.mk true ks cs).inorder ∧
        looseWF t nd' = true ∧
        (isRoot = false → nd'.is_leaf = (Node.mk true ks cs).is_leaf ∧
          nd'.height = (Node.mk true ks cs).height ∧ t - 1 ≤ nd'.keys.length) ∧
        (isRoot = true → nd'.is_leaf = false → 1 ≤ nd'.keys.length)) := by
  have hcs : cs = [] := ((looseWF_leaf_iff t ks cs).mp hw).2
  subst hcs
  have hlen := ((looseWF_leaf_iff t ks []).mp hw).1
  have hkslen : 1 ≤ ks.length := by
    cases isRoot
    · have := hnonroot rfl
      omega
    · have := hroot rfl
      omega
  have hne : ks ≠ [] := ne_nil_of_length_pos ks (by omega)
  rw [inorder_leaf] at hsort
  rw [inorder_leaf]
  have hback : ks.getLast? = some (ks.getLast hne) := List.getLast?_eq_getLast ks hne
  have hfront : ks.head? = some (ks.head hne) := List.head?_eq_head hne
  rw [remove_rec]
  simp only [hback]
  by_cases hgt : key > ks.getLast hne
  · constructor
    · intro hm
      exfalso
      rcases all_le_getLast_of_sorted ks _ hsort hback key hm with heq | hlt
      · rw [heq] at hgt
        exact lt_irrefl _ hgt
      · omega
    · intro _
      rw [if_pos hgt, if_pos trivial]
      refine ⟨_, rfl, by rw [inorder_leaf], hw, ?_, ?_⟩
      · intro hir
        refine ⟨rfl, rfl, ?_⟩
        simp only [Node.keys_mk]
        have := hnonroot hir
        omega
      · intro _ hlf
        simp [Node.is_leaf_mk] at hlf
  · rw [if_neg hgt]
    simp only [hfront]
    by_cases hge : key ≥ ks.head hne
    · rw [if_pos hge]
      by_cases hm : key ∈ ks
      · have hsm := scan_mem_idx key ks hsort hm
        simp only [hsm]
        rw [if_pos trivial, if_pos trivial]
        simp only [rm_key_of_mem key ks hsort hm]
        constructor
        · intro _
          refine ⟨_, rfl, by rw [inorder_leaf], ?_, ?_, ?_⟩
          · rw [looseWF_leaf_iff]
            refine ⟨?_, rfl⟩
            rw [List.length_erase_of_mem hm]
            omega
          · intro hir
            refine ⟨rfl, rfl, ?_⟩
            rw [Node.keys_mk, List.length_erase_of_mem hm]
            have := hnonroot hir
            omega
          · intro _ hlf
            simp [Node.is_leaf_mk] at hlf
        · intro hnm
          exact absurd hm hnm
      · have hIlt : (ks.takeWhile (fun x => decide (x < key))).length < ks.length := by
          by_contra hI
          have hIeq : (ks.takeWhile (fun x => decide (x < key))).length = ks.length := by
            have := tw_len_le (fun x => decide (x < key)) ks
            omega
          have htws : ks.takeWhile (fun x => decide (x < key)) = ks :=
            List.Sublist.eq_of_length (List.takeWhile_sublist _) hIeq
          have hbl : ks.getLast hne < key := by
            have hmem : ks.getLast hne ∈ ks.takeWhile (fun x => decide (x < key)) := by
              rw [htws]
              exact List.getLast_mem hne
            simpa using List.mem_takeWhile_imp hmem
          exact hgt hbl
        have hki : ks[(ks.takeWhile (fun x => decide (x < key))).length]? =
            some ks[(ks.takeWhile (fun x => decide (x < key))).length] :=
          List.getElem?_eq_getElem hIlt
        have hdropmem : ks[(ks.takeWhile (fun x => decide (x < key))).length] ∈
            ks.drop (ks.takeWhile (fun x => decide (x < key))).length := by
          rw [drop_split_at ks _ _ hki]
          exact List.mem_cons_self _ _
        have hkigt : key < ks[(ks.takeWhile (fun x => decide (x < key))).length] :=
          scan_drop_gt key ks hsort hm _ hdropmem
        simp only [hki]
        rw [if_neg (by omega : ¬ks[(ks.takeWhile (fun x => decide (x < key))).length] = key)]
        simp only [List.getElem?_nil]
        constructor
        · intro hmm
          exact absurd hmm hm
        · intro _
          refine ⟨_, rfl, by rw [inorder_leaf], hw, ?_, ?_⟩
          · intro hir
            refine ⟨rfl, rfl, ?_⟩
            simp only [Node.keys_mk]
            have := hnonroot hir
            omega
          · intro _ hlf
            simp [Node.is_leaf_mk] at hlf
    · rw [if_neg hge, if_pos trivial]
      constructor
      · intro hm
        exact absurd (front_le_all_of_sorted ks _ hsort hfront key hm) hge
      · intro _
        refine ⟨_, rfl, by rw [inorder_leaf], hw, ?_, ?_⟩
        · intro hir
          refine ⟨rfl, rfl, ?_⟩
          simp only [Node.keys_mk]
          have := hnonroot hir
          omega
        · intro _ hlf
          simp [Node.is_leaf_mk] at hlf

theorem inorder_of_leaf (t : Nat) (nd : Node) (hw : looseWF t nd = true)
    (hlf : nd.is_leaf = true) : nd.inorder = nd.keys := by
  rw [inorder_eq_inorderA, looseWF_children_nil t nd hw hlf, inorderA_nil_children]

theorem height_children (nd : Node) : nd.height = 1 + heightL nd.children := by
  cases nd with
  | mk lf ks cs => rw [Node.height_mk, Node.children_mk]

theorem mem_of_getElem? {α : Type} {l : List α} {i : Nat} {x : α}
    (h : l[i]? = some x) : x ∈ l := by
  obtain ⟨hlt, rfl⟩ := List.getElem?_eq_some.mp h
  exact List.getElem_mem hlt

theorem inorderA_head_cons (ks : List Int) (cs : List Node) (k : Int) (c : Node)
    (hks : ks.head? = some k) (hcs : cs.head? = some c) :
    inorderA ks cs = c.inorder ++ k :: inorderA ks.tail cs.tail := by
  cases ks with
  | nil => simp at hks
  | cons k0 ks' =>
    cases cs with
    | nil => simp at hcs
    | cons c0 cs' =>
      simp only [List.head?_cons, Option.some.injEq] at hks hcs
      subst hks
      subst hcs
      rw [inorderA_cons_cons]
      rfl

set_option maxHeartbeats 3200000 in
theorem without_key_spec (t : Nat) (ht : 2 ≤ t) (f : Nat) (isRoot : Bool)
    (key : Int) (ks : List Int) (cs : List Node) (idx : Nat)
    (ihrec : ∀ (isRoot2 : Bool) (key2 : Int) (nd : Node),
      nd.height ≤ f + 1 →
      looseWF t nd = true →
      (isRoot2 = true → 1 ≤ nd.keys.length) →
      (isRoot2 = false → t ≤ nd.keys.length) →
      List.Pairwise (· < ·) nd.inorder →
      (key2 ∈ nd.inorder →
        ∃ nd', remove_rec t isRoot2 f key2 nd = RmRes.ok nd' ∧
          nd'.inorder = nd.inorder.erase key2 ∧
          looseWF t nd' = true ∧
          (isRoot2 = false → nd'.is_leaf = nd.is_leaf ∧ nd'.height = nd.height ∧
            t - 1 ≤ nd'.keys.length) ∧
          (isRoot2 = true → nd'.is_leaf = false → 1 ≤ nd'.keys.length)) ∧
      (key2 ∉ nd.inorder →
        ∃ nd', remove_rec t isRoot2 f key2 nd = RmRes.err nd' ∧
          nd'.inorder = nd.inorder ∧
          looseWF t nd' = true ∧
          (isRoot2 = false → nd'.is_leaf = nd.is_leaf ∧ nd'.height = nd.height ∧
            t - 1 ≤ nd'.keys.length) ∧
          (isRoot2 = true → nd'.is_leaf = false → 1 ≤ nd'.keys.length)))
    (hh : (Node.mk false ks cs).height ≤ f + 2)
    (hw : looseWF t (.mk false ks cs) = true)
    (hroot : isRoot = true → 1 ≤ ks.length)
    (hnonroot : isRoot = false → t ≤ ks.length)
    (hsort : List.Pairwise (· < ·) (Node.mk false ks cs).inorder)
    (hidx : idx ≤ ks.length)
    (hwinL : ∀ a ∈ ks.take idx, a < key)
    (hwinR : ∀ b ∈ ks.drop idx, key < b) :
    (key ∈ (Node.mk false ks cs).inorder →
      ∃ nd', rm_from_internal_node_without_key t isRoot (f + 1) key idx
          (.mk false ks cs) = .ok nd' ∧
        nd'.inorder = (Node.mk false ks cs).inorder.erase key ∧
        looseWF t nd' = true ∧
        (isRoot = false → nd'.is_leaf = (Node.mk false ks cs).is_leaf ∧
          nd'.height = (Node.mk false ks cs).height ∧ t - 1 ≤ nd'.keys.length) ∧
        (isRoot = true → nd'.is_leaf = false → 1 ≤ nd'.keys.length)) ∧
    (key ∉ (Node.mk false ks cs).inorder →
      ∃ nd', rm_from_internal_node_without_key t isRoot (f + 1) key idx
          (.mk false ks cs) = .err nd' ∧
        nd'.inorder = (Node.mk false ks cs).inorder ∧
        looseWF t nd' = true ∧
        (isRoot = false → nd'.is_leaf = (Node.mk false ks cs).is_leaf ∧
          nd'.height = (Node.mk false ks cs).height ∧ t - 1 ≤ nd'.keys.length) ∧
        (isRoot = true → nd'.is_leaf = false → 1 ≤ nd'.keys.length)) := by
  rcases (looseWF_internal_iff t ks cs).mp hw with ⟨hkslen, hcslen, hcw, hheq⟩
  have hks1 : 1 ≤ ks.length := by
    cases isRoot
    · have := hnonroot rfl
      omega
    · have := hroot rfl
      omega
  have hidxcs : idx < cs.length := by omega
  obtain ⟨cn, hcn⟩ : ∃ x, cs[idx]? = some x :=
    ⟨cs[idx], List.getElem?_eq_getElem hidxcs⟩
  have hcnm : cn ∈ cs := mem_of_getElem? hcn
  have hcnw := (csWF_iff t cs).mp hcw _ hcnm
  have hcnh : cn.height = heightL cs := (heightsEq_iff cs).mp hheq _ hcnm
  have hHLpos : 1 ≤ heightL cs := by
    rw [← hcnh]
    exact height_pos _
  have hhL : heightL cs ≤ f + 1 := by
    rw [Node.height_mk] at hh
    omega
  have hsort' : List.Pairwise (· < ·) (inorderA ks cs) := by
    rw [Node.inorder_mk] at hsort
    exact hsort
  rw [Node.inorder_mk]
  have hio := inorderA_at_decomp ks cs idx cn hcslen hcn hidx
  have hlenL : (cs.take idx).length = (ks.take idx).length := by
    rw [List.length_take, List.length_take]
    omega
  have hLpair : List.Pairwise (· < ·) (glueL (ks.take idx) (cs.take idx) ++
      (cn.inorder ++ glueR (ks.drop idx) (cs.drop (idx + 1)))) := by
    rw [← List.append_assoc, ← hio]
    exact hsort'
  have hGL : ∀ a ∈ glueL (ks.take idx) (cs.take idx), a < key :=
    glueL_lt_key key _ _ _ hlenL hLpair hwinL
  have hlenR : (cs.drop (idx + 1)).length = (ks.drop idx).length := by
    rw [List.length_drop, List.length_drop]
    omega
  have hRpair : List.Pairwise (· < ·) (glueR (ks.drop idx) (cs.drop (idx + 1))) := by
    refine List.Pairwise.sublist ?_ hsort'
    rw [hio]
    exact List.sublist_append_right _ _
  have hGR : ∀ b ∈ glueR (ks.drop idx) (cs.drop (idx + 1)), key < b :=
    glueR_gt_key key _ _ hlenR hRpair hwinR
  have hmemiff : (key ∈ inorderA ks cs) ↔ key ∈ cn.inorder := by
    rw [hio]
    exact mem_middle_iff key _ _ _ hGL hGR
  have hmid : List.Pairwise (· < ·) cn.inorder := by
    refine pairwise_middle (L := glueL (ks.take idx) (cs.take idx))
      (R := glueR (ks.drop idx) (cs.drop (idx + 1))) ?_
    rw [← hio]
    exact hsort'
  rw [rm_from_internal_node_without_key]
  simp only [hcn]
  by_cases hthick : t - 1 < cn.keys.length
  · rw [if_pos hthick]
    have hcnfuel : cn.height ≤ f + 1 := by
      rw [hcnh]
      exact hhL
    obtain ⟨hpres, habs⟩ := ihrec false key cn hcnfuel hcnw.2
      (fun h => absurd h (by simp)) (fun _ => by omega) hmid
    constructor
    · intro hm
      obtain ⟨c', hok, hio', hwf', hpost, _⟩ := hpres (hmemiff.mp hm)
      obtain ⟨hclf, hch, hckn⟩ := hpost rfl
      simp only [hok]
      obtain ⟨hnio, hnwf, hnh⟩ := replace_one_spec t ks cs (cs.set idx c') idx c'
        hcslen hidx (set_split_at cs idx cn c' hcn) hkslen hcw hheq hckn hwf'
        (by rw [hch]; exact hcnh)
      refine ⟨_, rfl, ?_, hnwf, ?_, ?_⟩
      · rw [hnio, hio', hio, erase_middle key _ _ _ hGL (hmemiff.mp hm)]
      · intro hir
        refine ⟨rfl, ?_, ?_⟩
        · rw [hnh, Node.height_mk]
        · rw [Node.keys_mk]
          have := hnonroot hir
          omega
      · intro _ _
        rw [Node.keys_mk]
        omega
    · intro hm
      obtain ⟨c', hok, hio', hwf', hpost, _⟩ := habs (fun hc => hm (hmemiff.mpr hc))
      obtain ⟨hclf, hch, hckn⟩ := hpost rfl
      simp only [hok]
      obtain ⟨hnio, hnwf, hnh⟩ := replace_one_spec t ks cs (cs.set idx c') idx c'
        hcslen hidx (set_split_at cs idx cn c' hcn) hkslen hcw hheq hckn hwf'
        (by rw [hch]; exact hcnh)
      refine ⟨_, rfl, ?_, hnwf, ?_, ?_⟩
      · rw [hnio, hio', hio]
      · intro hir
        refine ⟨rfl, ?_, ?_⟩
        · rw [hnh, Node.height_mk]
        · rw [Node.keys_mk]
          have := hnonroot hir
          omega
      · intro _ _
        rw [Node.keys_mk]
        omega
  · rw [if_neg hthick]
    have hcnt : cn.keys.length = t - 1 := by
      have := hcnw.1
      omega
    by_cases hlend : sib_can_lend t (if idx = 0 then none else cs[idx - 1]?) = true
    · rw [if_pos hlend]
      have hI0 : ¬idx = 0 := by
        intro h
        subst h
        rw [if_pos rfl] at hlend
        simp [sib_can_lend] at hlend
      obtain ⟨j, rfl⟩ : ∃ j, idx = j + 1 := ⟨idx - 1, by omega⟩
      have hjklt : j < ks.length := by omega
      have hjclt : j < cs.length := by omega
      obtain ⟨kL, hjks⟩ : ∃ x, ks[j]? = some x :=
        ⟨ks[j], List.getElem?_eq_getElem hjklt⟩
      obtain ⟨lsib, hjcs⟩ : ∃ x, cs[j]? = some x :=
        ⟨cs[j], List.getElem?_eq_getElem hjclt⟩
      have hred : (if j + 1 = 0 then (none : Option Node) else cs[j + 1 - 1]?) =
          some lsib := by
        rw [if_neg (by omega)]
        simpa using hjcs
      rw [hred] at hlend
      simp only [sib_can_lend, decide_eq_true_eq] at hlend
      have hred2 : (if j + 1 = 0 then (none : Option Node) else cs[j]?) =
          some lsib := by
        rw [if_neg (by omega)]
        exact hjcs
      simp only [Nat.add_sub_cancel, hred2, hjks]
      have hjmem : lsib ∈ cs := mem_of_getElem? hjcs
      have hlw := (csWF_iff t cs).mp hcw _ hjmem
      have hlkne : lsib.keys ≠ [] := by
        intro he
        rw [he] at hlend
        simp only [List.length_nil] at hlend
        omega
      have hlb : lsib.keys.getLast? = some (lsib.keys.getLast hlkne) :=
        List.getLast?_eq_getLast _ hlkne
      simp only [hlb]
      have hlsh : lsib.height = heightL cs := (heightsEq_iff cs).mp hheq _ hjmem
      have hlfeq : cn.is_leaf = lsib.is_leaf :=
        leaf_eq_of_height t _ _ hcnw.2 hlw.2 (by rw [hcnh, hlsh])
      have hioA := inorderA_around_decomp ks cs j kL lsib cn hcslen hjks hjcs hcn
      have hMpair : List.Pairwise (· < ·)
          (lsib.inorder ++ kL :: cn.inorder) := by
        refine pairwise_middle (L := glueL (ks.take j) (cs.take j))
          (R := glueR (ks.drop (j + 1)) (cs.drop (j + 2))) ?_
        rw [← hioA]
        exact hsort'
      have hkLlt : kL < key := by
        apply hwinL
        rw [take_succ_of_getElem? ks j kL hjks]
        exact List.mem_append.mpr (Or.inr (List.mem_cons_self _ _))
      have hlsio_lt : ∀ a ∈ lsib.inorder, a < key := by
        intro a ha
        have hcross := (List.pairwise_append.mp hMpair).2.2 a ha kL
          (List.mem_cons_self _ _)
        omega
      have hlenLj : (cs.take j).length = (ks.take j).length := by
        rw [List.length_take, List.length_take]
        omega
      have hLpairj : List.Pairwise (· < ·) (glueL (ks.take j) (cs.take j) ++
          ((lsib.inorder ++ kL :: cn.inorder) ++
            glueR (ks.drop (j + 1)) (cs.drop (j + 2)))) := by
        rw [← List.append_assoc, ← hioA]
        exact hsort'
      have hGLj : ∀ a ∈ glueL (ks.take j) (cs.take j), a < key := by
        refine glueL_lt_key key _ _ _ hlenLj hLpairj ?_
        intro a ha
        apply hwinL
        rw [take_succ_of_getElem? ks j kL hjks]
        exact List.mem_append.mpr (Or.inl ha)
      have hmemiffj : (key ∈ inorderA ks cs) ↔
          key ∈ lsib.inorder ++ kL :: cn.inorder := by
        rw [hioA]
        exact mem_middle_iff key _ _ _ hGLj hGR
      have hCS2 : ∀ (ls' c' : Node), (cs.set j ls').set (j + 1) c' =
          cs.take j ++ ls' :: c' :: cs.drop (j + 2) := by
        intro ls' c'
        rw [set_split_at cs j lsib ls' hjcs,
          drop_split_at cs (j + 1) cn hcn]
        rw [show cs.take j ++ ls' :: cn :: cs.drop (j + 2) =
          (cs.take j ++ [ls']) ++ cn :: cs.drop (j + 2) by simp]
        rw [set_at_append_len _ _ _ c' (j + 1)
          (by rw [List.length_append, length_take_of_getElem? hjcs]; rfl)]
        simp
      by_cases hslf : lsib.is_leaf = true
      · rw [if_pos hslf]
        have hslchn : lsib.children = [] := looseWF_children_nil t _ hlw.2 hslf
        have hcnlf : cn.is_leaf = true := hlfeq.trans hslf
        have hcnchn : cn.children = [] := looseWF_children_nil t _ hcnw.2 hcnlf
        have hlh1 : lsib.height = 1 := (looseWF_height_eq_one_iff t _ hlw.2).mpr hslf
        have hHL1 : heightL cs = 1 := by rw [← hlsh, hlh1]
        generalize hCN : Node.mk cn.is_leaf (kL :: cn.keys) cn.children = CN
        generalize hLS : Node.mk lsib.is_leaf lsib.keys.dropLast lsib.children = LS
        have hCNio : CN.inorder = kL :: cn.inorder := by
          rw [← hCN, Node.inorder_mk, hcnchn, inorderA_nil_children,
            inorder_of_leaf t _ hcnw.2 hcnlf]
        have hLSio : LS.inorder = lsib.keys.dropLast := by
          rw [← hLS, Node.inorder_mk, hslchn, inorderA_nil_children]
        have hMre : lsib.inorder ++ kL :: cn.inorder =
            (LS.inorder ++ [lsib.keys.getLast hlkne]) ++ CN.inorder := by
          rw [hCNio, hLSio, show lsib.keys.dropLast ++ [lsib.keys.getLast hlkne] =
            lsib.keys from List.dropLast_append_getLast hlkne,
            inorder_of_leaf t _ hlw.2 hslf]
        have hPlt : ∀ a ∈ LS.inorder ++ [lsib.keys.getLast hlkne], a < key := by
          intro a ha
          apply hlsio_lt
          rw [inorder_of_leaf t _ hlw.2 hslf, ← List.dropLast_append_getLast hlkne]
          rw [hLSio] at ha
          exact ha
        have hnotinP : key ∉ LS.inorder ++ [lsib.keys.getLast hlkne] :=
          fun h => absurd (hPlt key h) (lt_irrefl key)
        have hMcn : (key ∈ lsib.inorder ++ kL :: cn.inorder) ↔
            key ∈ CN.inorder := by
          rw [hMre, List.mem_append]
          constructor
          · rintro (h | h)
            · exact absurd (hPlt key h) (lt_irrefl key)
            · exact h
          · exact fun h => Or.inr h
        have hCNh : CN.height = heightL cs := by
          rw [← hCN, Node.height_mk, hcnchn, heightL_nil, hHL1]
        have hCNwf : looseWF t CN = true := by
          rw [← hCN, show Node.mk cn.is_leaf (kL :: cn.keys) cn.children =
              Node.mk true (kL :: cn.keys) [] by rw [hcnlf, hcnchn]]
          rw [looseWF_leaf_iff]
          refine ⟨?_, rfl⟩
          simp only [List.length_cons]
          omega
        have hCNkl : t ≤ CN.keys.length := by
          rw [← hCN, Node.keys_mk]
          simp only [List.length_cons]
          omega
        have hCNsort : List.Pairwise (· < ·) CN.inorder := by
          refine List.Pairwise.sublist ?_ hMpair
          rw [hMre]
          exact List.sublist_append_right _ _
        have hLS1 : t - 1 ≤ LS.keys.length := by
          rw [← hLS, Node.keys_mk, List.length_dropLast]
          omega
        have hLS2 : looseWF t LS = true := by
          rw [← hLS, show Node.mk lsib.is_leaf lsib.keys.dropLast lsib.children =
              Node.mk true lsib.keys.dropLast [] by rw [hslf, hslchn]]
          rw [looseWF_leaf_iff]
          refine ⟨?_, rfl⟩
          rw [List.length_dropLast]
          have := looseWF_keys_le t _ hlw.2
          omega
        have hLS3 : LS.height = heightL cs := by
          rw [← hLS, Node.height_mk, hslchn, heightL_nil, hHL1]
        obtain ⟨hpres, habs⟩ := ihrec false key CN (by rw [hCNh]; exact hhL) hCNwf
          (fun h => absurd h (by simp)) (fun _ => hCNkl) hCNsort
        constructor
        · intro hm
          have hMmem : key ∈ lsib.inorder ++ kL :: cn.inorder :=
            hmemiffj.mp hm
          obtain ⟨c', hok, hio', hwf', hpost, _⟩ := hpres (hMcn.mp hMmem)
          obtain ⟨hclf, hch, hckn⟩ := hpost rfl
          simp only [hok]
          obtain ⟨hnio, hnwf, hnh, hnkl⟩ := replace_pair_spec t ks cs
            ((cs.set j LS).set (j + 1) c') j (lsib.keys.getLast hlkne) LS c'
            hcslen (by omega) (hCS2 LS c') hkslen hcw hheq hLS1 hLS2 hLS3
            hckn hwf' (by rw [hch]; exact hCNh)
          refine ⟨_, rfl, ?_, hnwf, ?_, ?_⟩
          · rw [hnio, hio', hioA, erase_middle key _ _ _ hGLj hMmem, hMre,
              List.erase_append_right _ hnotinP]
            simp [List.append_assoc]
          · intro hir
            refine ⟨rfl, ?_, ?_⟩
            · rw [hnh, Node.height_mk]
            · rw [Node.keys_mk, List.length_set]
              have := hnonroot hir
              omega
          · intro _ _
            rw [Node.keys_mk, List.length_set]
            omega
        · intro hm
          have hMnm : key ∉ lsib.inorder ++ kL :: cn.inorder :=
            fun h => hm (hmemiffj.mpr h)
          obtain ⟨c', hok, hio', hwf', hpost, _⟩ := habs (fun h => hMnm (hMcn.mpr h))
          obtain ⟨hclf, hch, hckn⟩ := hpost rfl
          simp only [hok]
          obtain ⟨hnio, hnwf, hnh, hnkl⟩ := replace_pair_spec t ks cs
            ((cs.set j LS).set (j + 1) c') j (lsib.keys.getLast hlkne) LS c'
            hcslen (by omega) (hCS2 LS c') hkslen hcw hheq hLS1 hLS2 hLS3
            hckn hwf' (by rw [hch]; exact hCNh)
          refine ⟨_, rfl, ?_, hnwf, ?_, ?_⟩
          · rw [hnio, hio', hioA, hMre]
            simp [List.append_assoc]
          · intro hir
            refine ⟨rfl, ?_, ?_⟩
            · rw [hnh, Node.height_mk]
            · rw [Node.keys_mk, List.length_set]
              have := hnonroot hir
              omega
          · intro _ _
            rw [Node.keys_mk, List.length_set]
            omega
      · have hslfF : lsib.is_leaf = false := by
          cases h : lsib.is_leaf
          · rfl
          · exact absurd h hslf
        rw [if_neg hslf]
        have hclenl : lsib.children.length = lsib.keys.length + 1 :=
          looseWF_children_length t _ hlw.2 hslfF
        have hlcne : lsib.children ≠ [] := by
          intro he
          rw [he] at hclenl
          simp only [List.length_nil] at hclenl
          omega
        have hlc : lsib.children.getLast? = some (lsib.children.getLast hlcne) :=
          List.getLast?_eq_getLast _ hlcne
        simp only [hlc]
        have hcnlfF : cn.is_leaf = false := hlfeq.trans hslfF
        have hclenc : cn.children.length = cn.keys.length + 1 :=
          looseWF_children_length t _ hcnw.2 hcnlfF
        have hlchm : lsib.children.getLast hlcne ∈ lsib.children :=
          List.getLast_mem hlcne
        have hlcsw := (csWF_iff t lsib.children).mp (looseWF_csWF t _ hlw.2 hslfF)
          _ hlchm
        have hlche : (lsib.children.getLast hlcne).height = heightL lsib.children :=
          (heightsEq_iff _).mp (looseWF_heightsEq t _ hlw.2 hslfF) _ hlchm
        have hhlc : heightL lsib.children = heightL cs - 1 := by
          have h1 := height_children lsib
          rw [hlsh] at h1
          omega
        have hhcc : heightL cn.children = heightL cs - 1 := by
          have h1 := height_children cn
          rw [hcnh] at h1
          omega
        generalize hCN : Node.mk cn.is_leaf (kL :: cn.keys)
          (lsib.children.getLast hlcne :: cn.children) = CN
        generalize hLS : Node.mk lsib.is_leaf lsib.keys.dropLast
          lsib.children.dropLast = LS
        have hCNio : CN.inorder = (lsib.children.getLast hlcne).inorder ++
            kL :: cn.inorder := by
          rw [← hCN, Node.inorder_mk, inorderA_cons_cons, ← inorder_eq_inorderA]
        have hLSio : LS.inorder =
            inorderA lsib.keys.dropLast lsib.children.dropLast := by
          rw [← hLS, Node.inorder_mk]
        have hMre : lsib.inorder ++ kL :: cn.inorder =
            (LS.inorder ++ [lsib.keys.getLast hlkne]) ++ CN.inorder := by
          rw [hCNio, hLSio, inorder_eq_inorderA lsib,
            inorderA_snoc_decomp lsib.keys lsib.children _ _ hclenl hlb hlc]
          simp [List.append_assoc]
        have hPlt : ∀ a ∈ LS.inorder ++ [lsib.keys.getLast hlkne], a < key := by
          intro a ha
          apply hlsio_lt
          rw [inorder_eq_inorderA lsib,
            inorderA_snoc_decomp lsib.keys lsib.children _ _ hclenl hlb hlc]
          rw [hLSio] at ha
          rcases List.mem_append.mp ha with h | h
          · exact List.mem_append.mpr (Or.inl h)
          · simp only [List.mem_singleton] at h
            subst h
            exact List.mem_append.mpr (Or.inr (List.mem_cons_self _ _))
        have hnotinP : key ∉ LS.inorder ++ [lsib.keys.getLast hlkne] :=
          fun h => absurd (hPlt key h) (lt_irrefl key)
        have hMcn : (key ∈ lsib.inorder ++ kL :: cn.inorder) ↔
            key ∈ CN.inorder := by
          rw [hMre, List.mem_append]
          constructor
          · rintro (h | h)
            · exact absurd (hPlt key h) (lt_irrefl key)
            · exact h
          · exact fun h => Or.inr h
        have hCNh : CN.height = heightL cs := by
          rw [← hCN, Node.height_mk, heightL_cons, hlche, hhlc, hhcc, Nat.max_self]
          omega
        have hCNwf : looseWF t CN = true := by
          rw [← hCN, show Node.mk cn.is_leaf (kL :: cn.keys)
              (lsib.children.getLast hlcne :: cn.children) =
              Node.mk false (kL :: cn.keys)
              (lsib.children.getLast hlcne :: cn.children) by rw [hcnlfF]]
          rw [looseWF_internal_iff]
          refine ⟨?_, ?_, ?_, ?_⟩
          · simp only [List.length_cons]
            omega
          · simp only [List.length_cons]
            omega
          · rw [csWF_iff]
            intro c hc
            rcases List.mem_cons.mp hc with rfl | hc2
            · exact hlcsw
            · exact (csWF_iff t _).mp (looseWF_csWF t _ hcnw.2 hcnlfF) c hc2
          · refine heightsEq_of_all _ (heightL cs - 1) ?_
            intro c hc
            rcases List.mem_cons.mp hc with rfl | hc2
            · rw [hlche, hhlc]
            · rw [(heightsEq_iff _).mp (looseWF_heightsEq t _ hcnw.2 hcnlfF) c hc2,
                hhcc]
        have hCNkl : t ≤ CN.keys.length := by
          rw [← hCN, Node.keys_mk]
          simp only [List.length_cons]
          omega
        have hCNsort : List.Pairwise (· < ·) CN.inorder := by
          refine List.Pairwise.sublist ?_ hMpair
          rw [hMre]
          exact List.sublist_append_right _ _
        have hLS1 : t - 1 ≤ LS.keys.length := by
          rw [← hLS, Node.keys_mk, List.length_dropLast]
          omega
        have hdlne : lsib.children.dropLast ≠ [] := by
          intro he
          have h1 := congrArg List.length he
          rw [List.length_dropLast, hclenl] at h1
          simp only [List.length_nil] at h1
          omega
        have hLS2 : looseWF t LS = true := by
          rw [← hLS, show Node.mk lsib.is_leaf lsib.keys.dropLast
              lsib.children.dropLast = Node.mk false lsib.keys.dropLast
              lsib.children.dropLast by rw [hslfF]]
          rw [looseWF_internal_iff]
          refine ⟨?_, ?_, ?_, ?_⟩
          · rw [List.length_dropLast]
            have := looseWF_keys_le t _ hlw.2
            omega
          · rw [List.length_dropLast, List.length_dropLast, hclenl]
            omega
          · rw [csWF_iff]
            intro c hc
            exact (csWF_iff t _).mp (looseWF_csWF t _ hlw.2 hslfF) c
              ((List.dropLast_sublist _).subset hc)
          · refine heightsEq_of_all _ (heightL lsib.children) ?_
            intro c hc
            exact (heightsEq_iff _).mp (looseWF_heightsEq t _ hlw.2 hslfF) c
              ((List.dropLast_sublist _).subset hc)
        have hLS3 : LS.height = heightL cs := by
          rw [← hLS, Node.height_mk, heightL_all_eq lsib.children.dropLast
            (heightL lsib.children) hdlne (fun c hc =>
              (heightsEq_iff _).mp (looseWF_heightsEq t _ hlw.2 hslfF) c
                ((List.dropLast_sublist _).subset hc))]
          omega
        obtain ⟨hpres, habs⟩ := ihrec false key CN (by rw [hCNh]; exact hhL) hCNwf
          (fun h => absurd h (by simp)) (fun _ => hCNkl) hCNsort
        constructor
        · intro hm
          have hMmem : key ∈ lsib.inorder ++ kL :: cn.inorder :=
            hmemiffj.mp hm
          obtain ⟨c', hok, hio', hwf', hpost, _⟩ := hpres (hMcn.mp hMmem)
          obtain ⟨hclf, hch, hckn⟩ := hpost rfl
          simp only [hok]
          obtain ⟨hnio, hnwf, hnh, hnkl⟩ := replace_pair_spec t ks cs
            ((cs.set j LS).set (j + 1) c') j (lsib.keys.getLast hlkne) LS c'
            hcslen (by omega) (hCS2 LS c') hkslen hcw hheq hLS1 hLS2 hLS3
            hckn hwf' (by rw [hch]; exact hCNh)
          refine ⟨_, rfl, ?_, hnwf, ?_, ?_⟩
          · rw [hnio, hio', hioA, erase_middle key _ _ _ hGLj hMmem, hMre,
              List.erase_append_right _ hnotinP]
            simp [List.append_assoc]
          · intro hir
            refine ⟨rfl, ?_, ?_⟩
            · rw [hnh, Node.height_mk]
            · rw [Node.keys_mk, List.length_set]
              have := hnonroot hir
              omega
          · intro _ _
            rw [Node.keys_mk, List.length_set]
            omega
        · intro hm
          have hMnm : key ∉ lsib.inorder ++ kL :: cn.inorder :=
            fun h => hm (hmemiffj.mpr h)
          obtain ⟨c', hok, hio', hwf', hpost, _⟩ := habs (fun h => hMnm (hMcn.mpr h))
          obtain ⟨hclf, hch, hckn⟩ := hpost rfl
          simp only [hok]
          obtain ⟨hnio, hnwf, hnh, hnkl⟩ := replace_pair_spec t ks cs
            ((cs.set j LS).set (j + 1) c') j (lsib.keys.getLast hlkne) LS c'
            hcslen (by omega) (hCS2 LS c') hkslen hcw hheq hLS1 hLS2 hLS3
            hckn hwf' (by rw [hch]; exact hCNh)
          refine ⟨_, rfl, ?_, hnwf, ?_, ?_⟩
          · rw [hnio, hio', hioA, hMre]
            simp [List.append_assoc]
          · intro hir
            refine ⟨rfl, ?_, ?_⟩
            · rw [hnh, Node.height_mk]
            · rw [Node.keys_mk, List.length_set]
              have := hnonroot hir
              omega
          · intro _ _
            rw [Node.keys_mk, List.length_set]
            omega
    · rw [if_neg hlend]
      by_cases hrlend : sib_can_lend t
          (if idx = cs.length - 1 then none else cs[idx + 1]?) = true
      · rw [if_pos hrlend]
        have hIne : ¬idx = cs.length - 1 := by
          intro h
          rw [if_pos h] at hrlend
          simp [sib_can_lend] at hrlend
        have hidxks : idx < ks.length := by omega
        obtain ⟨rsib, hrcs⟩ : ∃ x, cs[idx + 1]? = some x :=
          ⟨cs[idx + 1], List.getElem?_eq_getElem (by omega)⟩
        have hred : (if idx = cs.length - 1 then (none : Option Node)
            else cs[idx + 1]?) = some rsib := by
          rw [if_neg hIne]
          exact hrcs
        rw [hred] at hrlend
        simp only [sib_can_lend, decide_eq_true_eq] at hrlend
        simp only [hred]
        obtain ⟨kR, hkR⟩ : ∃ x, ks[idx]? = some x :=
          ⟨ks[idx], List.getElem?_eq_getElem hidxks⟩
        simp only [hkR]
        have hrmem : rsib ∈ cs := mem_of_getElem? hrcs
        have hrw := (csWF_iff t cs).mp hcw _ hrmem
        have hrkne : rsib.keys ≠ [] := by
          intro he
          rw [he] at hrlend
          simp only [List.length_nil] at hrlend
          omega
        have hrf : rsib.keys.head? = some (rsib.keys.head hrkne) :=
          List.head?_eq_head hrkne
        simp only [hrf]
        have hrsh : rsib.height = heightL cs := (heightsEq_iff cs).mp hheq _ hrmem
        have hrfeq : cn.is_leaf = rsib.is_leaf :=
          leaf_eq_of_height t _ _ hcnw.2 hrw.2 (by rw [hcnh, hrsh])
        have hioA := inorderA_around_decomp ks cs idx kR cn rsib hcslen hkR hcn hrcs
        have hMpair : List.Pairwise (· < ·)
            (cn.inorder ++ kR :: rsib.inorder) := by
          refine pairwise_middle (L := glueL (ks.take idx) (cs.take idx))
            (R := glueR (ks.drop (idx + 1)) (cs.drop (idx + 2))) ?_
          rw [← hioA]
          exact hsort'
        have hkRgt : key < kR := by
          apply hwinR
          rw [drop_split_at ks idx kR hkR]
          exact List.mem_cons_self _ _
        have hrsio_gt : ∀ b ∈ kR :: rsib.inorder, key < b := by
          refine lt_all_of_sorted_cons ?_ hkRgt
          refine List.Pairwise.sublist ?_ hMpair
          exact List.sublist_append_right _ _
        have hdropsub : ∀ b ∈ ks.drop (idx + 1), key < b := by
          intro b hb
          apply hwinR
          rw [drop_split_at ks idx kR hkR]
          exact List.mem_cons_of_mem _ hb
        have hlenRi : (cs.drop (idx + 2)).length = (ks.drop (idx + 1)).length := by
          rw [List.length_drop, List.length_drop]
          omega
        have hRpairi : List.Pairwise (· < ·)
            (glueR (ks.drop (idx + 1)) (cs.drop (idx + 2))) := by
          refine List.Pairwise.sublist ?_ hsort'
          rw [hioA]
          exact List.sublist_append_right _ _
        have hGRi : ∀ b ∈ glueR (ks.drop (idx + 1)) (cs.drop (idx + 2)), key < b :=
          glueR_gt_key key _ _ hlenRi hRpairi hdropsub
        have hmemiffA : (key ∈ inorderA ks cs) ↔
            key ∈ cn.inorder ++ kR :: rsib.inorder := by
          rw [hioA]
          exact mem_middle_iff key _ _ _ hGL hGRi
        have hCS2 : ∀ (rs' c' : Node), (cs.set (idx + 1) rs').set idx c' =
            cs.take idx ++ c' :: rs' :: cs.drop (idx + 2) := by
          intro rs' c'
          conv_lhs => rw [list_split_at cs idx cn hcn,
            drop_split_at cs (idx + 1) rsib hrcs]
          rw [show cs.take idx ++ cn :: rsib :: cs.drop (idx + 2) =
            (cs.take idx ++ [cn]) ++ rsib :: cs.drop (idx + 2) by simp]
          rw [set_at_append_len _ _ _ rs' (idx + 1)
            (by rw [List.length_append, length_take_of_getElem? hcn]; rfl)]
          rw [show (cs.take idx ++ [cn]) ++ rs' :: cs.drop (idx + 2) =
            cs.take idx ++ cn :: rs' :: cs.drop (idx + 2) by simp]
          rw [set_at_append_len _ _ _ c' idx (length_take_of_getElem? hcn)]
        by_cases hslf : rsib.is_leaf = true
        · rw [if_pos hslf]
          have hsrchn : rsib.children = [] := looseWF_children_nil t _ hrw.2 hslf
          have hcnlf : cn.is_leaf = true := hrfeq.trans hslf
          have hcnchn : cn.children = [] := looseWF_children_nil t _ hcnw.2 hcnlf
          have hrh1 : rsib.height = 1 := (looseWF_height_eq_one_iff t _ hrw.2).mpr hslf
          have hHL1 : heightL cs = 1 := by rw [← hrsh, hrh1]
          generalize hCN : Node.mk cn.is_leaf (cn.keys ++ [kR]) cn.children = CN
          generalize hRS : Node.mk rsib.is_leaf rsib.keys.tail rsib.children = RS
          have hCNio : CN.inorder = cn.inorder ++ [kR] := by
            rw [← hCN, Node.inorder_mk, hcnchn, inorderA_nil_children,
              inorder_of_leaf t _ hcnw.2 hcnlf]
          have hRSio : RS.inorder = rsib.keys.tail := by
            rw [← hRS, Node.inorder_mk, hsrchn, inorderA_nil_children]
          have hMre : cn.inorder ++ kR :: rsib.inorder =
              CN.inorder ++ rsib.keys.head hrkne :: RS.inorder := by
            rw [hCNio, hRSio, inorder_of_leaf t _ hrw.2 hslf,
              show rsib.keys.head hrkne :: rsib.keys.tail = rsib.keys from
                List.head_cons_tail _ _]
            simp [List.append_assoc]
          have hQgt : ∀ b ∈ rsib.keys.head hrkne :: RS.inorder, key < b := by
            intro b hb
            apply hrsio_gt
            refine List.mem_cons_of_mem kR ?_
            rw [inorder_of_leaf t _ hrw.2 hslf]
            rcases List.mem_cons.mp hb with rfl | hb2
            · exact List.head_mem hrkne
            · rw [hRSio] at hb2
              exact (List.tail_sublist _).subset hb2
          have hMcn : (key ∈ cn.inorder ++ kR :: rsib.inorder) ↔
              key ∈ CN.inorder := by
            rw [hMre, List.mem_append]
            constructor
            · rintro (h | h)
              · exact h
              · exact absurd (hQgt key h) (lt_irrefl key)
            · exact fun h => Or.inl h
          have hCNh : CN.height = heightL cs := by
            rw [← hCN, Node.height_mk, hcnchn, heightL_nil, hHL1]
          have hCNwf : looseWF t CN = true := by
            rw [← hCN, show Node.mk cn.is_leaf (cn.keys ++ [kR]) cn.children =
                Node.mk true (cn.keys ++ [kR]) [] by rw [hcnlf, hcnchn]]
            rw [looseWF_leaf_iff]
            refine ⟨?_, rfl⟩
            rw [List.length_append]
            simp only [List.length_singleton]
            omega
          have hCNkl : t ≤ CN.keys.length := by
            rw [← hCN, Node.keys_mk, List.length_append]
            simp only [List.length_singleton]
            omega
          have hCNsort : List.Pairwise (· < ·) CN.inorder := by
            refine List.Pairwise.sublist ?_ hMpair
            rw [hMre]
            exact List.sublist_append_left _ _
          have hRS1 : t - 1 ≤ RS.keys.length := by
            rw [← hRS, Node.keys_mk, List.length_tail]
            omega
          have hRS2 : looseWF t RS = true := by
            rw [← hRS, show Node.mk rsib.is_leaf rsib.keys.tail rsib.children =
                Node.mk true rsib.keys.tail [] by rw [hslf, hsrchn]]
            rw [looseWF_leaf_iff]
            refine ⟨?_, rfl⟩
            rw [List.length_tail]
            have := looseWF_keys_le t _ hrw.2
            omega
          have hRS3 : RS.height = heightL cs := by
            rw [← hRS, Node.height_mk, hsrchn, heightL_nil, hHL1]
          obtain ⟨hpres, habs⟩ := ihrec false key CN (by rw [hCNh]; exact hhL) hCNwf
            (fun h => absurd h (by simp)) (fun _ => hCNkl) hCNsort
          constructor
          · intro hm
            have hMmem : key ∈ cn.inorder ++ kR :: rsib.inorder :=
              hmemiffA.mp hm
            obtain ⟨c', hok, hio', hwf', hpost, _⟩ := hpres (hMcn.mp hMmem)
            obtain ⟨hclf, hch, hckn⟩ := hpost rfl
            simp only [hok]
            obtain ⟨hnio, hnwf, hnh, hnkl⟩ := replace_pair_spec t ks cs
              ((cs.set (idx + 1) RS).set idx c') idx (rsib.keys.head hrkne) c' RS
              hcslen hidxks (hCS2 RS c') hkslen hcw hheq
              hckn hwf' (by rw [hch]; exact hCNh) hRS1 hRS2 hRS3
            refine ⟨_, rfl, ?_, hnwf, ?_, ?_⟩
            · rw [hnio, hio', hioA, erase_middle key _ _ _ hGL hMmem, hMre,
                List.erase_append_left _ (hMcn.mp hMmem)]
            · intro hir
              refine ⟨rfl, ?_, ?_⟩
              · rw [hnh, Node.height_mk]
              · rw [Node.keys_mk, List.length_set]
                have := hnonroot hir
                omega
            · intro _ _
              rw [Node.keys_mk, List.length_set]
              omega
          · intro hm
            have hMnm : key ∉ cn.inorder ++ kR :: rsib.inorder :=
              fun h => hm (hmemiffA.mpr h)
            obtain ⟨c', hok, hio', hwf', hpost, _⟩ := habs (fun h => hMnm (hMcn.mpr h))
            obtain ⟨hclf, hch, hckn⟩ := hpost rfl
            simp only [hok]
            obtain ⟨hnio, hnwf, hnh, hnkl⟩ := replace_pair_spec t ks cs
              ((cs.set (idx + 1) RS).set idx c') idx (rsib.keys.head hrkne) c' RS
              hcslen hidxks (hCS2 RS c') hkslen hcw hheq
              hckn hwf' (by rw [hch]; exact hCNh) hRS1 hRS2 hRS3
            refine ⟨_, rfl, ?_, hnwf, ?_, ?_⟩
            · rw [hnio, hio', hioA, hMre]
            · intro hir
              refine ⟨rfl, ?_, ?_⟩
              · rw [hnh, Node.height_mk]
              · rw [Node.keys_mk, List.length_set]
                have := hnonroot hir
                omega
            · intro _ _
              rw [Node.keys_mk, List.length_set]
              omega
        · have hslfF : rsib.is_leaf = false := by
            cases h : rsib.is_leaf
            · rfl
            · exact absurd h hslf
          rw [if_neg hslf]
          have hclenr : rsib.children.length = rsib.keys.length + 1 :=
            looseWF_children_length t _ hrw.2 hslfF
          have hrcne : rsib.children ≠ [] := by
            intro he
            rw [he] at hclenr
            simp only [List.length_nil] at hclenr
            omega
          have hrc : rsib.children.head? = some (rsib.children.head hrcne) :=
            List.head?_eq_head hrcne
          simp only [hrc]
          have hcnlfF : cn.is_leaf = false := hrfeq.trans hslfF
          have hclenc : cn.children.length = cn.keys.length + 1 :=
            looseWF_children_length t _ hcnw.2 hcnlfF
          have hrchm : rsib.children.head hrcne ∈ rsib.children :=
            List.head_mem hrcne
          have hrcsw := (csWF_iff t rsib.children).mp (looseWF_csWF t _ hrw.2 hslfF)
            _ hrchm
          have hrche : (rsib.children.head hrcne).height = heightL rsib.children :=
            (heightsEq_iff _).mp (looseWF_heightsEq t _ hrw.2 hslfF) _ hrchm
          have hhrc : heightL rsib.children = heightL cs - 1 := by
            have h1 := height_children rsib
            rw [hrsh] at h1
            omega
          have hhcc : heightL cn.children = heightL cs - 1 := by
            have h1 := height_children cn
            rw [hcnh] at h1
            omega
          generalize hCN : Node.mk cn.is_leaf (cn.keys ++ [kR])
            (cn.children ++ [rsib.children.head hrcne]) = CN
          generalize hRS : Node.mk rsib.is_leaf rsib.keys.tail
            rsib.children.tail = RS
          have hCNio : CN.inorder = cn.inorder ++
              kR :: (rsib.children.head hrcne).inorder := by
            rw [← hCN, Node.inorder_mk,
              key_decomp cn.keys [] kR cn.children [rsib.children.head hrcne]
                hclenc rfl,
              inorderA_nil_cons, inorderA_nil_children, List.append_nil,
              ← inorder_eq_inorderA]
          have hRSio : RS.inorder = inorderA rsib.keys.tail rsib.children.tail := by
            rw [← hRS, Node.inorder_mk]
          have hrsio : rsib.inorder = (rsib.children.head hrcne).inorder ++
              rsib.keys.head hrkne :: inorderA rsib.keys.tail rsib.children.tail := by
            rw [inorder_eq_inorderA rsib]
            exact inorderA_head_cons rsib.keys rsib.children _ _ hrf hrc
          have hMre : cn.inorder ++ kR :: rsib.inorder =
              CN.inorder ++ rsib.keys.head hrkne :: RS.inorder := by
            rw [hCNio, hRSio, hrsio]
            simp [List.append_assoc]
          have hQgt : ∀ b ∈ rsib.keys.head hrkne :: RS.inorder, key < b := by
            intro b hb
            apply hrsio_gt
            refine List.mem_cons_of_mem kR ?_
            rw [hrsio]
            refine List.mem_append.mpr (Or.inr ?_)
            rw [hRSio] at hb
            exact hb
          have hMcn : (key ∈ cn.inorder ++ kR :: rsib.inorder) ↔
              key ∈ CN.inorder := by
            rw [hMre, List.mem_append]
            constructor
            · rintro (h | h)
              · exact h
              · exact absurd (hQgt key h) (lt_irrefl key)
            · exact fun h => Or.inl h
          have hCNh : CN.height = heightL cs := by
            rw [← hCN, Node.height_mk]
            have hall : ∀ c ∈ cn.children ++ [rsib.children.head hrcne],
                c.height = heightL cs - 1 := by
              intro c hc
              rcases List.mem_append.mp hc with h | h
              · rw [(heightsEq_iff _).mp (looseWF_heightsEq t _ hcnw.2 hcnlfF) c h,
                  hhcc]
              · simp only [List.mem_singleton] at h
                subst h
                rw [hrche, hhrc]
            rw [heightL_all_eq _ (heightL cs - 1) (by simp) hall]
            omega
          have hCNwf : looseWF t CN = true := by
            rw [← hCN, show Node.mk cn.is_leaf (cn.keys ++ [kR])
                (cn.children ++ [rsib.children.head hrcne]) =
                Node.mk false (cn.keys ++ [kR])
                (cn.children ++ [rsib.children.head hrcne]) by rw [hcnlfF]]
            rw [looseWF_internal_iff]
            refine ⟨?_, ?_, ?_, ?_⟩
            · rw [List.length_append]
              simp only [List.length_singleton]
              omega
            · rw [List.length_append, List.length_append]
              simp only [List.length_singleton]
              omega
            · rw [csWF_iff]
              intro c hc
              rcases List.mem_append.mp hc with h | h
              · exact (csWF_iff t _).mp (looseWF_csWF t _ hcnw.2 hcnlfF) c h
              · simp only [List.mem_singleton] at h
                subst h
                exact hrcsw
            · refine heightsEq_of_all _ (heightL cs - 1) ?_
              intro c hc
              rcases List.mem_append.mp hc with h | h
              · rw [(heightsEq_iff _).mp (looseWF_heightsEq t _ hcnw.2 hcnlfF) c h,
                  hhcc]
              · simp only [List.mem_singleton] at h
                subst h
                rw [hrche, hhrc]
          have hCNkl : t ≤ CN.keys.length := by
            rw [← hCN, Node.keys_mk, List.length_append]
            simp only [List.length_singleton]
            omega
          have hCNsort : List.Pairwise (· < ·) CN.inorder := by
            refine List.Pairwise.sublist ?_ hMpair
            rw [hMre]
            exact List.sublist_append_left _ _
          have hRS1 : t - 1 ≤ RS.keys.length := by
            rw [← hRS, Node.keys_mk, List.length_tail]
            omega
          have hrtne : rsib.children.tail ≠ [] := by
            intro he
            have h1 := congrArg List.length he
            rw [List.length_tail, hclenr] at h1
            simp only [List.length_nil] at h1
            omega
          have hRS2 : looseWF t RS = true := by
            rw [← hRS, show Node.mk rsib.is_leaf rsib.keys.tail
                rsib.children.tail = Node.mk false rsib.keys.tail
                rsib.children.tail by rw [hslfF]]
            rw [looseWF_internal_iff]
            refine ⟨?_, ?_, ?_, ?_⟩
            · rw [List.length_tail]
              have := looseWF_keys_le t _ hrw.2
              omega
            · rw [List.length_tail, List.length_tail, hclenr]
              omega
            · rw [csWF_iff]
              intro c hc
              exact (csWF_iff t _).mp (looseWF_csWF t _ hrw.2 hslfF) c
                ((List.tail_sublist _).subset hc)
            · refine heightsEq_of_all _ (heightL rsib.children) ?_
              intro c hc
              exact (heightsEq_iff _).mp (looseWF_heightsEq t _ hrw.2 hslfF) c
                ((List.tail_sublist _).subset hc)
          have hRS3 : RS.height = heightL cs := by
            rw [← hRS, Node.height_mk, heightL_all_eq rsib.children.tail
              (heightL rsib.children) hrtne (fun c hc =>
                (heightsEq_iff _).mp (looseWF_heightsEq t _ hrw.2 hslfF) c
                  ((List.tail_sublist _).subset hc))]
            omega
          obtain ⟨hpres, habs⟩ := ihrec false key CN (by rw [hCNh]; exact hhL) hCNwf
            (fun h => absurd h (by simp)) (fun _ => hCNkl) hCNsort
          constructor
          · intro hm
            have hMmem : key ∈ cn.inorder ++ kR :: rsib.inorder :=
              hmemiffA.mp hm
            obtain ⟨c', hok, hio', hwf', hpost, _⟩ := hpres (hMcn.mp hMmem)
            obtain ⟨hclf, hch, hckn⟩ := hpost rfl
            simp only [hok]
            obtain ⟨hnio, hnwf, hnh, hnkl⟩ := replace_pair_spec t ks cs
              ((cs.set (idx + 1) RS).set idx c') idx (rsib.keys.head hrkne) c' RS
              hcslen hidxks (hCS2 RS c') hkslen hcw hheq
              hckn hwf' (by rw [hch]; exact hCNh) hRS1 hRS2 hRS3
            refine ⟨_, rfl, ?_, hnwf, ?_, ?_⟩
            · rw [hnio, hio', hioA, erase_middle key _ _ _ hGL hMmem, hMre,
                List.erase_append_left _ (hMcn.mp hMmem)]
            · intro hir
              refine ⟨rfl, ?_, ?_⟩
              · rw [hnh, Node.height_mk]
              · rw [Node.keys_mk, List.length_set]
                have := hnonroot hir
                omega
            · intro _ _
              rw [Node.keys_mk, List.length_set]
              omega
          · intro hm
            have hMnm : key ∉ cn.inorder ++ kR :: rsib.inorder :=
              fun h => hm (hmemiffA.mpr h)
            obtain ⟨c', hok, hio', hwf', hpost, _⟩ := habs
              (fun h => hMnm (hMcn.mpr h))
            obtain ⟨hclf, hch, hckn⟩ := hpost rfl
            simp only [hok]
            obtain ⟨hnio, hnwf, hnh, hnkl⟩ := replace_pair_spec t ks cs
              ((cs.set (idx + 1) RS).set idx c') idx (rsib.keys.head hrkne) c' RS
              hcslen hidxks (hCS2 RS c') hkslen hcw hheq
              hckn hwf' (by rw [hch]; exact hCNh) hRS1 hRS2 hRS3
            refine ⟨_, rfl, ?_, hnwf, ?_, ?_⟩
            · rw [hnio, hio', hioA, hMre]
            · intro hir
              refine ⟨rfl, ?_, ?_⟩
              · rw [hnh, Node.height_mk]
              · rw [Node.keys_mk, List.length_set]
                have := hnonroot hir
                omega
            · intro _ _
              rw [Node.keys_mk, List.length_set]
              omega
      · rw [if_neg hrlend]
        by_cases hI0 : idx = 0
        · subst hI0
          have hred0 : (if (0 : Nat) = 0 then (none : Option Node)
              else cs[0 - 1]?) = none := rfl
          simp only [hred0]
          obtain ⟨k0, hk0⟩ : ∃ x, ks[0]? = some x :=
            ⟨ks[0], List.getElem?_eq_getElem (by omega)⟩
          simp only [hk0]
          obtain ⟨rsib, hrcs⟩ : ∃ x, cs[0 + 1]? = some x :=
            ⟨cs[0 + 1], List.getElem?_eq_getElem (by omega)⟩
          have hred3 : (if (0 : Nat) = cs.length - 1 then (none : Option Node)
              else cs[0 + 1]?) = some rsib := by
            rw [if_neg (by omega)]
            exact hrcs
          rw [hred3] at hrlend
          simp only [sib_can_lend, decide_eq_true_eq] at hrlend
          simp only [hred3]
          have hrmem : rsib ∈ cs := mem_of_getElem? hrcs
          have hrw := (csWF_iff t cs).mp hcw _ hrmem
          have hrcnt : rsib.keys.length = t - 1 := by
            have := hrw.1
            omega
          have hrsh : rsib.height = heightL cs := (heightsEq_iff cs).mp hheq _ hrmem
          have hrfeq : cn.is_leaf = rsib.is_leaf :=
            leaf_eq_of_height t _ _ hcnw.2 hrw.2 (by rw [hcnh, hrsh])
          have hioA := inorderA_around_decomp ks cs 0 k0 cn rsib hcslen hk0 hcn hrcs
          obtain ⟨hmio, hmwf, hmh, hmlf, hmkl⟩ := merge_nodes_spec t ht cn rsib k0
            hcnw.2 hrw.2 hcnt hrcnt hrfeq (by rw [hcnh, hrsh])
          have hMpair : List.Pairwise (· < ·)
              (cn.inorder ++ k0 :: rsib.inorder) := by
            refine pairwise_middle (L := glueL (ks.take 0) (cs.take 0))
              (R := glueR (ks.drop (0 + 1)) (cs.drop (0 + 2))) ?_
            rw [← hioA]
            exact hsort'
          have hGL0 : ∀ a ∈ glueL (ks.take 0) (cs.take 0), a < key := by
            intro a ha
            rw [List.take_zero, List.take_zero, glueL_nil_right] at ha
            cases ha
          have hwinR' : ∀ b ∈ ks, key < b := by
            intro b hb
            refine hwinR b ?_
            rw [List.drop_zero]
            exact hb
          have hdropsub : ∀ b ∈ ks.drop (0 + 1), key < b := by
            intro b hb
            exact hwinR' b (List.drop_subset _ ks hb)
          have hlenR0 : (cs.drop (0 + 2)).length = (ks.drop (0 + 1)).length := by
            rw [List.length_drop, List.length_drop]
            omega
          have hRpair0 : List.Pairwise (· < ·)
              (glueR (ks.drop (0 + 1)) (cs.drop (0 + 2))) := by
            refine List.Pairwise.sublist ?_ hsort'
            rw [hioA]
            exact List.sublist_append_right _ _
          have hGR0 : ∀ b ∈ glueR (ks.drop (0 + 1)) (cs.drop (0 + 2)), key < b :=
            glueR_gt_key key _ _ hlenR0 hRpair0 hdropsub
          have hmemiff0 : (key ∈ inorderA ks cs) ↔
              key ∈ cn.inorder ++ k0 :: rsib.inorder := by
            rw [hioA]
            exact mem_middle_iff key _ _ _ hGL0 hGR0
          have hmsort : List.Pairwise (· < ·) (merge_nodes cn k0 rsib).inorder := by
            rw [hmio]
            exact hMpair
          have hmfuel : (merge_nodes cn k0 rsib).height ≤ f + 1 := by
            rw [hmh, hcnh]
            exact hhL
          by_cases hcol : (isRoot && ks.length == 1) = true
          · rw [if_pos hcol]
            rw [Bool.and_eq_true] at hcol
            have hroot1 : isRoot = true := hcol.1
            have hks1' : ks.length = 1 := by simpa using hcol.2
            have hioM : inorderA ks cs = (merge_nodes cn k0 rsib).inorder := by
              rw [hmio, hioA]
              have h1 : ks.drop (0 + 1) = [] := by
                have h2 : (ks.drop (0 + 1)).length = 0 := by
                  rw [List.length_drop]
                  omega
                exact List.length_eq_zero.mp h2
              rw [List.take_zero, List.take_zero, h1, glueR_nil_left,
                glueL_nil_right]
              simp
            obtain ⟨hpres, habs⟩ := ihrec true key (merge_nodes cn k0 rsib) hmfuel
              hmwf (fun _ => by omega) (fun h => absurd h (by simp)) hmsort
            constructor
            · intro hm
              have hm' : key ∈ (merge_nodes cn k0 rsib).inorder := by
                rw [← hioM]
                exact hm
              obtain ⟨m, hok, hio', hwf', _, hrpost⟩ := hpres hm'
              refine ⟨m, hok, ?_, hwf', ?_, ?_⟩
              · rw [hio', hioM]
              · intro hir
                rw [hroot1] at hir
                exact absurd hir (by simp)
              · intro _ hlf
                exact hrpost rfl hlf
            · intro hm
              have hm' : key ∉ (merge_nodes cn k0 rsib).inorder := by
                rw [← hioM]
                exact hm
              obtain ⟨m, hok, hio', hwf', _, hrpost⟩ := habs hm'
              refine ⟨m, hok, ?_, hwf', ?_, ?_⟩
              · rw [hio', hioM]
              · intro hir
                rw [hroot1] at hir
                exact absurd hir (by simp)
              · intro _ hlf
                exact hrpost rfl hlf
          · rw [if_neg hcol]
            have hksge : isRoot = true → 2 ≤ ks.length := by
              intro hr
              rw [hr] at hcol
              simp only [Bool.true_and] at hcol
              have h2 : ¬ks.length = 1 := by simpa using hcol
              omega
            have hks2 : 2 ≤ ks.length := by
              cases hri : isRoot
              · have := hnonroot hri
                omega
              · have := hksge hri
                omega
            obtain ⟨hpres, habs⟩ := ihrec false key (merge_nodes cn k0 rsib) hmfuel
              hmwf (fun h => absurd h (by simp)) (fun _ => by omega) hmsort
            have hKS : ks.eraseIdx 0 = ks.take 0 ++ ks.drop (0 + 1) :=
              eraseIdx_split_at ks 0 k0 hk0
            have hCSe : ∀ (m : Node), (cs.eraseIdx (0 + 1)).set 0 m =
                cs.take 0 ++ m :: cs.drop (0 + 2) := by
              intro m
              conv_lhs => rw [list_split_at cs 0 cn hcn,
                drop_split_at cs (0 + 1) rsib hrcs]
              rw [show cs.take 0 ++ cn :: rsib :: cs.drop (0 + 2) =
                (cs.take 0 ++ [cn]) ++ rsib :: cs.drop (0 + 2) by simp]
              rw [eraseIdx_at_append_len _ _ _ (0 + 1)
                (by rw [List.length_append, length_take_of_getElem? hcn]; rfl)]
              rw [show (cs.take 0 ++ [cn]) ++ cs.drop (0 + 2) =
                cs.take 0 ++ cn :: cs.drop (0 + 2) by simp]
              rw [set_at_append_len _ _ _ m 0 (length_take_of_getElem? hcn)]
            constructor
            · intro hm
              have hMmem := hmemiff0.mp hm
              have hm' : key ∈ (merge_nodes cn k0 rsib).inorder := by
                rw [hmio]
                exact hMmem
              obtain ⟨m, hok, hio', hwf', hpost, _⟩ := hpres hm'
              obtain ⟨hmlf', hmh', hmkn'⟩ := hpost rfl
              simp only [hok]
              obtain ⟨hnio, hnwf, hnh, hnkl⟩ := replace_merge_spec t ks
                (ks.eraseIdx 0) cs ((cs.eraseIdx (0 + 1)).set 0 m) 0 m hcslen
                (by omega) hKS (hCSe m) hkslen hks2 hcw hheq hmkn' hwf'
                (by rw [hmh', hmh, hcnh])
              refine ⟨_, rfl, ?_, hnwf, ?_, ?_⟩
              · rw [hnio, hio', hmio, hioA, erase_middle key _ _ _ hGL0 hMmem]
              · intro hir
                refine ⟨rfl, ?_, ?_⟩
                · rw [hnh, Node.height_mk]
                · rw [Node.keys_mk, hKS, List.length_append, List.length_take,
                    List.length_drop]
                  have := hnonroot hir
                  omega
              · intro hir _
                rw [Node.keys_mk, hKS, List.length_append, List.length_take,
                  List.length_drop]
                have := hksge hir
                omega
            · intro hm
              have hMnm : key ∉ cn.inorder ++ k0 :: rsib.inorder :=
                fun h => hm (hmemiff0.mpr h)
              have hm' : key ∉ (merge_nodes cn k0 rsib).inorder := by
                rw [hmio]
                exact hMnm
              obtain ⟨m, hok, hio', hwf', hpost, _⟩ := habs hm'
              obtain ⟨hmlf', hmh', hmkn'⟩ := hpost rfl
              simp only [hok]
              obtain ⟨hnio, hnwf, hnh, hnkl⟩ := replace_merge_spec t ks
                (ks.eraseIdx 0) cs ((cs.eraseIdx (0 + 1)).set 0 m) 0 m hcslen
                (by omega) hKS (hCSe m) hkslen hks2 hcw hheq hmkn' hwf'
                (by rw [hmh', hmh, hcnh])
              refine ⟨_, rfl, ?_, hnwf, ?_, ?_⟩
              · rw [hnio, hio', hmio, hioA]
              · intro hir
                refine ⟨rfl, ?_, ?_⟩
                · rw [hnh, Node.height_mk]
                · rw [Node.keys_mk, hKS, List.length_append, List.length_take,
                    List.length_drop]
                  have := hnonroot hir
                  omega
              · intro hir _
                rw [Node.keys_mk, hKS, List.length_append, List.length_take,
                  List.length_drop]
                have := hksge hir
                omega
        · obtain ⟨j, rfl⟩ : ∃ j, idx = j + 1 := ⟨idx - 1, by omega⟩
          have hjklt : j < ks.length := by omega
          have hjclt : j < cs.length := by omega
          obtain ⟨kL, hjks⟩ : ∃ x, ks[j]? = some x :=
            ⟨ks[j], List.getElem?_eq_getElem hjklt⟩
          obtain ⟨lsib, hjcs⟩ : ∃ x, cs[j]? = some x :=
            ⟨cs[j], List.getElem?_eq_getElem hjclt⟩
          have hred : (if j + 1 = 0 then (none : Option Node) else cs[j + 1 - 1]?) =
              some lsib := by
            rw [if_neg (by omega)]
            simpa using hjcs
          rw [hred] at hlend
          simp only [sib_can_lend, decide_eq_true_eq] at hlend
          have hred2 : (if j + 1 = 0 then (none : Option Node) else cs[j]?) =
              some lsib := by
            rw [if_neg (by omega)]
            exact hjcs
          simp only [Nat.add_sub_cancel, hred2, hjks]
          have hjmem : lsib ∈ cs := mem_of_getElem? hjcs
          have hlw := (csWF_iff t cs).mp hcw _ hjmem
          have hlcnt : lsib.keys.length = t - 1 := by
            have := hlw.1
            omega
          have hlsh : lsib.height = heightL cs := (heightsEq_iff cs).mp hheq _ hjmem
          have hlfeq : lsib.is_leaf = cn.is_leaf :=
            leaf_eq_of_height t _ _ hlw.2 hcnw.2 (by rw [hcnh, hlsh])
          have hioA := inorderA_around_decomp ks cs j kL lsib cn hcslen hjks hjcs hcn
          obtain ⟨hmio, hmwf, hmh, hmlf, hmkl⟩ := merge_nodes_spec t ht lsib cn kL
            hlw.2 hcnw.2 hlcnt hcnt hlfeq (by rw [hcnh, hlsh])
          have hMpair : List.Pairwise (· < ·)
              (lsib.inorder ++ kL :: cn.inorder) := by
            refine pairwise_middle (L := glueL (ks.take j) (cs.take j))
              (R := glueR (ks.drop (j + 1)) (cs.drop (j + 2))) ?_
            rw [← hioA]
            exact hsort'
          have hkLlt : kL < key := by
            apply hwinL
            rw [take_succ_of_getElem? ks j kL hjks]
            exact List.mem_append.mpr (Or.inr (List.mem_cons_self _ _))
          have hlenLj : (cs.take j).length = (ks.take j).length := by
            rw [List.length_take, List.length_take]
            omega
          have hLpairj : List.Pairwise (· < ·) (glueL (ks.take j) (cs.take j) ++
              ((lsib.inorder ++ kL :: cn.inorder) ++
                glueR (ks.drop (j + 1)) (cs.drop (j + 2)))) := by
            rw [← List.append_assoc, ← hioA]
            exact hsort'
          have hGLj : ∀ a ∈ glueL (ks.take j) (cs.take j), a < key := by
            refine glueL_lt_key key _ _ _ hlenLj hLpairj ?_
            intro a ha
            apply hwinL
            rw [take_succ_of_getElem? ks j kL hjks]
            exact List.mem_append.mpr (Or.inl ha)
          have hmemiffj : (key ∈ inorderA ks cs) ↔
              key ∈ lsib.inorder ++ kL :: cn.inorder := by
            rw [hioA]
            exact mem_middle_iff key _ _ _ hGLj hGR
          have hmsort : List.Pairwise (· < ·) (merge_nodes lsib kL cn).inorder := by
            rw [hmio]
            exact hMpair
          have hmfuel : (merge_nodes lsib kL cn).height ≤ f + 1 := by
            rw [hmh, hlsh]
            exact hhL
          by_cases hcol : (isRoot && ks.length == 1) = true
          · rw [if_pos hcol]
            rw [Bool.and_eq_true] at hcol
            have hroot1 : isRoot = true := hcol.1
            have hks1' : ks.length = 1 := by simpa using hcol.2
            have hj0 : j = 0 := by omega
            subst hj0
            have hioM : inorderA ks cs = (merge_nodes lsib kL cn).inorder := by
              rw [hmio, hioA]
              have h1 : ks.drop (0 + 1) = [] := by
                have h2 : (ks.drop (0 + 1)).length = 0 := by
                  rw [List.length_drop]
                  omega
                exact List.length_eq_zero.mp h2
              rw [List.take_zero, List.take_zero, h1, glueR_nil_left,
                glueL_nil_right]
              simp
            obtain ⟨hpres, habs⟩ := ihrec true key (merge_nodes lsib kL cn) hmfuel
              hmwf (fun _ => by omega) (fun h => absurd h (by simp)) hmsort
            constructor
            · intro hm
              have hm' : key ∈ (merge_nodes lsib kL cn).inorder := by
                rw [← hioM]
                exact hm
              obtain ⟨m, hok, hio', hwf', _, hrpost⟩ := hpres hm'
              refine ⟨m, hok, ?_, hwf', ?_, ?_⟩
              · rw [hio', hioM]
              · intro hir
                rw [hroot1] at hir
                exact absurd hir (by simp)
              · intro _ hlf
                exact hrpost rfl hlf
            · intro hm
              have hm' : key ∉ (merge_nodes lsib kL cn).inorder := by
                rw [← hioM]
                exact hm
              obtain ⟨m, hok, hio', hwf', _, hrpost⟩ := habs hm'
              refine ⟨m, hok, ?_, hwf', ?_, ?_⟩
              · rw [hio', hioM]
              · intro hir
                rw [hroot1] at hir
                exact absurd hir (by simp)
              · intro _ hlf
                exact hrpost rfl hlf
          · rw [if_neg hcol]
            have hksge : isRoot = true → 2 ≤ ks.length := by
              intro hr
              rw [hr] at hcol
              simp only [Bool.true_and] at hcol
              have h2 : ¬ks.length = 1 := by simpa using hcol
              omega
            have hks2 : 2 ≤ ks.length := by
              cases hri : isRoot
              · have := hnonroot hri
                omega
              · have := hksge hri
                omega
            obtain ⟨hpres, habs⟩ := ihrec false key (merge_nodes lsib kL cn) hmfuel
              hmwf (fun h => absurd h (by simp)) (fun _ => by omega) hmsort
            have hKS : ks.eraseIdx j = ks.take j ++ ks.drop (j + 1) :=
              eraseIdx_split_at ks j kL hjks
            have hCSe : ∀ (m : Node), (cs.eraseIdx (j + 1)).set j m =
                cs.take j ++ m :: cs.drop (j + 2) := by
              intro m
              conv_lhs => rw [list_split_at cs j lsib hjcs,
                drop_split_at cs (j + 1) cn hcn]
              rw [show cs.take j ++ lsib :: cn :: cs.drop (j + 2) =
                (cs.take j ++ [lsib]) ++ cn :: cs.drop (j + 2) by simp]
              rw [eraseIdx_at_append_len _ _ _ (j + 1)
                (by rw [List.length_append, length_take_of_getElem? hjcs]; rfl)]
              rw [show (cs.take j ++ [lsib]) ++ cs.drop (j + 2) =
                cs.take j ++ lsib :: cs.drop (j + 2) by simp]
              rw [set_at_append_len _ _ _ m j (length_take_of_getElem? hjcs)]
            constructor
            · intro hm
              have hMmem := hmemiffj.mp hm
              have hm' : key ∈ (merge_nodes lsib kL cn).inorder := by
                rw [hmio]
                exact hMmem
              obtain ⟨m, hok, hio', hwf', hpost, _⟩ := hpres hm'
              obtain ⟨hmlf', hmh', hmkn'⟩ := hpost rfl
              simp only [hok]
              obtain ⟨hnio, hnwf, hnh, hnkl⟩ := replace_merge_spec t ks
                (ks.eraseIdx j) cs ((cs.eraseIdx (j + 1)).set j m) j m hcslen
                hjklt hKS (hCSe m) hkslen hks2 hcw hheq hmkn' hwf'
                (by rw [hmh', hmh, hlsh])
              refine ⟨_, rfl, ?_, hnwf, ?_, ?_⟩
              · rw [hnio, hio', hmio, hioA, erase_middle key _ _ _ hGLj hMmem]
              · intro hir
                refine ⟨rfl, ?_, ?_⟩
                · rw [hnh, Node.height_mk]
                · rw [Node.keys_mk, hKS, List.length_append, List.length_take,
                    List.length_drop]
                  have := hnonroot hir
                  omega
              · intro hir _
                rw [Node.keys_mk, hKS, List.length_append, List.length_take,
                  List.length_drop]
                have := hksge hir
                omega
            · intro hm
              have hMnm : key ∉ lsib.inorder ++ kL :: cn.inorder :=
                fun h => hm (hmemiffj.mpr h)
              have hm' : key ∉ (merge_nodes lsib kL cn).inorder := by
                rw [hmio]
                exact hMnm
              obtain ⟨m, hok, hio', hwf', hpost, _⟩ := habs hm'
              obtain ⟨hmlf', hmh', hmkn'⟩ := hpost rfl
              simp only [hok]
              obtain ⟨hnio, hnwf, hnh, hnkl⟩ := replace_merge_spec t ks
                (ks.eraseIdx j) cs ((cs.eraseIdx (j + 1)).set j m) j m hcslen
                hjklt hKS (hCSe m) hkslen hks2 hcw hheq hmkn' hwf'
                (by rw [hmh', hmh, hlsh])
              refine ⟨_, rfl, ?_, hnwf, ?_, ?_⟩
              · rw [hnio, hio', hmio, hioA]
              · intro hir
                refine ⟨rfl, ?_, ?_⟩
                · rw [hnh, Node.height_mk]
                · rw [Node.keys_mk, hKS, List.length_append, List.length_take,
                    List.length_drop]
                  have := hnonroot hir
                  omega
              · intro hir _
                rw [Node.keys_mk, hKS, List.length_append, List.length_take,
                  List.length_drop]
                have := hksge hir
                omega

theorem erase_head_of_head? (l : List Int) (k : Int) (h : l.head? = some k) :
    l.erase k = l.tail := by
  cases l with
  | nil => simp at h
  | cons x xs =>
    simp only [List.head?_cons, Option.some.injEq] at h
    subst h
    rw [List.erase_cons_head]
    rfl

set_option maxHeartbeats 3200000 in
theorem key_in_node_spec (t : Nat) (ht : 2 ≤ t) (f : Nat) (isRoot : Bool)
    (key : Int) (ks : List Int) (cs : List Node) (idx : Nat)
    (ihrec : ∀ (isRoot2 : Bool) (key2 : Int) (nd : Node),
      nd.height ≤ f + 1 →
      looseWF t nd = true →
      (isRoot2 = true → 1 ≤ nd.keys.length) →
      (isRoot2 = false → t ≤ nd.keys.length) →
      List.Pairwise (· < ·) nd.inorder →
      (key2 ∈ nd.inorder →
        ∃ nd', remove_rec t isRoot2 f key2 nd = RmRes.ok nd' ∧
          nd'.inorder = nd.inorder.erase key2 ∧
          looseWF t nd' = true ∧
          (isRoot2 = false → nd'.is_leaf = nd.is_leaf ∧ nd'.height = nd.height ∧
            t - 1 ≤ nd'.keys.length) ∧
          (isRoot2 = true → nd'.is_leaf = false → 1 ≤ nd'.keys.length)) ∧
      (key2 ∉ nd.inorder →
        ∃ nd', remove_rec t isRoot2 f key2 nd = RmRes.err nd' ∧
          nd'.inorder = nd.inorder ∧
          looseWF t nd' = true ∧
          (isRoot2 = false → nd'.is_leaf = nd.is_leaf ∧ nd'.height = nd.height ∧
            t - 1 ≤ nd'.keys.length) ∧
          (isRoot2 = true → nd'.is_leaf = false → 1 ≤ nd'.keys.length)))
    (hh : (Node.mk false ks cs).height ≤ f + 2)
    (hw : looseWF t (.mk false ks cs) = true)
    (hroot : isRoot = true → 1 ≤ ks.length)
    (hnonroot : isRoot = false → t ≤ ks.length)
    (hsort : List.Pairwise (· < ·) (Node.mk false ks cs).inorder)
    (hkidx : ks[idx]? = some key) :
    ∃ nd', rm_key_from_internal_node t isRoot (f + 1) key idx
        (.mk false ks cs) = .ok nd' ∧
      nd'.inorder = (Node.mk false ks cs).inorder.erase key ∧
      looseWF t nd' = true ∧
      (isRoot = false → nd'.is_leaf = (Node.mk false ks cs).is_leaf ∧
        nd'.height = (Node.mk false ks cs).height ∧ t - 1 ≤ nd'.keys.length) ∧
      (isRoot = true → nd'.is_leaf = false → 1 ≤ nd'.keys.length) := by
  rcases (looseWF_internal_iff t ks cs).mp hw with ⟨hkslen, hcslen, hcw, hheq⟩
  have hidxlt : idx < ks.length := getElem?_lt_length hkidx
  obtain ⟨y, hy⟩ : ∃ x, cs[idx]? = some x :=
    ⟨cs[idx], List.getElem?_eq_getElem (by omega)⟩
  obtain ⟨z, hz⟩ : ∃ x, cs[idx + 1]? = some x :=
    ⟨cs[idx + 1], List.getElem?_eq_getElem (by omega)⟩
  have hym : y ∈ cs := mem_of_getElem? hy
  have hzm : z ∈ cs := mem_of_getElem? hz
  have hyw := (csWF_iff t cs).mp hcw _ hym
  have hzw := (csWF_iff t cs).mp hcw _ hzm
  have hyh : y.height = heightL cs := (heightsEq_iff cs).mp hheq _ hym
  have hzh : z.height = heightL cs := (heightsEq_iff cs).mp hheq _ hzm
  have hHLpos : 1 ≤ heightL cs := by
    rw [← hyh]
    exact height_pos _
  have hhL : heightL cs ≤ f + 1 := by
    rw [Node.height_mk] at hh
    omega
  have hsort' : List.Pairwise (· < ·) (inorderA ks cs) := by
    rw [Node.inorder_mk] at hsort
    exact hsort
  rw [Node.inorder_mk]
  have hioA := inorderA_around_decomp ks cs idx key y z hcslen hkidx hy hz
  have hMpair : List.Pairwise (· < ·) (y.inorder ++ key :: z.inorder) := by
    refine pairwise_middle (L := glueL (ks.take idx) (cs.take idx))
      (R := glueR (ks.drop (idx + 1)) (cs.drop (idx + 2))) ?_
    rw [← hioA]
    exact hsort'
  have hylt : ∀ a ∈ y.inorder, a < key := by
    intro a ha
    exact (List.pairwise_append.mp hMpair).2.2 a ha key (List.mem_cons_self _ _)
  have hzgt : ∀ b ∈ z.inorder, key < b := by
    intro b hb
    exact (List.pairwise_cons.mp (List.pairwise_append.mp hMpair).2.1).1 b hb
  have hkeymem : key ∈ y.inorder ++ key :: z.inorder :=
    List.mem_append.mpr (Or.inr (List.mem_cons_self _ _))
  have hGLlt : ∀ a ∈ glueL (ks.take idx) (cs.take idx), a < key := by
    intro a ha
    have hp : List.Pairwise (· < ·) (glueL (ks.take idx) (cs.take idx) ++
        ((y.inorder ++ key :: z.inorder) ++
          glueR (ks.drop (idx + 1)) (cs.drop (idx + 2)))) := by
      rw [← List.append_assoc, ← hioA]
      exact hsort'
    exact (List.pairwise_append.mp hp).2.2 a ha key
      (List.mem_append.mpr (Or.inl hkeymem))
  have hymid : List.Pairwise (· < ·) y.inorder :=
    (List.pairwise_append.mp hMpair).1
  have hzmid : List.Pairwise (· < ·) z.inorder :=
    (List.pairwise_cons.mp (List.pairwise_append.mp hMpair).2.1).2
  rw [rm_key_from_internal_node]
  simp only [hy, hz, hkidx]
  by_cases hyk : t ≤ y.keys.length
  · rw [if_pos hyk]
    have hyne : y.keys ≠ [] := by
      intro he
      rw [he] at hyk
      simp only [List.length_nil] at hyk
      omega
    obtain ⟨pr, hpr, hprlast⟩ := get_predecessor_spec t ht (f + 1) y
      (by rw [hyh]; omega) hyw.2 hyne
    simp only [hpr]
    have hprm : pr ∈ y.inorder := mem_of_getLast?_eq _ _ hprlast
    obtain ⟨hpres, _⟩ := ihrec false pr y (by rw [hyh]; omega) hyw.2
      (fun h => absurd h (by simp)) (fun _ => hyk) hymid
    obtain ⟨y', hok, hio', hwf', hpost, _⟩ := hpres hprm
    obtain ⟨hylf, hyh', hykn⟩ := hpost rfl
    simp only [hok]
    have hCS2 : cs.set idx y' = cs.take idx ++ y' :: z :: cs.drop (idx + 2) := by
      rw [set_split_at cs idx y y' hy, drop_split_at cs (idx + 1) z hz]
    obtain ⟨hnio, hnwf, hnh, hnkl⟩ := replace_pair_spec t ks cs (cs.set idx y')
      idx pr y' z hcslen hidxlt hCS2 hkslen hcw hheq hykn hwf'
      (by rw [hyh']; exact hyh) hzw.1 hzw.2 hzh
    refine ⟨_, rfl, ?_, hnwf, ?_, ?_⟩
    · rw [hnio, hio', erase_getLast_of_sorted _ _ hymid hprlast, hioA,
        erase_middle key _ _ _ hGLlt hkeymem,
        erase_sorted_at y.inorder z.inorder key hylt]
      conv_rhs => rw [← dropLast_append_of_getLast? y.inorder pr hprlast]
      simp [List.append_assoc]
    · intro hir
      refine ⟨rfl, ?_, ?_⟩
      · rw [hnh, Node.height_mk]
      · rw [Node.keys_mk, List.length_set]
        have := hnonroot hir
        omega
    · intro hir _
      rw [Node.keys_mk, List.length_set]
      have := hroot hir
      omega
  · rw [if_neg hyk]
    by_cases hzk : t ≤ z.keys.length
    · rw [if_pos hzk]
      have hzne : z.keys ≠ [] := by
        intro he
        rw [he] at hzk
        simp only [List.length_nil] at hzk
        omega
      obtain ⟨su, hsu, hsulast⟩ := get_successor_spec t ht (f + 1) z
        (by rw [hzh]; omega) hzw.2 hzne
      simp only [hsu]
      have hsum : su ∈ z.inorder := mem_of_head?_eq _ _ hsulast
      obtain ⟨hpres, _⟩ := ihrec false su z (by rw [hzh]; omega) hzw.2
        (fun h => absurd h (by simp)) (fun _ => hzk) hzmid
      obtain ⟨z', hok, hio', hwf', hpost, _⟩ := hpres hsum
      obtain ⟨hzlf, hzh', hzkn⟩ := hpost rfl
      simp only [hok]
      have hCS2 : cs.set (idx + 1) z' =
          cs.take idx ++ y :: z' :: cs.drop (idx + 2) := by
        conv_lhs => rw [list_split_at cs idx y hy,
          drop_split_at cs (idx + 1) z hz]
        rw [show cs.take idx ++ y :: z :: cs.drop (idx + 2) =
          (cs.take idx ++ [y]) ++ z :: cs.drop (idx + 2) by simp]
        rw [set_at_append_len _ _ _ z' (idx + 1)
          (by rw [List.length_append, length_take_of_getElem? hy]; rfl)]
        simp
      obtain ⟨hnio, hnwf, hnh, hnkl⟩ := replace_pair_spec t ks cs
        (cs.set (idx + 1) z') idx su y z' hcslen hidxlt hCS2 hkslen hcw hheq
        hyw.1 hyw.2 hyh hzkn hwf' (by rw [hzh']; exact hzh)
      refine ⟨_, rfl, ?_, hnwf, ?_, ?_⟩
      · rw [hnio, hio', erase_head_of_head? z.inorder su hsulast, hioA,
          erase_middle key _ _ _ hGLlt hkeymem,
          erase_sorted_at y.inorder z.inorder key hylt]
        conv_rhs => rw [cons_head_of_head? z.inorder su hsulast]
      · intro hir
        refine ⟨rfl, ?_, ?_⟩
        · rw [hnh, Node.height_mk]
        · rw [Node.keys_mk, List.length_set]
          have := hnonroot hir
          omega
      · intro hir _
        rw [Node.keys_mk, List.length_set]
        have := hroot hir
        omega
    · rw [if_neg hzk]
      have hyt : y.keys.length = t - 1 := by
        have := hyw.1
        omega
      have hzt : z.keys.length = t - 1 := by
        have := hzw.1
        omega
      have hlfeq : y.is_leaf = z.is_leaf :=
        leaf_eq_of_height t _ _ hyw.2 hzw.2 (by rw [hyh, hzh])
      obtain ⟨hmio, hmwf, hmh, hmlf, hmkl⟩ := merge_nodes_spec t ht y z key
        hyw.2 hzw.2 hyt hzt hlfeq (by rw [hyh, hzh])
      have hmsort : List.Pairwise (· < ·) (merge_nodes y key z).inorder := by
        rw [hmio]
        exact hMpair
      have hmfuel : (merge_nodes y key z).height ≤ f + 1 := by
        rw [hmh, hyh]
        exact hhL
      have hkeyin : key ∈ (merge_nodes y key z).inorder := by
        rw [hmio]
        exact hkeymem
      by_cases hcol : (isRoot && ks.length == 1) = true
      · rw [if_pos hcol]
        rw [Bool.and_eq_true] at hcol
        have hroot1 : isRoot = true := hcol.1
        have hks1' : ks.length = 1 := by simpa using hcol.2
        have hidx0 : idx = 0 := by omega
        subst hidx0
        have hioM : inorderA ks cs = (merge_nodes y key z).inorder := by
          rw [hmio, hioA]
          have h1 : ks.drop (0 + 1) = [] := by
            have h2 : (ks.drop (0 + 1)).length = 0 := by
              rw [List.length_drop]
              omega
            exact List.length_eq_zero.mp h2
          rw [List.take_zero, List.take_zero, h1, glueR_nil_left,
            glueL_nil_right]
          simp
        obtain ⟨hpres, _⟩ := ihrec true key (merge_nodes y key z) hmfuel hmwf
          (fun _ => by omega) (fun h => absurd h (by simp)) hmsort
        obtain ⟨m, hok, hio', hwf', _, hrpost⟩ := hpres hkeyin
        refine ⟨m, hok, ?_, hwf', ?_, ?_⟩
        · rw [hio', hioM]
        · intro hir
          rw [hroot1] at hir
          exact absurd hir (by simp)
        · intro _ hlf
          exact hrpost rfl hlf
      · rw [if_neg hcol]
        have hksge : isRoot = true → 2 ≤ ks.length := by
          intro hr
          rw [hr] at hcol
          simp only [Bool.true_and] at hcol
          have h2 : ¬ks.length = 1 := by simpa using hcol
          omega
        have hks2 : 2 ≤ ks.length := by
          cases hri : isRoot
          · have := hnonroot hri
            omega
          · have := hksge hri
            omega
        obtain ⟨hpres, _⟩ := ihrec false key (merge_nodes y key z) hmfuel hmwf
          (fun h => absurd h (by simp)) (fun _ => by omega) hmsort
        obtain ⟨m, hok, hio', hwf', hpost, _⟩ := hpres hkeyin
        obtain ⟨hmlf', hmh', hmkn'⟩ := hpost rfl
        simp only [hok]
        have hKS : ks.eraseIdx idx = ks.take idx ++ ks.drop (idx + 1) :=
          eraseIdx_split_at ks idx key hkidx
        have hCSe : (cs.eraseIdx (idx + 1)).set idx m =
            cs.take idx ++ m :: cs.drop (idx + 2) := by
          conv_lhs => rw [list_split_at cs idx y hy,
            drop_split_at cs (idx + 1) z hz]
          rw [show cs.take idx ++ y :: z :: cs.drop (idx + 2) =
            (cs.take idx ++ [y]) ++ z :: cs.drop (idx + 2) by simp]
          rw [eraseIdx_at_append_len _ _ _ (idx + 1)
            (by rw [List.length_append, length_take_of_getElem? hy]; rfl)]
          rw [show (cs.take idx ++ [y]) ++ cs.drop (idx + 2) =
            cs.take idx ++ y :: cs.drop (idx + 2) by simp]
          rw [set_at_append_len _ _ _ m idx (length_take_of_getElem? hy)]
        obtain ⟨hnio, hnwf, hnh, hnkl⟩ := replace_merge_spec t ks
          (ks.eraseIdx idx) cs ((cs.eraseIdx (idx + 1)).set idx m) idx m hcslen
          hidxlt hKS hCSe hkslen hks2 hcw hheq hmkn' hwf'
          (by rw [hmh', hmh, hyh])
        refine ⟨_, rfl, ?_, hnwf, ?_, ?_⟩
        · rw [hnio, hio', hmio, hioA, erase_middle key _ _ _ hGLlt hkeymem]
        · intro hir
          refine ⟨rfl, ?_, ?_⟩
          · rw [hnh, Node.height_mk]
          · rw [Node.keys_mk, hKS, List.length_append, List.length_take,
              List.length_drop]
            have := hnonroot hir
            omega
        · intro hir _
          rw [Node.keys_mk, hKS, List.length_append, List.length_take,
            List.length_drop]
          have := hksge hir
          omega

set_option maxHeartbeats 1600000 in
theorem remove_rec_spec (t : Nat) (ht : 2 ≤ t) :
    ∀ (fuel : Nat) (isRoot : Bool) (key : Int) (nd : Node),
      nd.height ≤ fuel + 1 →
      looseWF t nd = true →
      (isRoot = true → 1 ≤ nd.keys.length) →
      (isRoot = false → t ≤ nd.keys.length) →
      List.Pairwise (· < ·) nd.inorder →
      (key ∈ nd.inorder →
        ∃ nd', remove_rec t isRoot fuel key nd = RmRes.ok nd' ∧
          nd'.inorder = nd.inorder.erase key ∧
          looseWF t nd' = true ∧
          (isRoot = false → nd'.is_leaf = nd.is_leaf ∧ nd'.height = nd.height ∧
            t - 1 ≤ nd'.keys.length) ∧
          (isRoot = true → nd'.is_leaf = false → 1 ≤ nd'.keys.length)) ∧
      (key ∉ nd.inorder →
        ∃ nd', remove_rec t isRoot fuel key nd = RmRes.err nd' ∧
          nd'.inorder = nd.inorder ∧
          looseWF t nd' = true ∧
          (isRoot = false → nd'.is_leaf = nd.is_leaf ∧ nd'.height = nd.height ∧
            t - 1 ≤ nd'.keys.length) ∧
          (isRoot = true → nd'.is_leaf = false → 1 ≤ nd'.keys.length)) := by
  intro fuel
  induction fuel with
  | zero =>
    intro isRoot key nd hh hw hroot hnonroot hsort
    cases nd with
    | mk lf ks cs =>
      cases lf with
      | true =>
        exact remove_rec_leaf_spec t ht isRoot 0 key ks cs hw hroot hnonroot hsort
      | false =>
        exfalso
        rcases (looseWF_internal_iff t ks cs).mp hw with ⟨_, hclen, _, _⟩
        cases cs with
        | nil =>
          simp only [List.length_nil] at hclen
          omega
        | cons c cs' =>
          rw [Node.height_mk, heightL_cons] at hh
          have h1 := height_pos c
          have h2 := Nat.le_max_left c.height (heightL cs')
          omega
  | succ f ih =>
    intro isRoot key nd hh hw hroot hnonroot hsort
    cases nd with
    | mk lf ks cs =>
      cases lf with
      | true =>
        exact remove_rec_leaf_spec t ht isRoot (f + 1) key ks cs hw hroot
          hnonroot hsort
      | false =>
        rcases (looseWF_internal_iff t ks cs).mp hw with ⟨hkslen, hcslen, hcw, hheq⟩
        have hks1 : 1 ≤ ks.length := by
          cases isRoot
          · have h1 := hnonroot rfl
            rw [Node.keys_mk] at h1
            omega
          · have h1 := hroot rfl
            rw [Node.keys_mk] at h1
            omega
        have hne : ks ≠ [] := ne_nil_of_length_pos ks (by omega)
        have hback : ks.getLast? = some (ks.getLast hne) :=
          List.getLast?_eq_getLast ks hne
        have hfront : ks.head? = some (ks.head hne) := List.head?_eq_head hne
        have hsortk : List.Pairwise (· < ·) ks :=
          keys_pairwise_of_inorder (Node.mk false ks cs) hsort
        rw [remove_rec]
        simp only [hback]
        by_cases hgt : key > ks.getLast hne
        · rw [if_pos hgt, if_neg (by simp)]
          obtain ⟨clast, hclast⟩ : ∃ x, cs[ks.length]? = some x :=
            ⟨cs[ks.length], List.getElem?_eq_getElem (by omega)⟩
          simp only [hclast]
          refine without_key_spec t ht f isRoot key ks cs ks.length ih hh hw
            hroot hnonroot hsort (le_refl _) ?_ ?_
          · intro a ha
            rw [List.take_length] at ha
            rcases all_le_getLast_of_sorted ks _ hsortk hback a ha with heq | h
            · rw [heq]
              exact hgt
            · omega
          · intro b hb
            rw [List.drop_length] at hb
            cases hb
        · rw [if_neg hgt]
          simp only [hfront]
          by_cases hge : key ≥ ks.head hne
          · rw [if_pos hge]
            by_cases hm : key ∈ ks
            · have hsm := scan_mem_idx key ks hsortk hm
              simp only [hsm]
              rw [if_pos trivial, if_neg (by simp)]
              constructor
              · intro _
                exact key_in_node_spec t ht f isRoot key ks cs _ ih hh hw hroot
                  hnonroot hsort hsm
              · intro hnm
                exact absurd (mem_keys_mem_inorder (Node.mk false ks cs) key hm) hnm
            · have hIlt : (ks.takeWhile (fun x => decide (x < key))).length <
                  ks.length := by
                by_contra hI
                have hIeq : (ks.takeWhile (fun x => decide (x < key))).length =
                    ks.length := by
                  have := tw_len_le (fun x => decide (x < key)) ks
                  omega
                have htws : ks.takeWhile (fun x => decide (x < key)) = ks :=
                  List.Sublist.eq_of_length (List.takeWhile_sublist _) hIeq
                have hbl : ks.getLast hne < key := by
                  have hmem : ks.getLast hne ∈
                      ks.takeWhile (fun x => decide (x < key)) := by
                    rw [htws]
                    exact List.getLast_mem hne
                  simpa using List.mem_takeWhile_imp hmem
                exact hgt hbl
              obtain ⟨ki, hki⟩ :
                  ∃ x, ks[(ks.takeWhile (fun x => decide (x < key))).length]? =
                    some x :=
                ⟨ks[(ks.takeWhile (fun x => decide (x < key))).length],
                  List.getElem?_eq_getElem hIlt⟩
              simp only [hki]
              have hkimem : ki ∈
                  ks.drop (ks.takeWhile (fun x => decide (x < key))).length := by
                rw [drop_split_at ks _ _ hki]
                exact List.mem_cons_self _ _
              have hkigt : key < ki := scan_drop_gt key ks hsortk hm _ hkimem
              rw [if_neg (by omega : ¬ki = key)]
              obtain ⟨ci, hci⟩ :
                  ∃ x, cs[(ks.takeWhile (fun x => decide (x < key))).length]? =
                    some x :=
                ⟨cs[(ks.takeWhile (fun x => decide (x < key))).length],
                  List.getElem?_eq_getElem (by omega)⟩
              simp only [hci]
              rw [if_neg (by simp)]
              refine without_key_spec t ht f isRoot key ks cs _ ih hh hw hroot
                hnonroot hsort (le_of_lt hIlt) ?_ ?_
              · exact scan_take_lt key ks
              · exact scan_drop_gt key ks hsortk hm
          · rw [if_neg hge, if_neg (by simp)]
            obtain ⟨c0, hc0⟩ : ∃ x, cs[0]? = some x :=
              ⟨cs[0], List.getElem?_eq_getElem (by omega)⟩
            simp only [hc0]
            refine without_key_spec t ht f isRoot key ks cs 0 ih hh hw hroot
              hnonroot hsort (by omega) ?_ ?_
            · intro a ha
              rw [List.take_zero] at ha
              cases ha
            · intro b hb
              rw [List.drop_zero] at hb
              have h1 := front_le_all_of_sorted ks _ hsortk hfront b hb
              omega

theorem remove_empty_ub (b : Btree) (key : Int) (hne : b.root.keys = []) :
    b.remove key = TreeRes.ub := by
  cases hb : b.root with
  | mk lf ks cs =>
    rw [hb, Node.keys_mk] at hne
    subst hne
    rw [Btree.remove, hb, remove_rec]
    rfl

theorem remove_spec (b : Btree) (key : Int) (hwf : WF b)
    (hne : b.root.keys ≠ []) :
    (key ∈ b.root.inorder →
      ∃ b', b.remove key = TreeRes.ok b' ∧
        b'.degree = b.degree ∧
        b'.root.inorder = b.root.inorder.erase key ∧
        b'.num_keys = b.num_keys - 1 ∧
        WF b') ∧
    (key ∉ b.root.inorder →
      ∃ b', b.remove key = TreeRes.err b' ∧
        b'.degree = b.degree ∧
        b'.root.inorder = b.root.inorder ∧
        b'.num_keys = b.num_keys ∧
        WF b') := by
  obtain ⟨ht, hrwf, hsort⟩ := hwf
  rw [rootWF, Bool.and_eq_true] at hrwf
  obtain ⟨hlw, hor⟩ := hrwf
  have hkpos : 1 ≤ b.root.keys.length := List.length_pos.mpr hne
  obtain ⟨hpres, habs⟩ := remove_rec_spec b.degree ht b.root.height true key
    b.root (Nat.le_succ _) hlw (fun _ => hkpos) (fun h => absurd h (by simp))
    hsort
  constructor
  · intro hm
    obtain ⟨r, hok, hio, hrw2, _, hrpost⟩ := hpres hm
    have hcond : (r.keys.length == 0 && !r.is_leaf) = false := by
      cases hr : r.is_leaf
      · have h1 := hrpost rfl hr
        have h2 : (r.keys.length == 0) = false := by
          rw [beq_eq_false_iff_ne]
          omega
        rw [h2, Bool.false_and]
      · simp
    have hfix : fix_empty_root r = some r := by
      rw [fix_empty_root, hcond]
      rfl
    rw [Btree.remove]
    simp only [hok, hfix]
    refine ⟨_, rfl, rfl, hio, rfl, ht, ?_, ?_⟩
    · rw [rootWF, Bool.and_eq_true]
      refine ⟨hrw2, ?_⟩
      cases hr : r.is_leaf
      · have h1 := hrpost rfl hr
        simp only [Bool.false_or]
        rw [bne_iff_ne]
        omega
      · simp
    · rw [hio]
      exact List.Pairwise.sublist (List.erase_sublist key b.root.inorder) hsort
  · intro hm
    obtain ⟨r, herr, hio, hrw2, _, hrpost⟩ := habs hm
    rw [Btree.remove]
    simp only [herr]
    refine ⟨_, rfl, rfl, hio, rfl, ht, ?_, ?_⟩
    · rw [rootWF, Bool.and_eq_true]
      refine ⟨hrw2, ?_⟩
      cases hr : r.is_leaf
      · have h1 := hrpost rfl hr
        simp only [Bool.false_or]
        rw [bne_iff_ne]
        omega
      · simp
    · rw [hio]
      exact hsort

/-- C1: the claim states that inserting a key that is already stored leaves
`size` unchanged, so that `insert(k); insert(k)` reports the same size as a
single `insert(k)`.  The source however executes `num_keys++` unconditionally
at the end of `Btree::insert`, also on the duplicate-overwrite path: starting
from an empty tree of degree 2, inserting 5 twice yields a tree that stores
exactly the one key 5 but reports size 2, not 1. -/
theorem C1_duplicate_insert_increments_size :
    (Btree.new 2).insert 5 = some ⟨2, .mk true [5] [], 1⟩ ∧
    (Btree.mk 2 (.mk true [5] []) 1).insert 5 = some ⟨2, .mk true [5] [], 2⟩ ∧
    (Btree.mk 2 (.mk true [5] []) 2).get_size = 2 ∧
    (Btree.mk 2 (.mk true [5] []) 1).get_size = 1 ∧
    (Node.mk true [5] []).inorder = [5] := by
  refine ⟨rfl, rfl, rfl, rfl, rfl⟩

/-- C7: `_vacant_insert_key_in_node` does insert at the unique
order-preserving position (or overwrite an equal entry in place), but its
doc-comment promises to return the insertion index while the code returns
`std::distance(it, keys.end())`, the distance from the written position to
the end: inserting 5 into [10, 20, 30] places it at index 0 yet returns 4,
and overwriting 20 at index 1 returns 2. -/
theorem C7_returned_index_is_distance_to_end :
    vacant_insert_key_in_node 5 [10, 20, 30] = ([5, 10, 20, 30], 4) ∧
    (vacant_insert_key_in_node 5 [10, 20, 30]).1[0]? = some 5 ∧
    (vacant_insert_key_in_node 5 [10, 20, 30]).2 ≠ 0 ∧
    vacant_insert_key_in_node 20 [10, 20, 30] = ([10, 20, 30], 2) ∧
    (vacant_insert_key_in_node 20 [10, 20, 30]).2 ≠ 1 := by
  refine ⟨rfl, rfl, by decide, rfl, by decide⟩

/-- C8: with degree 2, inserting 10, 20, 30, 40 into the empty tree yields
after 30 a full root with keys [10, 20, 30], and after 40 a tree of depth 2
whose root holds [20], with left child [10] and right child [30, 40]. -/
theorem C8_root_growth_scenario :
    (((Btree.new 2).insert 10).bind (fun b => b.insert 20)).bind
        (fun b => b.insert 30) =
      some ⟨2, .mk true [10, 20, 30] [], 3⟩ ∧
    (Btree.mk 2 (.mk true [10, 20, 30] []) 3).root.keys = [10, 20, 30] ∧
    (Btree.mk 2 (.mk true [10, 20, 30] []) 3).root.keys.length = 2 * 2 - 1 ∧
    (Btree.mk 2 (.mk true [10, 20, 30] []) 3).insert 40 =
      some ⟨2, .mk false [20] [.mk true [10] [], .mk true [30, 40] []], 4⟩ ∧
    (Node.mk false [20] [.mk true [10] [], .mk true [30, 40] []]).keys = [20] ∧
    (Node.mk false [20] [.mk true [10] [], .mk true [30, 40] []]).height = 2 ∧
    (Node.mk false [20] [.mk true [10] [], .mk true [30, 40] []]).children.map
        Node.keys = [[10], [30, 40]] := by
  refine ⟨rfl, rfl, rfl, rfl, rfl, rfl, rfl⟩

/-- C10: when the root is full and already contains the key, `Btree::insert`
still performs root growth and a split before `_is_duplicate` can detect the
duplicate, so the height grows by one even though the stored key set is
unchanged (and, per the `num_keys++` slip of C1, the size counter still
increments). -/
theorem C10_duplicate_insert_into_full_root_grows_depth
    (b : Btree) (k : Int) (hwf : WF b)
    (hfull : b.root.keys.length = 2 * b.degree - 1)
    (hmem : k ∈ b.root.inorder) :
    ∃ b', b.insert k = some b' ∧
      b'.root.height = b.root.height + 1 ∧
      b'.root.inorder = b.root.inorder ∧
      b'.num_keys = b.num_keys + 1 := by
  obtain ⟨b', heq, _, hio, hnum, _, hgrow, _⟩ := insert_spec b k hwf
  refine ⟨b', heq, hgrow hfull, ?_, hnum⟩
  rw [hio]
  exact insKey_of_mem_sorted k _ hwf.2.2 hmem

/-- Witness for C10 at a concrete input: degree 2, full leaf root
[10, 20, 30], inserting the already-present key 20. -/
theorem C10_witness :
    ∃ b', (Btree.mk 2 (.mk true [10, 20, 30] []) 3).insert 20 = some b' ∧
      b'.root.height = (Node.mk true [10, 20, 30] []).height + 1 ∧
      b'.root.inorder = (Node.mk true [10, 20, 30] []).inorder ∧
      b'.num_keys = 3 + 1 :=
  C10_duplicate_insert_into_full_root_grows_depth
    ⟨2, .mk true [10, 20, 30] [], 3⟩ 20
    ⟨by decide, by decide, by decide⟩ (by decide) (by decide)

/-- C5: on a non-full node with a full child `y` at index `i` (in a
well-formed configuration: separator ordering around `y` and a sorted
subtree), `_vacant_split_child(i)` makes this node gain exactly one key and
one child; `y` keeps exactly its first `t-1` keys and, when internal, its
first `t` children; the fresh sibling `z` holds exactly the former upper
`t-1` keys of `y` and, when internal, its upper `t` children; the promoted
key is `y`'s former median `y.keys[t-1]`, landing at key index `i`, and `z`
sits at child index `i+1`. -/
theorem C5_split_child_postconditions
    (t : Nat) (ht : 2 ≤ t) (lf : Bool) (ks : List Int) (cs : List Node)
    (i : Nat) (y : Node)
    (hc : cs[i]? = some y)
    (hlen : cs.length = ks.length + 1)
    (hnf : ks.length < 2 * t - 1)
    (hfull : y.keys.length = 2 * t - 1)
    (hch : y.is_leaf = false → y.children.length = 2 * t)
    (hleafch : y.is_leaf = true → y.children = [])
    (hsy : List.Pairwise (· < ·) y.inorder)
    (hbrL : ∀ a ∈ ks.take i, ∀ b ∈ y.inorder, a < b)
    (hbrR : ∀ a ∈ ks.drop i, ∀ b ∈ y.inorder, b < a) :
    ∃ P' med y' z,
      vacant_split_child t i (.mk lf ks cs) = some P' ∧
      y.keys[t - 1]? = some med ∧
      P'.keys.length = ks.length + 1 ∧
      P'.children.length = cs.length + 1 ∧
      P'.keys[i]? = some med ∧
      P'.children[i]? = some y' ∧
      P'.children[i + 1]? = some z ∧
      y'.keys = y.keys.take (t - 1) ∧
      y'.keys.length = t - 1 ∧
      (y.is_leaf = false → y'.children = y.children.take t ∧ y'.children.length = t) ∧
      z.keys = y.keys.drop t ∧
      z.keys.length = t - 1 ∧
      (y.is_leaf = false → z.children = y.children.drop t ∧ z.children.length = t) := by
  obtain ⟨med, hspliteq, hmedq, hmid⟩ :=
    vacant_split_child_spec t ht lf ks cs i y hc hfull hch hleafch hsy hbrL hbrR
  have hile : i ≤ ks.length := by
    have : i < cs.length := by
      by_contra hcon
      rw [List.getElem?_eq_none (Nat.le_of_not_lt hcon)] at hc
      cases hc
    omega
  have hlA : (ks.take i).length = i := by
    rw [List.length_take]
    omega
  have hlAc : (cs.take i).length = i := length_take_of_getElem? hc
  refine ⟨_, med,
    Node.mk y.is_leaf (y.keys.take (t - 1))
      (if y.is_leaf then y.children else y.children.take t),
    Node.mk y.is_leaf (y.keys.drop t)
      (if y.is_leaf then [] else y.children.drop t),
    hspliteq, hmedq, ?_, ?_, ?_, ?_, ?_, rfl, ?_, ?_, rfl, ?_, ?_⟩
  · rw [Node.keys_mk, List.length_append, List.length_cons, List.length_drop]
    omega
  · rw [Node.children_mk, List.length_append, List.length_cons, List.length_cons,
      List.length_drop, hlAc]
    omega
  · rw [Node.keys_mk]
    have h0 := getElem?_at_append (ks.take i) (ks.drop i) med
    rwa [hlA] at h0
  · rw [Node.children_mk]
    have h0 := getElem?_at_append (cs.take i)
      (Node.mk y.is_leaf (y.keys.drop t)
        (if y.is_leaf then [] else y.children.drop t) :: cs.drop (i + 1))
      (Node.mk y.is_leaf (y.keys.take (t - 1))
        (if y.is_leaf then y.children else y.children.take t))
    rwa [hlAc] at h0
  · rw [Node.children_mk]
    have hassoc : cs.take i ++
        Node.mk y.is_leaf (y.keys.take (t - 1))
          (if y.is_leaf then y.children else y.children.take t) ::
        Node.mk y.is_leaf (y.keys.drop t)
          (if y.is_leaf then [] else y.children.drop t) ::
        cs.drop (i + 1) =
        (cs.take i ++ [Node.mk y.is_leaf (y.keys.take (t - 1))
          (if y.is_leaf then y.children else y.children.take t)]) ++
        Node.mk y.is_leaf (y.keys.drop t)
          (if y.is_leaf then [] else y.children.drop t) ::
        cs.drop (i + 1) := by
      simp
    rw [hassoc]
    have h0 := getElem?_at_append
      (cs.take i ++ [Node.mk y.is_leaf (y.keys.take (t - 1))
        (if y.is_leaf then y.children else y.children.take t)])
      (cs.drop (i + 1))
      (Node.mk y.is_leaf (y.keys.drop t)
        (if y.is_leaf then [] else y.children.drop t))
    rwa [List.length_append, hlAc] at h0
  · rw [Node.keys_mk, List.length_take]
    omega
  · intro hint
    rw [Node.children_mk, if_neg (by rw [hint]; simp)]
    refine ⟨rfl, ?_⟩
    rw [List.length_take, hch hint]
    omega
  · rw [Node.keys_mk, List.length_drop, hfull]
    omega
  · intro hint
    rw [Node.children_mk, if_neg (by rw [hint]; simp)]
    refine ⟨rfl, ?_⟩
    rw [List.length_drop, hch hint]
    omega

/-- Witness for C5 at a concrete input: degree 2, internal parent with one
key [100] and two children, splitting the full leaf child [1, 2, 3] at
index 0. -/
theorem C5_witness :
    ∃ P' med y' z,
      vacant_split_child 2 0
        (.mk false [100] [.mk true [1, 2, 3] [], .mk true [200, 300] []]) = some P' ∧
      (Node.mk true [1, 2, 3] []).keys[2 - 1]? = some med ∧
      P'.keys.length = [(100 : Int)].length + 1 ∧
      P'.children.length = [Node.mk true [1, 2, 3] [], .mk true [200, 300] []].length + 1 ∧
      P'.keys[0]? = some med ∧
      P'.children[0]? = some y' ∧
      P'.children[0 + 1]? = some z ∧
      y'.keys = (Node.mk true [1, 2, 3] []).keys.take (2 - 1) ∧
      y'.keys.length = 2 - 1 ∧
      ((Node.mk true [1, 2, 3] []).is_leaf = false →
        y'.children = (Node.mk true [1, 2, 3] []).children.take 2 ∧
        y'.children.length = 2) ∧
      z.keys = (Node.mk true [1, 2, 3] []).keys.drop 2 ∧
      z.keys.length = 2 - 1 ∧
      ((Node.mk true [1, 2, 3] []).is_leaf = false →
        z.children = (Node.mk true [1, 2, 3] []).children.drop 2 ∧
        z.children.length = 2) :=
  C5_split_child_postconditions 2 (by decide) false [100]
    [.mk true [1, 2, 3] [], .mk true [200, 300] []] 0 (.mk true [1, 2, 3] [])
    rfl (by decide) (by decide) (by decide)
    (by intro h; simp [Node.is_leaf_mk] at h)
    (fun _ => rfl) (by decide) (by decide) (by decide)

theorem fh_scan_found_spec (key : Int) (ks : List Int) :
    ∀ i j, fh_scan key ks i = .found j → i ≤ j ∧ ks[j - i]? = some key := by
  induction ks with
  | nil =>
    intro i j h
    rw [fh_scan] at h
    cases h
  | cons x xs ih =>
    intro i j h
    rw [fh_scan] at h
    by_cases h1 : x = key
    · rw [if_pos h1] at h
      cases h
      subst h1
      simp
    · rw [if_neg h1] at h
      by_cases h2 : x > key
      · rw [if_pos h2] at h
        cases h
      · rw [if_neg h2] at h
        obtain ⟨hle, hj⟩ := ih (i + 1) j h
        refine ⟨by omega, ?_⟩
        have : j - i = (j - (i + 1)) + 1 := by omega
        rw [this]
        simpa using hj

theorem fh_scan_descend_spec (key : Int) (ks : List Int) :
    ∀ i j, fh_scan key ks i = .descend j →
      i ≤ j ∧ j - i < ks.length ∧ (∀ a ∈ ks.take (j - i), a < key) ∧
      ∃ v, ks[j - i]? = some v ∧ key < v := by
  induction ks with
  | nil =>
    intro i j h
    rw [fh_scan] at h
    cases h
  | cons x xs ih =>
    intro i j h
    rw [fh_scan] at h
    by_cases h1 : x = key
    · rw [if_pos h1] at h
      cases h
    · rw [if_neg h1] at h
      by_cases h2 : x > key
      · rw [if_pos h2] at h
        cases h
        refine ⟨le_refl _, by simp, by simp, x, by simp, h2⟩
      · rw [if_neg h2] at h
        obtain ⟨hle, hlt, htk, v, hv, hkv⟩ := ih (i + 1) j h
        have hxi : j - i = (j - (i + 1)) + 1 := by omega
        refine ⟨by omega, by rw [hxi]; simpa using hlt, ?_, v, ?_, hkv⟩
        · rw [hxi]
          intro a ha
          rw [List.take_succ_cons] at ha
          rcases List.mem_cons.mp ha with rfl | ha'
          · omega
          · exact htk a ha'
        · rw [hxi]
          simpa using hv

theorem fh_scan_miss_spec (key : Int) (ks : List Int) :
    ∀ i, fh_scan key ks i = .miss → ∀ a ∈ ks, a < key := by
  induction ks with
  | nil =>
    intro i _ a ha
    cases ha
  | cons x xs ih =>
    intro i h
    rw [fh_scan] at h
    by_cases h1 : x = key
    · rw [if_pos h1] at h
      cases h
    · rw [if_neg h1] at h
      by_cases h2 : x > key
      · rw [if_pos h2] at h
        cases h
      · rw [if_neg h2] at h
        intro a ha
        rcases List.mem_cons.mp ha with rfl | ha'
        · omega
        · exact ih (i + 1) h a ha'

theorem fh_scan_found_mem (key : Int) (ks : List Int) :
    ∀ i j, fh_scan key ks i = .found j → key ∈ ks := by
  induction ks with
  | nil =>
    intro i j h
    rw [fh_scan] at h
    cases h
  | cons x xs ih =>
    intro i j h
    rw [fh_scan] at h
    by_cases h1 : x = key
    · simp [h1]
    · rw [if_neg h1] at h
      by_cases h2 : x > key
      · rw [if_pos h2] at h
        cases h
      · rw [if_neg h2] at h
        exact List.mem_cons_of_mem x (ih (i + 1) j h)

theorem find_home_mem (t : Nat) (key : Int) :
    ∀ (fuel : Nat) (nd : Node), nd.height ≤ fuel → looseWF t nd = true →
      List.Pairwise (· < ·) nd.inorder → key ∈ nd.inorder →
      ∃ nd2 i2, find_home_node fuel key nd = .ok nd2 i2 ∧
        nd2.keys[i2]? = some key := by
  intro fuel
  induction fuel with
  | zero =>
    intro nd hh
    exact absurd hh (by have := height_pos nd; omega)
  | succ fuel ih =>
    intro nd hh hwf hsort hmem
    cases nd with
    | mk lf ks cs =>
      rw [Node.inorder_mk] at hsort hmem
      cases hscan : fh_scan key ks 0 with
      | found j =>
        obtain ⟨_, hj⟩ := fh_scan_found_spec key ks 0 j hscan
        refine ⟨.mk lf ks cs, j, ?_, ?_⟩
        · rw [find_home_node, hscan]
        · rw [Node.keys_mk]
          simpa using hj
      | descend j =>
        obtain ⟨_, hlt, htk, v, hv, hkv⟩ := fh_scan_descend_spec key ks 0 j hscan
        simp only [Nat.sub_zero] at hlt htk hv
        have hknotks : key ∉ ks := by
          intro hk
          -- key would be < v yet appear at or after position j among keys < key
          have hsortks : List.Pairwise (· < ·) ks :=
            List.Pairwise.sublist (keys_sublist_inorderA ks cs) hsort
          have hdropgt : ∀ b ∈ ks.drop j, key < b := by
            have hdj : ks.drop j = v :: ks.drop (j + 1) := by
              have := list_split_at ks j v hv
              conv_lhs => rw [this]
              rw [List.drop_append_eq_append_drop]
              have hlA : (ks.take j).length = j := length_take_of_getElem? hv
              rw [hlA]
              simp
            rw [hdj]
            exact lt_all_of_sorted_cons
              (List.Pairwise.sublist (by rw [← hdj]; exact List.drop_sublist _ _) hsortks)
              hkv
          have := List.take_append_drop j ks
          rw [← this] at hk
          rcases List.mem_append.mp hk with hk' | hk'
          · exact absurd (htk key hk') (lt_irrefl key)
          · exact absurd (hdropgt key hk') (lt_irrefl key)
        cases lf with
        | true =>
          rcases (looseWF_leaf_iff t ks cs).mp hwf with ⟨_, hcs⟩
          subst hcs
          rw [inorderA_nil_children] at hmem
          exact absurd hmem hknotks
        | false =>
          rcases (looseWF_internal_iff t ks cs).mp hwf with ⟨_, hcslen, hcsw, hheq⟩
          have hjlt : j < cs.length := by omega
          obtain ⟨c, hc⟩ : ∃ x, cs[j]? = some x := by
            rw [List.getElem?_eq_getElem hjlt]
            exact ⟨_, rfl⟩
          have hlenA : (cs.take j).length = j := length_take_of_getElem? hc
          have hlenAk : (ks.take j).length = j := by
            rw [List.length_take]
            omega
          have hdecomp : inorderA ks cs =
              glueL (ks.take j) (cs.take j) ++ c.inorder ++
                glueR (ks.drop j) (cs.drop (j + 1)) := by
            conv_lhs => rw [← List.take_append_drop j ks, list_split_at cs j c hc]
            exact child_decomp _ _ _ _ _ (by omega)
              (by rw [List.length_drop, List.length_drop]; omega)
          have hsortA : List.Pairwise (· < ·)
              (glueL (ks.take j) (cs.take j) ++ (c.inorder ++
                glueR (ks.drop j) (cs.drop (j + 1)))) := by
            have h0 := hsort
            rw [hdecomp] at h0
            simpa [List.append_assoc] using h0
          have hpairs := List.pairwise_append.mp hsortA
          have hpairs2 := List.pairwise_append.mp hpairs.2.1
          have hLlt : ∀ a ∈ glueL (ks.take j) (cs.take j), a < key :=
            glueL_lt_key key _ _ _ (by omega) hsortA htk
          have hRgt : ∀ b ∈ glueR (ks.drop j) (cs.drop (j + 1)), key < b := by
            apply glueR_gt_key key _ _
              (by rw [List.length_drop, List.length_drop]; omega) hpairs2.2.1
            have hdj : ks.drop j = v :: ks.drop (j + 1) := by
              have := list_split_at ks j v hv
              conv_lhs => rw [this]
              rw [List.drop_append_eq_append_drop, hlenAk]
              simp
            rw [hdj]
            apply lt_all_of_sorted_cons _ hkv
            have hsortks : List.Pairwise (· < ·) ks :=
              List.Pairwise.sublist (keys_sublist_inorderA ks cs) hsort
            exact List.Pairwise.sublist (by rw [← hdj]; exact List.drop_sublist _ _) hsortks
          have hmemc : key ∈ c.inorder := by
            rw [hdecomp] at hmem
            rcases List.mem_append.mp hmem with hm | hm
            · rcases List.mem_append.mp hm with hm' | hm'
              · exact absurd (hLlt key hm') (lt_irrefl key)
              · exact hm'
            · exact absurd (hRgt key hm) (lt_irrefl key)
          have hcmem : c ∈ cs := by
            rw [list_split_at cs j c hc]
            simp
          obtain ⟨nd2, i2, hfh, hk2⟩ := ih c
            (by
              have := (heightsEq_iff cs).mp hheq c hcmem
              rw [Node.height_mk] at hh
              omega)
            ((csWF_iff t cs).mp hcsw c hcmem).2
            hpairs2.1 hmemc
          refine ⟨nd2, i2, ?_, hk2⟩
          rw [find_home_node, hscan]
          simp only [Node.is_leaf_mk, Bool.false_eq_true, if_false, hc]
          exact hfh
      | miss =>
        have hallks : ∀ a ∈ ks, a < key := fh_scan_miss_spec key ks 0 hscan
        have hknotks : key ∉ ks := by
          intro hk
          exact absurd (hallks key hk) (lt_irrefl key)
        cases lf with
        | true =>
          rcases (looseWF_leaf_iff t ks cs).mp hwf with ⟨_, hcs⟩
          subst hcs
          rw [inorderA_nil_children] at hmem
          exact absurd hmem hknotks
        | false =>
          rcases (looseWF_internal_iff t ks cs).mp hwf with ⟨_, hcslen, hcsw, hheq⟩
          have hjlt : ks.length < cs.length := by omega
          obtain ⟨c, hc⟩ : ∃ x, cs[ks.length]? = some x := by
            rw [List.getElem?_eq_getElem hjlt]
            exact ⟨_, rfl⟩
          have hlast : cs.getLast? = some c := by
            rw [List.getLast?_eq_getElem?]
            rw [show cs.length - 1 = ks.length by omega]
            exact hc
          have hlenA : (cs.take ks.length).length = ks.length :=
            length_take_of_getElem? hc
          have hdecomp : inorderA ks cs =
              glueL (ks.take ks.length) (cs.take ks.length) ++ c.inorder ++
                glueR (ks.drop ks.length) (cs.drop (ks.length + 1)) := by
            conv_lhs => rw [← List.take_append_drop ks.length ks,
              list_split_at cs ks.length c hc]
            exact child_decomp _ _ _ _ _ (by rw [hlenA, List.length_take]; omega)
              (by rw [List.length_drop, List.length_drop]; omega)
          have hRnil : glueR (ks.drop ks.length) (cs.drop (ks.length + 1)) = [] := by
            rw [List.drop_length, glueR_nil_left]
          have hsortA : List.Pairwise (· < ·)
              (glueL (ks.take ks.length) (cs.take ks.length) ++ (c.inorder ++
                glueR (ks.drop ks.length) (cs.drop (ks.length + 1)))) := by
            have h0 := hsort
            rw [hdecomp] at h0
            simpa [List.append_assoc] using h0
          have hpairs := List.pairwise_append.mp hsortA
          have hpairs2 := List.pairwise_append.mp hpairs.2.1
          have hLlt : ∀ a ∈ glueL (ks.take ks.length) (cs.take ks.length), a < key :=
            glueL_lt_key key _ _ _ (by rw [hlenA, List.length_take]; omega) hsortA
              (fun a ha => hallks a (List.take_subset _ _ ha))
          have hmemc : key ∈ c.inorder := by
            rw [hdecomp, hRnil] at hmem
            rcases List.mem_append.mp hmem with hm | hm
            · rcases List.mem_append.mp hm with hm' | hm'
              · exact absurd (hLlt key hm') (lt_irrefl key)
              · exact hm'
            · cases hm
          have hcmem : c ∈ cs := by
            rw [list_split_at cs ks.length c hc]
            simp
          obtain ⟨nd2, i2, hfh, hk2⟩ := ih c
            (by
              have := (heightsEq_iff cs).mp hheq c hcmem
              rw [Node.height_mk] at hh
              omega)
            ((csWF_iff t cs).mp hcsw c hcmem).2
            hpairs2.1 hmemc
          refine ⟨nd2, i2, ?_, hk2⟩
          rw [find_home_node, hscan]
          simp only [Node.is_leaf_mk, Bool.false_eq_true, if_false, hlast]
          exact hfh

theorem find_home_not_mem (t : Nat) (key : Int) :
    ∀ (fuel : Nat) (nd : Node), nd.height ≤ fuel → looseWF t nd = true →
      key ∉ nd.inorder →
      find_home_node fuel key nd = .thrown ∨
      ∃ nd2 i2, find_home_node fuel key nd = .ok nd2 i2 ∧
        ∀ v, nd2.keys[i2]? = some v → v ≠ key := by
  intro fuel
  induction fuel with
  | zero =>
    intro nd hh
    exact absurd hh (by have := height_pos nd; omega)
  | succ fuel ih =>
    intro nd hh hwf hmem
    cases nd with
    | mk lf ks cs =>
      rw [Node.inorder_mk] at hmem
      have hknotks : key ∉ ks := by
        intro hk
        exact hmem ((mem_inorderA key ks cs).mpr (Or.inl hk))
      cases hscan : fh_scan key ks 0 with
      | found j =>
        exact absurd (fh_scan_found_mem key ks 0 j hscan) hknotks
      | descend j =>
        cases lf with
        | true =>
          refine Or.inr ⟨.mk true ks cs, 0, ?_, ?_⟩
          · rw [find_home_node, hscan]
            simp [Node.is_leaf_mk]
          · intro v hv
            rw [Node.keys_mk] at hv
            intro hvk
            subst hvk
            exact hknotks (by
              have hj : v ∈ ks := by
                have hjlt : 0 < ks.length := by
                  by_contra hcon
                  rw [List.getElem?_eq_none (by omega)] at hv
                  cases hv
                have := list_split_at ks 0 v hv
                rw [this]
                simp
              exact hj)
        | false =>
          obtain ⟨_, hlt, _, _, _, _⟩ := fh_scan_descend_spec key ks 0 j hscan
          simp only [Nat.sub_zero] at hlt
          rcases (looseWF_internal_iff t ks cs).mp hwf with ⟨_, hcslen, hcsw, hheq⟩
          have hjlt : j < cs.length := by omega
          obtain ⟨c, hc⟩ : ∃ x, cs[j]? = some x := by
            rw [List.getElem?_eq_getElem hjlt]
            exact ⟨_, rfl⟩
          have hcmem : c ∈ cs := by
            rw [list_split_at cs j c hc]
            simp
          have hmemc : key ∉ c.inorder := by
            intro hkc
            exact hmem ((mem_inorderA key ks cs).mpr (Or.inr ⟨c, hcmem, hkc⟩))
          have hrec := ih c
            (by
              have := (heightsEq_iff cs).mp hheq c hcmem
              rw [Node.height_mk] at hh
              omega)
            ((csWF_iff t cs).mp hcsw c hcmem).2 hmemc
          have hred : find_home_node (fuel + 1) key (.mk false ks cs) =
              find_home_node fuel key c := by
            rw [find_home_node, hscan]
            simp only [Node.is_leaf_mk, Bool.false_eq_true, if_false, hc]
          rw [hred]
          exact hrec
      | miss =>
        cases lf with
        | true =>
          refine Or.inr ⟨.mk true ks cs, 0, ?_, ?_⟩
          · rw [find_home_node, hscan]
            simp [Node.is_leaf_mk]
          · intro v hv
            rw [Node.keys_mk] at hv
            intro hvk
            subst hvk
            refine hknotks ?_
            have hjlt : 0 < ks.length := by
              by_contra hcon
              rw [List.getElem?_eq_none (by omega)] at hv
              cases hv
            rw [list_split_at ks 0 v hv]
            simp
        | false =>
          rcases (looseWF_internal_iff t ks cs).mp hwf with ⟨_, hcslen, hcsw, hheq⟩
          have hjlt : ks.length < cs.length := by omega
          obtain ⟨c, hc⟩ : ∃ x, cs[ks.length]? = some x := by
            rw [List.getElem?_eq_getElem hjlt]
            exact ⟨_, rfl⟩
          have hlast : cs.getLast? = some c := by
            rw [List.getLast?_eq_getElem?]
            rw [show cs.length - 1 = ks.length by omega]
            exact hc
          have hcmem : c ∈ cs := by
            rw [list_split_at cs ks.length c hc]
            simp
          have hmemc : key ∉ c.inorder := by
            intro hkc
            exact hmem ((mem_inorderA key ks cs).mpr (Or.inr ⟨c, hcmem, hkc⟩))
          have hrec := ih c
            (by
              have := (heightsEq_iff cs).mp hheq c hcmem
              rw [Node.height_mk] at hh
              omega)
            ((csWF_iff t cs).mp hcsw c hcmem).2 hmemc
          have hred : find_home_node (fuel + 1) key (.mk false ks cs) =
              find_home_node fuel key c := by
            rw [find_home_node, hscan]
            simp only [Node.is_leaf_mk, Bool.false_eq_true, if_false, hlast]
          rw [hred]
          exact hrec

/-- C3: on a well-formed tree, `Btree::search(k)` returns the stored key equal
to `k` when `k` is present, and throws `std::out_of_range` (the KeyNotFound
error, which on the empty tree is raised by the equally-typed throw of
`keys.at(0)`) when `k` is absent. -/
theorem C3_search_found_iff (b : Btree) (k : Int) (hwf : WF b) :
    (k ∈ b.root.inorder → b.search k = .found k) ∧
    (k ∉ b.root.inorder → b.search k = .thrown) := by
  obtain ⟨ht, hroot, hsort⟩ := hwf
  obtain ⟨hloose, _⟩ := Bool.and_eq_true_iff.mp hroot
  constructor
  · intro hmem
    obtain ⟨nd2, i2, hfh, hk⟩ :=
      find_home_mem b.degree k b.root.height b.root (le_refl _) hloose hsort hmem
    simp only [Btree.search, hfh, hk, if_pos rfl, if_true]
  · intro hmem
    rcases find_home_not_mem b.degree k b.root.height b.root (le_refl _) hloose hmem with
      hthr | ⟨nd2, i2, hfh, hne⟩
    · simp only [Btree.search, hthr]
    · simp only [Btree.search, hfh]
      cases hkv : nd2.keys[i2]? with
      | none => rfl
      | some v =>
        simp only []
        rw [if_neg (hne v hkv)]

/-- Witness for C3 at concrete inputs: the one-key tree [5] with the present
key 5 and with the absent key 7 (the hypotheses of the two directions are
discharged by computation). -/
theorem C3_witness :
    (((5 : Int) ∈ (Node.mk true [5] []).inorder →
        (Btree.mk 2 (.mk true [5] []) 1).search 5 = .found 5) ∧
      ((5 : Int) ∉ (Node.mk true [5] []).inorder →
        (Btree.mk 2 (.mk true [5] []) 1).search 5 = .thrown)) ∧
    (((7 : Int) ∈ (Node.mk true [5] []).inorder →
        (Btree.mk 2 (.mk true [5] []) 1).search 7 = .found 7) ∧
      ((7 : Int) ∉ (Node.mk true [5] []).inorder →
        (Btree.mk 2 (.mk true [5] []) 1).search 7 = .thrown)) :=
  ⟨C3_search_found_iff ⟨2, .mk true [5] [], 1⟩ 5 ⟨by decide, by decide, by decide⟩,
   C3_search_found_iff ⟨2, .mk true [5] [], 1⟩ 7 ⟨by decide, by decide, by decide⟩⟩

/-- C6: the claim states that on the empty tree `remove(k)` raises
`KeyNotFound` as a normal control path with every access to the root's key
sequence in range or guarded.  The code refutes this: the first statement of
`Btree::_remove` evaluates `nd->keys.back()` (btree.h:758), which on the empty
root's zero-length key vector is an unguarded out-of-bounds access (undefined
behaviour for `std::vector::back`), reached before any guard could throw
`KeyNotFound`.  In the embedding the empty tree's removal therefore yields
`ub`, not `err`, for every degree and every key. -/
theorem C6_empty_tree_remove_is_out_of_bounds :
    ∀ (t : Nat) (k : Int), (Btree.new t).remove k = TreeRes.ub := by
  intro t k
  rw [Btree.remove]
  rw [show (Btree.new t).root = Node.mk true [] [] from rfl]
  rw [remove_rec]
  rfl

/-- C2 counterexample: the original claim quantifies over every well-formed
tree, but on the well-formed empty tree of degree 3 `remove(7)` does not
raise `KeyNotFound` although 7 is absent: `Btree::_remove` first evaluates
`nd->keys.back()` (btree.h:758) on the zero-length key vector, an unguarded
out-of-bounds read (undefined behaviour), before any guard could throw, so
in the embedding the removal yields `ub` rather than `err`. -/
theorem C2_counterexample :
    WF (Btree.new 3) ∧ (7 : Int) ∉ (Btree.new 3).root.inorder ∧
    (Btree.new 3).remove 7 = TreeRes.ub := by
  refine ⟨⟨by decide, by decide, by decide⟩, by decide, ?_⟩
  rw [Btree.remove]
  rw [show (Btree.new 3).root = Node.mk true [] [] from rfl]
  rw [remove_rec]
  rfl

/-- C2 (corrected): restricted to well-formed trees whose root holds at
least one key — on the empty tree `remove` performs an out-of-bounds
`keys.back()` read instead of throwing, see the counterexample — `remove`
raises `KeyNotFound` (the `err` outcome) exactly when the key is not stored,
and on that error path the stored key sequence, the minimum degree and the
reported size `num_keys` are all unchanged (the shape of ancestor nodes may
have been rebalanced by preemptive thickening, but contents and size are
preserved). -/
theorem C2_remove_error_iff_absent (b : Btree) (key : Int) (hwf : WF b)
    (hne : b.root.keys ≠ []) :
    ((∃ b', b.remove key = TreeRes.err b') ↔ key ∉ b.root.inorder) ∧
    (∀ b', b.remove key = TreeRes.err b' →
      b'.root.inorder = b.root.inorder ∧ b'.num_keys = b.num_keys ∧
      b'.degree = b.degree) := by
  obtain ⟨hpres, habs⟩ := remove_spec b key hwf hne
  constructor
  · constructor
    · rintro ⟨b', herr⟩
      by_contra hm
      obtain ⟨b'', hok, _⟩ := hpres hm
      rw [hok] at herr
      cases herr
    · intro hm
      obtain ⟨b', herr, _⟩ := habs hm
      exact ⟨b', herr⟩
  · intro b' herr
    by_cases hm : key ∈ b.root.inorder
    · obtain ⟨b'', hok, _⟩ := hpres hm
      rw [hok] at herr
      cases herr
    · obtain ⟨b'', herr2, hdeg, hio, hnum, _⟩ := habs hm
      rw [herr2] at herr
      injection herr with h
      subst h
      exact ⟨hio, hnum, hdeg⟩

/-- C2 witness: the corrected theorem applied to the concrete well-formed
one-key tree of degree 2 and the absent key 7; both hypotheses are
discharged by computation. -/
theorem C2_witness :
    ((∃ b', (Btree.mk 2 (.mk true [5] []) 1).remove 7 = TreeRes.err b') ↔
      (7 : Int) ∉ (Btree.mk 2 (.mk true [5] []) 1).root.inorder) ∧
    (∀ b', (Btree.mk 2 (.mk true [5] []) 1).remove 7 = TreeRes.err b' →
      b'.root.inorder = (Btree.mk 2 (.mk true [5] []) 1).root.inorder ∧
      b'.num_keys = (Btree.mk 2 (.mk true [5] []) 1).num_keys ∧
      b'.degree = (Btree.mk 2 (.mk true [5] []) 1).degree) :=
  C2_remove_error_iff_absent ⟨2, .mk true [5] [], 1⟩ 7
    ⟨by decide, by decide, by decide⟩ (by decide)

/-- C4: on a well-formed tree every public operation preserves the seven
structural invariants, which `WF` captures exactly: (1) equal leaf depth via
`heightsEq` at every node, (2)/(3) the key-count bounds with the root
exception, (4) `children = keys + 1` for internal nodes, and (5)/(6)/(7)
in-node ascent, separator ordering and global key uniqueness via strict
ascent of the full inorder sequence.  `search` does not mutate the tree in
the embedding (its result carries no tree), `insert` always returns a
well-formed tree, and `remove` returns a well-formed tree on both its normal
path and its `KeyNotFound` path (on the empty tree `remove` is an
out-of-bounds access and returns no tree at all, so the claim holds
vacuously there). -/
theorem C4_invariants_preserved (b : Btree) (key : Int) (hwf : WF b) :
    (∃ b', b.insert key = some b' ∧ WF b') ∧
    (∀ b', b.remove key = TreeRes.ok b' → WF b') ∧
    (∀ b', b.remove key = TreeRes.err b' → WF b') := by
  refine ⟨?_, ?_, ?_⟩
  · obtain ⟨b', hins, _, _, _, hwf', _, _⟩ := insert_spec b key hwf
    exact ⟨b', hins, hwf'⟩
  · intro b' hok
    by_cases hne : b.root.keys = []
    · rw [remove_empty_ub b key hne] at hok
      cases hok
    · obtain ⟨hpres, habs⟩ := remove_spec b key hwf hne
      by_cases hm : key ∈ b.root.inorder
      · obtain ⟨b'', hok2, _, _, _, hwf'⟩ := hpres hm
        rw [hok2] at hok
        injection hok with h
        subst h
        exact hwf'
      · obtain ⟨b'', herr2, _⟩ := habs hm
        rw [herr2] at hok
        cases hok
  · intro b' herr
    by_cases hne : b.root.keys = []
    · rw [remove_empty_ub b key hne] at herr
      cases herr
    · obtain ⟨hpres, habs⟩ := remove_spec b key hwf hne
      by_cases hm : key ∈ b.root.inorder
      · obtain ⟨b'', hok2, _⟩ := hpres hm
        rw [hok2] at herr
        cases herr
      · obtain ⟨b'', herr2, _, _, _, hwf'⟩ := habs hm
        rw [herr2] at herr
        injection herr with h
        subst h
        exact hwf'

/-- C4 witness: the theorem applied to the concrete well-formed one-key tree
of degree 2 and the key 5; the well-formedness hypothesis is discharged by
computation. -/
theorem C4_witness :
    (∃ b', (Btree.mk 2 (.mk true [5] []) 1).insert 5 = some b' ∧ WF b') ∧
    (∀ b', (Btree.mk 2 (.mk true [5] []) 1).remove 5 = TreeRes.ok b' →
      WF b') ∧
    (∀ b', (Btree.mk 2 (.mk true [5] []) 1).remove 5 = TreeRes.err b' →
      WF b') :=
  C4_invariants_preserved ⟨2, .mk true [5] [], 1⟩ 5
    ⟨by decide, by decide, by decide⟩

/-- C9: on a well-formed tree every public operation terminates, descending
at most the height of the tree.  In the embedding the recursion depth is
bounded by an explicit fuel, set from the root height exactly as each
operation consumes it (`search` and `remove` descend one level per unit,
`insert` gets one extra unit for the root-growth step), and fuel exhaustion
is a distinguished outcome (`SearchRes.gas` / `none` / `TreeRes.gas`); the
theorem states that with this fuel none of the three operations ever
exhausts it, i.e. `_find_home_node`, `_vacant_insert`, `_remove` and the
removal helpers recurse only on strictly deeper nodes and reach a leaf
within `height` steps. -/
theorem C9_recursion_descends_at_most_height (b : Btree) (key : Int)
    (hwf : WF b) :
    b.search key ≠ SearchRes.gas ∧
    (∃ b', b.insert key = some b') ∧
    b.remove key ≠ TreeRes.gas := by
  refine ⟨?_, ?_, ?_⟩
  · obtain ⟨ht, hrwf, hsort⟩ := hwf
    obtain ⟨hlw, _⟩ := Bool.and_eq_true_iff.mp hrwf
    by_cases hm : key ∈ b.root.inorder
    · obtain ⟨nd2, i2, hfh, hk⟩ := find_home_mem b.degree key b.root.height
        b.root (le_refl _) hlw hsort hm
      rw [Btree.search]
      simp only [hfh, hk]
      rw [if_pos trivial]
      intro hg
      cases hg
    · obtain h | ⟨nd2, i2, hfh, hvne⟩ := find_home_not_mem b.degree key
        b.root.height b.root (le_refl _) hlw hm
      · rw [Btree.search]
        simp only [h]
        intro hg
        cases hg
      · rw [Btree.search]
        simp only [hfh]
        cases hk : nd2.keys[i2]? with
        | none =>
          simp only [hk]
          intro hg
          cases hg
        | some v =>
          simp only [hk]
          rw [if_neg (hvne v hk)]
          intro hg
          cases hg
  · obtain ⟨b', hins, _⟩ := insert_spec b key hwf
    exact ⟨b', hins⟩
  · by_cases hne : b.root.keys = []
    · rw [remove_empty_ub b key hne]
      intro hg
      cases hg
    · obtain ⟨hpres, habs⟩ := remove_spec b key hwf hne
      by_cases hm : key ∈ b.root.inorder
      · obtain ⟨b'', hok, _⟩ := hpres hm
        rw [hok]
        intro hg
        cases hg
      · obtain ⟨b'', herr, _⟩ := habs hm
        rw [herr]
        intro hg
        cases hg

/-- C9 witness: the theorem applied to the concrete well-formed one-key tree
of degree 2 and the key 5; the well-formedness hypothesis is discharged by
computation. -/
theorem C9_witness :
    (Btree.mk 2 (.mk true [5] []) 1).search 5 ≠ SearchRes.gas ∧
    (∃ b', (Btree.mk 2 (.mk true [5] []) 1).insert 5 = some b') ∧
    (Btree.mk 2 (.mk true [5] []) 1).remove 5 ≠ TreeRes.gas :=
  C9_recursion_descends_at_most_height ⟨2, .mk true [5] [], 1⟩ 5
    ⟨by decide, by decide, by decide⟩

end BT
